import Mathlib

/-!
# libunwindstack: map table lookup and ARM exception-index lookup

A shallow embedding of `Maps::Find`, `Maps::ParseLine`
(`libunwindstack/Maps.cpp`) and of `ElfInterfaceArm::GetPrel31Addr`,
`ElfInterfaceArm::FindEntry` (`libunwindstack/ElfInterfaceArm.cpp`).

Conventions of the embedding:
* machine integers are `Nat`, reduced `% 2 ^ 32` or `% 2 ^ 64` at every place
  where the C++ arithmetic can wrap;
* a pointer into `maps_` is the index of the element it points at;
* a `while` loop is a function recursing on a bound on the number of loop
  bodies it may still run; running out of that bound is the outer `none`,
  which is never confused with a result of the C++ function.
-/

namespace unwindstack

/-! ## Maps.cpp -/

/-- The fields of `MapInfo` that the code below reads or writes (`end` is
spelled `end_`; the lazily created `elf` handle is not part of this
development). -/
structure MapInfo where
  start : Nat
  end_ : Nat
  offset : Nat
  flags : Nat
  name : List Char
deriving DecidableEq, Repr

/-- The `while (first <= last)` loop of `Maps::Find` (Maps.cpp:47-60).
The first argument bounds the number of loop bodies that may still run.
Result: `some (some i)` for `return cur` with `cur = &maps_[i]`,
`some none` for leaving the loop (by its condition or by `break`) and
reaching `return nullptr`, and `none` when the bound is used up or
`maps_[index]` would be outside the vector. The `size_t` sum `first + last`
does not wrap: both are indices into a vector of `MapInfo`. -/
def FindLoop (maps : List MapInfo) (pc : Nat) : Nat → Nat → Nat → Option (Option Nat)
  | 0, first, last => if first ≤ last then none else some none
  | fuel + 1, first, last =>
    if first ≤ last then
      let index := (first + last) / 2
      match maps[index]? with
      | none => none
      | some cur =>
        if cur.start ≤ pc ∧ pc < cur.end_ then
          some (some index)
        else if pc < cur.start then
          if index = 0 then
            some none
          else
            FindLoop maps pc fuel first (index - 1)
        else
          FindLoop maps pc fuel (index + 1) last
    else
      some none

/-- `Maps::Find` (Maps.cpp:41-62). The loop is given `maps_.size()` bodies,
which is more than it ever needs. -/
def Find (maps : List MapInfo) (pc : Nat) : Option (Option Nat) :=
  if maps.isEmpty then
    some none
  else
    FindLoop maps pc maps.length 0 (maps.length - 1)

/-- A linear scan of the table from index `i` on: the index of the first
entry with `start ≤ pc < end`. -/
def scanFrom (pc : Nat) : List MapInfo → Nat → Option Nat
  | [], _ => none
  | m :: ms, i => if m.start ≤ pc ∧ pc < m.end_ then some i else scanFrom pc ms (i + 1)

/-- The linear scan of the whole table. -/
def linearScan (maps : List MapInfo) (pc : Nat) : Option Nat :=
  scanFrom pc maps 0

/-- The table is sorted ascending by `start`: each entry starts no later than
the next one. -/
def SortedByStart : List MapInfo → Prop
  | a :: b :: rest => a.start ≤ b.start ∧ SortedByStart (b :: rest)
  | _ => True

/-- The end of each entry is at most the start of the next one. -/
def NonOverlapping : List MapInfo → Prop
  | a :: b :: rest => a.end_ ≤ b.start ∧ NonOverlapping (b :: rest)
  | _ => True

instance decSortedByStart : (maps : List MapInfo) → Decidable (SortedByStart maps)
  | [] => isTrue trivial
  | [_] => isTrue trivial
  | a :: b :: rest =>
    have := decSortedByStart (b :: rest)
    inferInstanceAs (Decidable (a.start ≤ b.start ∧ SortedByStart (b :: rest)))

instance decNonOverlapping : (maps : List MapInfo) → Decidable (NonOverlapping maps)
  | [] => isTrue trivial
  | [_] => isTrue trivial
  | a :: b :: rest =>
    have := decNonOverlapping (b :: rest)
    inferInstanceAs (Decidable (a.end_ ≤ b.start ∧ NonOverlapping (b :: rest)))

/-- A three-entry table used to evaluate `Find`. -/
def sampleMaps : List MapInfo :=
  [ { start := 0x1000, end_ := 0x2000, offset := 0, flags := 5, name := [] },
    { start := 0x2000, end_ := 0x3000, offset := 0, flags := 1, name := [] },
    { start := 0x5000, end_ := 0x6000, offset := 0, flags := 3, name := [] } ]

/-- A table that is neither sorted nor free of overlaps. -/
def overlappingMaps : List MapInfo :=
  [ { start := 0x3000, end_ := 0x4000, offset := 0, flags := 5, name := [] },
    { start := 0x1000, end_ := 0x2000, offset := 0, flags := 1, name := [] },
    { start := 0x1800, end_ := 0x5000, offset := 0, flags := 3, name := [] } ]

/-! ## Maps::ParseLine

`ParseLine` reads a line with one call of `sscanf`. `sscanf` belongs to the C
library, not to this repository; the conversions that the format string of the
call uses are written out below after the C standard (7.21.6.2): a white-space
directive skips white space, an ordinary character must match the next input
character, `%llx`, `%*x`, `%*d` and `%4s` first skip white space, and `%n`
stores the number of characters read so far and does not count as an
assignment. -/

/-- `isspace` in the C locale: space, `\t`, `\n`, `\v`, `\f`, `\r`. -/
def isspace (c : Char) : Bool :=
  c = Char.ofNat 32 || c = Char.ofNat 9 || c = Char.ofNat 10 || c = Char.ofNat 11 ||
    c = Char.ofNat 12 || c = Char.ofNat 13

/-- The value of a hexadecimal digit. -/
def hexValue (c : Char) : Option Nat :=
  if 48 ≤ c.toNat ∧ c.toNat ≤ 57 then some (c.toNat - 48)
  else if 97 ≤ c.toNat ∧ c.toNat ≤ 102 then some (c.toNat - 87)
  else if 65 ≤ c.toNat ∧ c.toNat ≤ 70 then some (c.toNat - 55)
  else none

/-- The value of a decimal digit. -/
def decValue (c : Char) : Option Nat :=
  if 48 ≤ c.toNat ∧ c.toNat ≤ 57 then some (c.toNat - 48) else none

/-- The input left after the white space at its front is skipped. -/
def skipSpace : List Char → List Char
  | [] => []
  | c :: cs => if isspace c then skipSpace cs else c :: cs

/-- The longest run of digits at the front of the input, as digit values, and
the input after it. -/
def spanDigits (digit : Char → Option Nat) : List Char → List Nat × List Char
  | [] => ([], [])
  | c :: cs =>
    match digit c with
    | some d => (d :: (spanDigits digit cs).1, (spanDigits digit cs).2)
    | none => ([], c :: cs)

/-- The number written by a list of digit values, most significant first. -/
def ofDigits (base : Nat) (ds : List Nat) : Nat :=
  ds.foldl (fun acc d => acc * base + d) 0

/-- The `unsigned long long` that `strtoull` makes of a sign and a magnitude:
`ULLONG_MAX` when the magnitude does not fit, the negated value (modulo
`2^64`) after a minus sign. -/
def toUnsigned64 (negative : Bool) (v : Nat) : Nat :=
  if 2 ^ 64 ≤ v then 2 ^ 64 - 1
  else if negative then (2 ^ 64 - v) % 2 ^ 64
  else v

/-- How a conversion or directive of `sscanf` ends: with a value and the
input left, with an input failure (the input ended), or with a matching
failure. -/
inductive Scan (α : Type) where
  | ok (value : α) (rest : List Char)
  | inputFailure
  | matchingFailure

/-- The input after an optional `0x` or `0X`. -/
def stripHexPrefix (body : List Char) : List Char :=
  match body with
  | c0 :: c1 :: rest => if c0 = '0' ∧ (c1 = 'x' ∨ c1 = 'X') then rest else body
  | _ => body

/-- The conversions `%llx` and `%x` (value unused for `%*x`): white space is
skipped, then an optional sign, an optional `0x` and at least one hexadecimal
digit are read. -/
def scanHex (input : List Char) : Scan Nat :=
  match skipSpace input with
  | [] => .inputFailure
  | c :: cs =>
    let body := if c = '-' ∨ c = '+' then cs else c :: cs
    match spanDigits hexValue (stripHexPrefix body) with
    | ([], _) => .matchingFailure
    | (d :: ds, rest) => .ok (toUnsigned64 (c = '-') (ofDigits 16 (d :: ds))) rest

/-- The conversion `%d` (value unused for `%*d`): white space is skipped,
then an optional sign and at least one decimal digit are read. The value is
the magnitude read; the call never stores it. -/
def scanDec (input : List Char) : Scan Nat :=
  match skipSpace input with
  | [] => .inputFailure
  | c :: cs =>
    let body := if c = '-' ∨ c = '+' then cs else c :: cs
    match spanDigits decValue body with
    | ([], _) => .matchingFailure
    | (d :: ds, rest) => .ok (ofDigits 10 (d :: ds)) rest

/-- At most `n` characters that are not white space from the front of the
input, and the input after them. -/
def takeNonSpace : Nat → List Char → List Char × List Char
  | 0, cs => ([], cs)
  | _ + 1, [] => ([], [])
  | n + 1, c :: cs =>
    if isspace c then ([], c :: cs)
    else (c :: (takeNonSpace n cs).1, (takeNonSpace n cs).2)

/-- The conversion `%4s`: white space is skipped, then up to four characters
that are not white space are read. -/
def scanString4 (input : List Char) : Scan (List Char) :=
  match skipSpace input with
  | [] => .inputFailure
  | c :: cs => .ok (takeNonSpace 4 (c :: cs)).1 (takeNonSpace 4 (c :: cs)).2

/-- An ordinary character `c` of the format: the next input character must be
`c`. -/
def scanChar (c : Char) (input : List Char) : Scan Unit :=
  match input with
  | [] => .inputFailure
  | d :: rest => if d = c then .ok () rest else .matchingFailure

/-- The end ` %*x:%*x %*d %n` of the format, run on the input left after the
fourth assignment: the value stored in `name_pos`, or `none` when a directive
before `%n` fails and `name_pos` is not written. -/
def scanNamePos (line rest : List Char) : Option Nat :=
  match scanHex (skipSpace rest) with
  | .ok _ rest =>
    match scanChar ':' rest with
    | .ok _ rest =>
      match scanHex rest with
      | .ok _ rest =>
        match scanDec (skipSpace rest) with
        | .ok _ rest => some (line.length - (skipSpace rest).length)
        | _ => none
      | _ => none
    | _ => none
  | _ => none

/-- What the `sscanf` call of `ParseLine` leaves behind: the input failed
before the first conversion (`EOF`), or the first `0` to `4` of `start`, `end`,
`permissions` and `offset` were assigned; after four assignments `name_pos` is
written (`some`) or not (`none`). -/
inductive SscanfResult where
  | eof
  | assigned0
  | assigned1 (start : Nat)
  | assigned2 (start end_ : Nat)
  | assigned3 (start end_ : Nat) (permissions : List Char)
  | assigned4 (start end_ : Nat) (permissions : List Char) (offset : Nat)
      (name_pos : Option Nat)
deriving DecidableEq

/-- The value `sscanf` returns: `EOF` or the number of assignments. -/
def SscanfResult.ret : SscanfResult → Int
  | .eof => -1
  | .assigned0 => 0
  | .assigned1 _ => 1
  | .assigned2 _ _ => 2
  | .assigned3 _ _ _ => 3
  | .assigned4 _ _ _ _ _ => 4

/-- The call `sscanf(line, "%llx-%llx %4s %llx %*x:%*x %*d %n", &start, &end,
permissions, &offset, &name_pos)` of Maps.cpp:69. -/
def sscanfMapsLine (line : List Char) : SscanfResult :=
  match scanHex line with
  | .inputFailure => .eof
  | .matchingFailure => .assigned0
  | .ok start rest =>
    match scanChar '-' rest with
    | .ok _ rest =>
      match scanHex rest with
      | .ok end_ rest =>
        match scanString4 (skipSpace rest) with
        | .ok permissions rest =>
          match scanHex (skipSpace rest) with
          | .ok offset rest =>
            .assigned4 start end_ permissions offset (scanNamePos line rest)
          | _ => .assigned3 start end_ permissions
        | _ => .assigned2 start end_
      | _ => .assigned1 start
    | _ => .assigned1 start

/-- The value of `permissions[i]` after `%4s` stored the characters
`permissions` and a terminating NUL in the `char[5]` array: `none` for an
element that was never written. -/
def permissionAt (permissions : List Char) (i : Nat) : Option Char :=
  if i < permissions.length then permissions[i]?
  else if i = permissions.length then some (Char.ofNat 0)
  else none

/-- `PROT_NONE`, `PROT_READ`, `PROT_WRITE`, `PROT_EXEC` of `<sys/mman.h>`. -/
def PROT_NONE : Nat := 0
def PROT_READ : Nat := 1
def PROT_WRITE : Nat := 2
def PROT_EXEC : Nat := 4

/-- How a call of `ParseLine` ends: `return false`, `return true` with
`*map_info` filled in, or undefined behaviour (the call reads a variable or an
array element that was never written, or indexes the name outside its
bounds). -/
inductive ParseLineResult where
  | returnFalse
  | returnTrue (map_info : MapInfo)
  | undefined
deriving DecidableEq

/-- `Maps::ParseLine` (Maps.cpp:64-90); `line` is the C string without its
terminating NUL, short enough for the `int` `name_pos` to hold its length. -/
def ParseLine (line : List Char) : ParseLineResult :=
  match sscanfMapsLine line with
  | .assigned4 start end_ permissions offset name_pos? =>
    match permissionAt permissions 0, permissionAt permissions 1, permissionAt permissions 2 with
    | some p0, some p1, some p2 =>
      let flags := PROT_NONE
      let flags := if p0 = 'r' then flags ||| PROT_READ else flags
      let flags := if p1 = 'w' then flags ||| PROT_WRITE else flags
      let flags := if p2 = 'x' then flags ||| PROT_EXEC else flags
      match name_pos? with
      | none => .undefined
      | some name_pos =>
        let name := line.drop name_pos
        -- `size_t length = name.length() - 1` wraps for the empty name
        let length := if name.length = 0 then 2 ^ 64 - 1 else name.length - 1
        match name[length]? with
        | none => .undefined
        | some c =>
          if c = Char.ofNat 10 then
            .returnTrue ⟨start, end_, offset, flags, name.take length⟩
          else
            .returnTrue ⟨start, end_, offset, flags, name⟩
    | _, _, _ => .undefined
  | _ => .returnFalse

/-- A non-empty string of hexadecimal digits. -/
def HexNumeral (S : List Char) : Prop :=
  S ≠ [] ∧ ∀ c ∈ S, (hexValue c).isSome = true

/-- A non-empty string of decimal digits. -/
def DecNumeral (S : List Char) : Prop :=
  S ≠ [] ∧ ∀ c ∈ S, (decValue c).isSome = true

/-- A non-empty run of white space. -/
def Blank (w : List Char) : Prop :=
  w ≠ [] ∧ ∀ c ∈ w, isspace c = true

/-- A permission field: exactly four characters, none of them white space. -/
def PermissionField (P : List Char) : Prop :=
  P.length = 4 ∧ ∀ c ∈ P, isspace c = false

/-- A region name: non-empty, starting with a character that is not white
space, and without a newline in it. -/
def RegionName (NAME : List Char) : Prop :=
  NAME ≠ [] ∧ (∀ c, NAME.head? = some c → isspace c = false) ∧ Char.ofNat 10 ∉ NAME

instance (S : List Char) : Decidable (HexNumeral S) := by unfold HexNumeral; infer_instance
instance (S : List Char) : Decidable (DecNumeral S) := by unfold DecNumeral; infer_instance
instance (w : List Char) : Decidable (Blank w) := by unfold Blank; infer_instance
instance (P : List Char) : Decidable (PermissionField P) := by
  unfold PermissionField; infer_instance
instance (NAME : List Char) : Decidable (RegionName NAME) := by
  unfold RegionName
  exact @instDecidableAnd _ _ _ (@instDecidableAnd _ _
    (match NAME with
      | [] => isTrue (by simp)
      | c :: _ => decidable_of_iff (isspace c = false) (by simp)) _)

/-- The line `S-E PPPP O D:D I NAME`, with the runs of white space `w1` to
`w5` between the fields and `nl` (nothing or a newline) at its end. -/
def mapsLine (S E w1 P w2 O w3 D1 D2 w4 I w5 NAME nl : List Char) : List Char :=
  S ++ ('-' :: (E ++ (w1 ++ (P ++ (w2 ++ (O ++ (w3 ++ (D1 ++ (':' :: (D2 ++ (w4 ++ (I ++
    (w5 ++ (NAME ++ nl))))))))))))))

/-- The number that a string of hexadecimal digits writes. -/
def hexNumber (S : List Char) : Nat := ofDigits 16 (S.filterMap hexValue)

/-- The flags that `ParseLine` computes from the permission characters. -/
def permissionFlags (P : List Char) : Nat :=
  let flags := PROT_NONE
  let flags := if P[0]? = some 'r' then flags ||| PROT_READ else flags
  let flags := if P[1]? = some 'w' then flags ||| PROT_WRITE else flags
  let flags := if P[2]? = some 'x' then flags ||| PROT_EXEC else flags
  flags

/-- A line whose name has embedded spaces, field by field. -/
def spacedLine : List Char :=
  mapsLine "6f000000".toList "6f01e000".toList " ".toList "rwxp".toList " ".toList
    "00000000".toList " ".toList "00".toList "0c".toList " ".toList "16389419".toList
    "   ".toList "/data/app/My App/lib one.so".toList [Char.ofNat 10]

/-- The index `length` of Maps.cpp:85 at which `ParseLine` looks for a
newline: the `size_t` value of `name.length() - 1`, which wraps for the empty
name. -/
def newlineIndex (name : List Char) : Nat :=
  if name.length = 0 then 2 ^ 64 - 1 else name.length - 1

/-- The line of an anonymous mapping: the fields up to the inode, followed
only by the white space `trail`. -/
def anonymousLine (S E w1 P w2 O w3 D1 D2 w4 I trail : List Char) : List Char :=
  mapsLine S E w1 P w2 O w3 D1 D2 w4 I trail [] []

/-- The line of an anonymous mapping, with its newline. -/
def anonLine : List Char := "1000-2000 rw-p 00000000 00:00 0\n".toList

/-- The line of the comment in `ParseLine`, with its newline. -/
def sampleLine : List Char :=
  "6f000000-6f01e000 rwxp 00000000 00:0c 16389419   /system/lib/libcomposer.so\n".toList

/-- A line that stops after the offset. -/
def shortLine : List Char := "1000-2000 r-xp 00000000".toList

/-! ## Maps::Parse and MapsBuffer::Parse -/

/-- How a call of `Maps::Parse` or `MapsBuffer::Parse` ends: `return false` or
`return true`, each with the table `maps_` after the call, or with undefined
behaviour in a call of `ParseLine`. -/
inductive ParseOutcome where
  | returnFalse (maps_ : List MapInfo)
  | returnTrue (maps_ : List MapInfo)
  | undefined
deriving DecidableEq

/-- The string from `start_of_line` up to and including the first newline, and
the pointer `end_of_line` after `end_of_line++` as the string it points at
(`none` for `nullptr`, when `strchr` finds no newline and the line is the whole
rest); Maps.cpp:125-132. -/
def splitFirstLine : List Char → List Char × Option (List Char)
  | [] => ([], none)
  | c :: cs =>
    if c = Char.ofNat 10 then ([c], some cs)
    else (c :: (splitFirstLine cs).1, (splitFirstLine cs).2)

/-- The `do ... while` loop of `MapsBuffer::Parse` (Maps.cpp:124-142) with the
`return true` after it. The first argument bounds the number of loop bodies
that may still run, `none` means the bound is used up. -/
def MapsBuffer.ParseLoop : Nat → List Char → List MapInfo → Option ParseOutcome
  | 0, _, _ => none
  | fuel + 1, start_of_line, maps_ =>
    match ParseLine (splitFirstLine start_of_line).1 with
    | .returnFalse => some (.returnFalse maps_)
    | .undefined => some .undefined
    | .returnTrue map_info =>
      match (splitFirstLine start_of_line).2 with
      | none => some (.returnTrue (maps_ ++ [map_info]))
      | some end_of_line =>
        if end_of_line = [] then some (.returnTrue (maps_ ++ [map_info]))
        else MapsBuffer.ParseLoop fuel end_of_line (maps_ ++ [map_info])

/-- `MapsBuffer::Parse` (Maps.cpp:122-143); `buffer_` is the C string without
its terminating NUL. Every loop body but the last consumes a character, so
`buffer_.length + 1` loop bodies are enough. -/
def MapsBuffer.Parse (buffer_ : List Char) (maps_ : List MapInfo) : Option ParseOutcome :=
  MapsBuffer.ParseLoop (buffer_.length + 1) buffer_ maps_

/-- The characters that `fgets` stores when it may store `k` of them: the
stream up to and including the first newline, or its first `k` characters when
no newline is among them; and the stream left. -/
def takeLine : Nat → List Char → List Char × List Char
  | 0, stream => ([], stream)
  | _ + 1, [] => ([], [])
  | k + 1, c :: cs =>
    if c = Char.ofNat 10 then ([c], cs)
    else (c :: (takeLine k cs).1, (takeLine k cs).2)

/-- The call `fgets(buf, n, fp)` on a stream of characters: `none` for `NULL`
at the end of the file, and otherwise the line stored, of at most `n - 1`
characters, and the stream left. -/
def fgets (n : Nat) (stream : List Char) : Option (List Char × List Char) :=
  if stream = [] then none else some (takeLine (n - 1) stream)

/-- The `while (fgets(...))` loop of `Maps::Parse` (Maps.cpp:98-108) with the
`return true` after it; the buffer `line` has 8192 characters. The first
argument bounds the number of loop bodies that may still run. -/
def Maps.ParseLoop : Nat → List Char → List MapInfo → Option ParseOutcome
  | 0, _, _ => none
  | fuel + 1, stream, maps_ =>
    match fgets 8192 stream with
    | none => some (.returnTrue maps_)
    | some (line, stream) =>
      match ParseLine line with
      | .returnFalse => some (.returnFalse maps_)
      | .undefined => some .undefined
      | .returnTrue map_info => Maps.ParseLoop fuel stream (maps_ ++ [map_info])

/-- `Maps::Parse` (Maps.cpp:92-109) on the file that `fopen` opens: `none` when
it cannot be opened, and otherwise its characters, none of them NUL. -/
def Maps.Parse (file : Option (List Char)) (maps_ : List MapInfo) : Option ParseOutcome :=
  match file with
  | none => some (.returnFalse maps_)
  | some stream => Maps.ParseLoop (stream.length + 1) stream maps_

/-- The lines of a text, each with its newline; the last one may lack it. -/
def splitLines : List Char → List (List Char)
  | [] => []
  | c :: cs =>
    if c = Char.ofNat 10 then [c] :: splitLines cs
    else
      match splitLines cs with
      | [] => [[c]]
      | line :: lines => (c :: line) :: lines

/-- The MapEntry invariant that `Maps::Find` relies on: every entry has
`start < end`, the entries are sorted ascending by start and none overlaps the
next. -/
def MapsInvariant (maps : List MapInfo) : Prop :=
  (∀ m ∈ maps, m.start < m.end_) ∧ SortedByStart maps ∧ NonOverlapping maps

instance (maps : List MapInfo) : Decidable (MapsInvariant maps) := by
  unfold MapsInvariant; infer_instance

/-- Two lines in descending order of their addresses. -/
def descendingBuffer : List Char :=
  "2000-3000 r-xp 0 00:00 0 b\n1000-2000 r-xp 0 00:00 0 a\n".toList

/-- Two lines in ascending order of their addresses. -/
def ascendingBuffer : List Char :=
  "1000-2000 r-xp 0 00:00 0 a\n2000-3000 r-xp 0 00:00 0 b\n".toList

/-- The entries of the two lines in descending order. -/
def descendingMaps : List MapInfo :=
  [⟨0x2000, 0x3000, 0, 5, ['b']⟩, ⟨0x1000, 0x2000, 0, 5, ['a']⟩]

/-- The entries of the two lines in ascending order. -/
def ascendingMaps : List MapInfo :=
  [⟨0x1000, 0x2000, 0, 5, ['a']⟩, ⟨0x2000, 0x3000, 0, 5, ['b']⟩]

/-- One line whose end address is below its start address. -/
def invertedBuffer : List Char := "2000-1000 r-xp 0 00:00 0 a\n".toList

/-- A line that ends with its newline and has no other newline in it. -/
def LineEndsWithNewline (line : List Char) : Prop :=
  line.getLast? = some (Char.ofNat 10) ∧ Char.ofNat 10 ∉ line.dropLast

instance (line : List Char) : Decidable (LineEndsWithNewline line) := by
  unfold LineEndsWithNewline; infer_instance

/-- The entry of the region `a`. -/
def regionA : MapInfo := ⟨0x1000, 0x2000, 0, 5, ['a']⟩

/-- The entry of the region `b`. -/
def regionB : MapInfo := ⟨0x2000, 0x3000, 0, 5, ['b']⟩

/-- The line of the region `a`, with its newline. -/
def firstLine : List Char := "1000-2000 r-xp 0 00:00 0 a\n".toList

/-- The line of the region `b`, without a newline. -/
def lastLine : List Char := "2000-3000 r-xp 0 00:00 0 b".toList

/-- A byte of the file. -/
abbrev Byte := Fin 256

/-- The integer that a little-endian host reads from the bytes. -/
def leValue : List Byte → Nat
  | [] => 0
  | b :: bs => b.val + 256 * leValue bs

/-- The call `read(fd, buf, n)` on a file whose unread bytes are `stream`: the
bytes read, `n` of them or all that are left, and the bytes left unread. The
number that `read` returns is the length of the first component. -/
def readBytes (stream : List Byte) (n : Nat) : List Byte × List Byte :=
  (stream.take n, stream.drop n)

/-- How one body of the loop of `MapsOffline::Parse` ends: the file is at its
end before the record (`bytes == 0`, line 172), some `read` returns fewer bytes
than asked for, or a record was read. -/
inductive RecordRead where
  | endOfFile
  | shortRead
  | record (map_info : MapInfo) (stream : List Byte)
deriving DecidableEq

/-- One body of the loop of `MapsOffline::Parse` (Maps.cpp:170-203), up to the
`push_back`; `flags` and `len` are `uint16_t`. -/
def MapsOffline.readRecord (stream : List Byte) : RecordRead :=
  let start := readBytes stream 8
  if start.1.length = 0 then .endOfFile
  else if start.1.length ≠ 8 then .shortRead
  else
    let end_ := readBytes start.2 8
    if end_.1.length ≠ 8 then .shortRead
    else
      let offset := readBytes end_.2 8
      if offset.1.length ≠ 8 then .shortRead
      else
        let flags := readBytes offset.2 2
        if flags.1.length ≠ 2 then .shortRead
        else
          let len := readBytes flags.2 2
          if len.1.length ≠ 2 then .shortRead
          else if leValue len.1 > 0 then
            let name := readBytes len.2 (leValue len.1)
            if name.1.length ≠ leValue len.1 then .shortRead
            else
              .record ⟨leValue start.1, leValue end_.1, leValue offset.1, leValue flags.1,
                name.1.map (fun b => Char.ofNat b.val)⟩ name.2
          else
            .record ⟨leValue start.1, leValue end_.1, leValue offset.1, leValue flags.1, []⟩
              len.2

/-- The `while (true)` loop of `MapsOffline::Parse` (Maps.cpp:169-204) with the
`return true` after it: the returned flag and the table. The first argument
bounds the number of loop bodies that may still run. -/
def MapsOffline.ParseLoop : Nat → List Byte → List MapInfo → Option (Bool × List MapInfo)
  | 0, _, _ => none
  | fuel + 1, stream, maps_ =>
    match MapsOffline.readRecord stream with
    | .endOfFile => some (true, maps_)
    | .shortRead => some (false, maps_)
    | .record map_info stream => MapsOffline.ParseLoop fuel stream (maps_ ++ [map_info])

/-- `MapsOffline::Parse` (Maps.cpp:155-206) on the file that `open` opens:
`none` when it cannot be opened, and otherwise its bytes. -/
def MapsOffline.Parse (file : Option (List Byte)) (maps_ : List MapInfo) :
    Option (Bool × List MapInfo) :=
  match file with
  | none => some (false, maps_)
  | some stream => MapsOffline.ParseLoop (stream.length + 1) stream maps_

/-- The `n` bytes that hold the integer `v` on a little-endian host. -/
def leBytes : Nat → Nat → List Byte
  | 0, _ => []
  | n + 1, v => ⟨v % 256, Nat.mod_lt _ (by decide)⟩ :: leBytes n (v / 256)

/-- The byte that holds a character of a name. -/
def charByte (c : Char) : Byte := ⟨c.toNat % 256, Nat.mod_lt _ (by decide)⟩

/-- A complete record of the offline format: 8-byte start, 8-byte end, 8-byte
offset, 2-byte flags, 2-byte name length, then the bytes of the name. -/
def encodeRecord (m : MapInfo) : List Byte :=
  leBytes 8 m.start ++ (leBytes 8 m.end_ ++ (leBytes 8 m.offset ++ (leBytes 2 m.flags ++
    (leBytes 2 m.name.length ++ m.name.map charByte))))

/-- The concatenation of the records of a table, in order. -/
def encodeRecords : List MapInfo → List Byte
  | [] => []
  | m :: ms => encodeRecord m ++ encodeRecords ms

/-- An entry that a record can hold: the integers fit their fields and the name
is a string of fewer than `2^16` bytes. -/
def RecordOK (m : MapInfo) : Prop :=
  m.start < 2 ^ 64 ∧ m.end_ < 2 ^ 64 ∧ m.offset < 2 ^ 64 ∧ m.flags < 2 ^ 16 ∧
    m.name.length < 2 ^ 16 ∧ ∀ c ∈ m.name, c.toNat < 256

instance (m : MapInfo) : Decidable (RecordOK m) := by
  unfold RecordOK; infer_instance

/-- A table of two entries, the second one without a name. -/
def offlineMaps : List MapInfo :=
  [ { start := 0x1000, end_ := 0x2000, offset := 0x30, flags := 5, name := "/a b".toList },
    { start := 0x2000, end_ := 0x3000, offset := 0, flags := 3, name := [] } ]

/-! ## ElfInterfaceArm.cpp

`ElfInterfaceArm.h`, `ElfInterface.h` and `Memory.h` are not among the sources
at hand. The widths of the members are the ones their uses in
`ElfInterfaceArm.cpp` show: `load_bias_` and `start_offset_` are `uint64_t`,
`total_entries_` is a `size_t` (taken to be 64 bits wide), `first_addr_`,
`last_addr_` and the values of `addrs_` are `uint32_t`. -/

/-- The `Memory` object behind `memory_`, as far as `Read32` shows it: the
32-bit word read at an address, or `none` when the read fails. -/
abbrev Memory := Nat → Option Nat

/-- The members of `ElfInterfaceArm` that `FindEntry` and `HandleType` use.
`addrs_` is the `std::unordered_map` of decoded addresses; a key that is not
in the map reads as `0`, as `operator[]` makes it. -/
structure ElfInterfaceArm where
  load_bias_ : Nat
  start_offset_ : Nat
  total_entries_ : Nat
  first_addr_ : Nat
  last_addr_ : Nat
  addrs_ : Nat → Nat

/-- The value of a 32-bit pattern read as an `int32_t`. -/
def toInt32 (x : Nat) : Int :=
  if x % 2 ^ 32 < 2 ^ 31 then ((x % 2 ^ 32 : Nat) : Int) else ((x % 2 ^ 32 : Nat) : Int) - 2 ^ 32

/-- `ElfInterfaceArm::GetPrel31Addr` (ElfInterfaceArm.cpp:98-108); `offset` is
a `uint32_t`. `none` is `return false`, `some addr` is `return true` with
`*addr` written. `static_cast<int32_t>(data) << 1` keeps the low 32 bits of the
doubled word, `>> 1` is the arithmetic shift, and `offset + value` is reduced
to a `uint32_t`. -/
def GetPrel31Addr (memory : Memory) (offset : Nat) : Option Nat :=
  match memory offset with
  | none => none
  | some data =>
    let value : Int := toInt32 (data % 2 ^ 32 * 2) / 2
    some (((offset : Int) + value) % 2 ^ 32).toNat

/-- The `uint64_t` value of `start_offset_ + i * 8`, where `i * 8` is a
`size_t` product. -/
def ElfInterfaceArm.entryOffset (s : ElfInterfaceArm) (i : Nat) : Nat :=
  (s.start_offset_ + i * 8 % 2 ^ 64) % 2 ^ 64

/-- What a call of `FindEntry` leaves behind: the returned flag, the value of
`*entry_offset` (the caller's value when the call did not write it), the
object after the call, the offsets the call passed to `GetPrel31Addr`, in
order, and the source line of the `return` statement that ended the call. -/
structure FindEntryResult where
  ret : Bool
  entry_offset : Nat
  self : ElfInterfaceArm
  reads : List Nat
  line : Nat

/-- Lines 70-76 of `FindEntry`: the address of entry `current`, from `addrs_`
when the value there is non-zero and decoded from memory (and stored in
`addrs_`) otherwise. The first component is `none` when the decode fails. -/
def ElfInterfaceArm.readAddr (memory : Memory) (s : ElfInterfaceArm) (current : Nat)
    (reads : List Nat) : Option Nat × ElfInterfaceArm × List Nat :=
  let addr := s.addrs_ current
  if addr = 0 then
    let offset := s.entryOffset current % 2 ^ 32
    match GetPrel31Addr memory offset with
    | none => (none, s, reads ++ [offset])
    | some addr =>
      (some addr, { s with addrs_ := Function.update s.addrs_ current addr }, reads ++ [offset])
  else
    (some addr, s, reads)

/-- The `while (first <= last)` loop of `FindEntry` (ElfInterfaceArm.cpp:68-95)
with the `return false` that follows it; `pc` is the pc after the load bias
has been subtracted. The first argument bounds the number of loop bodies that
may still run, `none` means the bound is used up. -/
def FindEntryLoop (memory : Memory) (pc : Nat) (entry_offset : Nat) :
    Nat → ElfInterfaceArm → List Nat → Nat → Nat → Option FindEntryResult
  | 0, s, reads, first, last =>
    if first ≤ last then none else some ⟨false, entry_offset, s, reads, 95⟩
  | fuel + 1, s, reads, first, last =>
    if first ≤ last then
      let current := first + (last - first) / 2
      match s.readAddr memory current reads with
      | (none, s, reads) => some ⟨false, entry_offset, s, reads, 73⟩
      | (some addr, s, reads) =>
        if pc = addr then
          some ⟨true, s.entryOffset current, s, reads, 79⟩
        else if pc < addr then
          if current = first then
            some ⟨true, s.entryOffset (current - 1), s, reads, 84⟩
          else
            FindEntryLoop memory pc entry_offset fuel s reads first (current - 1)
        else
          if current = last then
            some ⟨true, s.entryOffset current, s, reads, 90⟩
          else
            FindEntryLoop memory pc entry_offset fuel s reads (current + 1) last
    else
      some ⟨false, entry_offset, s, reads, 95⟩

/-- Lines 51-96 of `FindEntry`: everything after the first and last address
have been set up. The loop may run `total_entries_` bodies. -/
def ElfInterfaceArm.search (memory : Memory) (s : ElfInterfaceArm) (pc entry_offset : Nat)
    (reads : List Nat) : Option FindEntryResult :=
  if pc < s.load_bias_ then
    some ⟨false, entry_offset, s, reads, 53⟩
  else
    let pc := (pc - s.load_bias_) % 2 ^ 32
    if pc < s.first_addr_ then
      some ⟨false, entry_offset, s, reads, 58⟩
    else if pc ≥ s.last_addr_ then
      some ⟨true, s.entryOffset (s.total_entries_ - 1), s, reads, 63⟩
    else
      FindEntryLoop memory pc entry_offset s.total_entries_ s reads 1 (s.total_entries_ - 1)

/-- `ElfInterfaceArm::FindEntry` (ElfInterfaceArm.cpp:28-96); `pc` is a
`uint32_t`, `entry_offset` is the value `*entry_offset` has before the call. -/
def FindEntry (memory : Memory) (s : ElfInterfaceArm) (pc entry_offset : Nat) :
    Option FindEntryResult :=
  if s.start_offset_ = 0 ∨ s.total_entries_ = 0 then
    some ⟨false, entry_offset, s, [], 30⟩
  else if s.first_addr_ = 0 then
    let offset0 := s.start_offset_ % 2 ^ 32
    match GetPrel31Addr memory offset0 with
    | none => some ⟨false, entry_offset, s, [offset0], 37⟩
    | some addr =>
      let s := { s with addrs_ := Function.update s.addrs_ 0 addr, first_addr_ := addr }
      if s.total_entries_ > 1 then
        let entry := s.total_entries_ - 1
        let offset := s.entryOffset entry % 2 ^ 32
        match GetPrel31Addr memory offset with
        | none => some ⟨false, entry_offset, s, [offset0, offset], 44⟩
        | some addr =>
          let s := { s with addrs_ := Function.update s.addrs_ entry addr, last_addr_ := addr }
          s.search memory pc entry_offset [offset0, offset]
      else
        let s := { s with last_addr_ := addr }
        s.search memory pc entry_offset [offset0]
  else
    s.search memory pc entry_offset []

/-- A freshly constructed `ElfInterfaceArm` whose table has been set: nothing
decoded yet. -/
def ElfInterfaceArm.fresh (load_bias start_offset total_entries : Nat) : ElfInterfaceArm :=
  { load_bias_ := load_bias, start_offset_ := start_offset, total_entries_ := total_entries,
    first_addr_ := 0, last_addr_ := 0, addrs_ := fun _ => 0 }

/-- The object states reachable from `s₀` by calls of `FindEntry` over the
memory `memory`, with any `uint32_t` pc and any `*entry_offset`. -/
inductive Reachable (memory : Memory) (s₀ : ElfInterfaceArm) : ElfInterfaceArm → Prop
  | start : Reachable memory s₀ s₀
  | call {s : ElfInterfaceArm} (pc entry_offset : Nat) (r : FindEntryResult) :
      Reachable memory s₀ s → pc < 2 ^ 32 → FindEntry memory s pc entry_offset = some r →
      Reachable memory s₀ r.self

/-- The decoded address of entry `i` of the table: what `GetPrel31Addr`
returns at the `uint32_t` offset `start_offset_ + i * 8` that `FindEntry`
passes to it. -/
def ElfInterfaceArm.decoded (memory : Memory) (s : ElfInterfaceArm) (i : Nat) : Option Nat :=
  GetPrel31Addr memory (s.entryOffset i % 2 ^ 32)

/-- The object `s'` is `s` with more addresses decoded: the table and the
first and last address are the same, and every value of `addrs_` is either
the one of `s` or the decoded address of an entry that `s` held as `0`. -/
structure Extends (memory : Memory) (s s' : ElfInterfaceArm) : Prop where
  load_bias_eq : s'.load_bias_ = s.load_bias_
  start_offset_eq : s'.start_offset_ = s.start_offset_
  total_entries_eq : s'.total_entries_ = s.total_entries_
  first_addr_eq : s'.first_addr_ = s.first_addr_
  last_addr_eq : s'.last_addr_ = s.last_addr_
  addrs : ∀ i, s'.addrs_ i = s.addrs_ i ∨
    (s.addrs_ i = 0 ∧ s.decoded memory i = some (s'.addrs_ i))

/-- The cached values agree with memory: a non-zero `first_addr_` is the
decoded address of entry 0, a non-zero `addrs_[i]` is the decoded address of
entry `i`, and, when the first address is set and the last entry can be
decoded, `last_addr_` is its decoded address. -/
structure CacheOK (memory : Memory) (s : ElfInterfaceArm) : Prop where
  first : s.first_addr_ = 0 ∨ s.decoded memory 0 = some s.first_addr_
  addrs : ∀ i, s.addrs_ i = 0 ∨ s.decoded memory i = some (s.addrs_ i)
  last : s.first_addr_ ≠ 0 → ∀ v, s.decoded memory (s.total_entries_ - 1) = some v →
    s.last_addr_ = v

/-- A linear scan of `n` addresses `a 0, ..., a (n - 1)` read as half-open
ranges: starting at entry `i`, the first entry `i` with `a i ≤ pc` that is the
last entry or has `pc < a (i + 1)`. The first argument is the number of
entries still to look at. -/
def rangeScan (a : Nat → Nat) (n pc : Nat) : Nat → Nat → Option Nat
  | 0, _ => none
  | k + 1, i =>
    if a i ≤ pc ∧ (i + 1 = n ∨ pc < a (i + 1)) then some i else rangeScan a n pc k (i + 1)

/-- The linear scan of the whole table. -/
def linearScanExidx (a : Nat → Nat) (n pc : Nat) : Option Nat :=
  rangeScan a n pc n 0

/-- The PREL31 word that makes the entry at `offset` decode to `addr`. -/
def prel31 (offset addr : Nat) : Nat :=
  (((addr : Int) - (offset : Int)) % 2 ^ 31).toNat

/-- A memory holding a two-entry exception-index table at offset `0x100` whose
entries decode to `0x1000` and `0x2000`; every other read fails. -/
def sampleMemory : Memory := fun addr =>
  if addr = 0x100 then some (prel31 0x100 0x1000)
  else if addr = 0x108 then some (prel31 0x108 0x2000)
  else none

/-- The fresh object over the two-entry table of `sampleMemory`. -/
def sampleArm : ElfInterfaceArm := ElfInterfaceArm.fresh 0 0x100 2

/-- The object of `sampleArm` with the load bias `0x10000`. -/
def biasedArm : ElfInterfaceArm := ElfInterfaceArm.fresh 0x10000 0x100 2

/-- The decoded addresses of the two-entry table of `sampleMemory`. -/
def sampleAddrs : Nat → Nat := fun i => if i = 0 then 0x1000 else 0x2000

/-- A memory holding a two-entry table at offset `0` whose entries decode to
`0x1000` and `0x2000`. -/
def zeroStartMemory : Memory := fun addr =>
  if addr = 0 then some (prel31 0 0x1000)
  else if addr = 8 then some (prel31 8 0x2000)
  else none

/-- The fresh object over the two-entry table of `zeroStartMemory`, at start
offset `0`. -/
def zeroStartArm : ElfInterfaceArm := ElfInterfaceArm.fresh 0 0 2

/-- The object with its load bias set to `0`. -/
def ElfInterfaceArm.withoutBias (s : ElfInterfaceArm) : ElfInterfaceArm :=
  { s with load_bias_ := 0 }

/-- The result of a call with the load bias of the object set to `0`. -/
def FindEntryResult.withoutBias (r : FindEntryResult) : FindEntryResult :=
  { r with self := r.self.withoutBias }

/-- A memory holding a two-entry table at offset `0x100` whose first entry
decodes to `0x1000` and whose last entry (at `0x108`) cannot be read. -/
def lastUnreadableMemory : Memory := fun addr =>
  if addr = 0x100 then some (prel31 0x100 0x1000) else none

/-- What two calls of `FindEntry` in a row return: the flag, `*entry_offset`
and the line of the `return`, for the first and for the second call. -/
def FindEntryTwice (memory : Memory) (s : ElfInterfaceArm) (pc pc' entry_offset : Nat) :
    Option ((Bool × Nat × Nat) × (Bool × Nat × Nat)) :=
  match FindEntry memory s pc entry_offset with
  | none => none
  | some r =>
    match FindEntry memory r.self pc' r.entry_offset with
    | none => none
    | some r' => some ((r.ret, r.entry_offset, r.line), (r'.ret, r'.entry_offset, r'.line))

/-- The low 31 bits of `w` read as a two's-complement signed 31-bit integer:
bit 30 is the sign bit, bit 31 is ignored. -/
def signExtend31 (w : Nat) : Int :=
  if w % 2 ^ 31 < 2 ^ 30 then ((w % 2 ^ 31 : Nat) : Int) else ((w % 2 ^ 31 : Nat) : Int) - 2 ^ 31

/-- A memory in which only the word at `0x2000` can be read; it holds the
delta `-0x1000` in its low 31 bits, with bit 31 set. -/
def negativeDeltaMemory : Memory := fun addr =>
  if addr = 0x2000 then some 0xfffff000 else none

/-- A memory holding a four-entry table at offset `0x100` whose entries decode
to `0x1000`, `0x3000`, `0x2000` and `0x4000`: the table is not sorted. -/
def unsortedMemory : Memory := fun addr =>
  if addr = 0x100 then some (prel31 0x100 0x1000)
  else if addr = 0x108 then some (prel31 0x108 0x3000)
  else if addr = 0x110 then some (prel31 0x110 0x2000)
  else if addr = 0x118 then some (prel31 0x118 0x4000)
  else none

/-- The fresh object over the four-entry table of `unsortedMemory`. -/
def unsortedArm : ElfInterfaceArm := ElfInterfaceArm.fresh 0 0x100 4

/-- The object of `unsortedArm` after the call `FindEntry(0x2500)`, which
decodes the entries 0, 3 and 2. -/
def warmArm : ElfInterfaceArm :=
  ((FindEntry unsortedMemory unsortedArm 0x2500 0).getD ⟨false, 0, unsortedArm, [], 0⟩).self

/-- A memory holding a four-entry table at offset `0x100` whose entries decode
to `0x1000`, `0`, `0x2000` and `0x4000`: the address of entry 1 is the value
that `addrs_` holds for an entry not yet decoded. -/
def sentinelMemory : Memory := fun addr =>
  if addr = 0x100 then some (prel31 0x100 0x1000)
  else if addr = 0x108 then some (prel31 0x108 0)
  else if addr = 0x110 then some (prel31 0x110 0x2000)
  else if addr = 0x118 then some (prel31 0x118 0x4000)
  else none

/-- The fresh object over the four-entry table of `sentinelMemory`. -/
def sentinelArm : ElfInterfaceArm := ElfInterfaceArm.fresh 0 0x100 4

/-- The object of `sentinelArm` after the call `FindEntry(0x1500)`, which
decodes all four entries. -/
def sentinelWarmArm : ElfInterfaceArm :=
  ((FindEntry sentinelMemory sentinelArm 0x1500 0).getD ⟨false, 0, sentinelArm, [], 0⟩).self

/-! ## ElfInterfaceArm::HandleType -/

/-- `PT_ARM_EXIDX` (ElfInterfaceArm.cpp:110-112). -/
def PT_ARM_EXIDX : Nat := 0x70000001

/-- The byte offset of `p_vaddr` in `Elf32_Phdr` (`<elf.h>`). -/
def Elf32_Phdr.p_vaddr : Nat := 8

/-- The byte offset of `p_memsz` in `Elf32_Phdr` (`<elf.h>`). -/
def Elf32_Phdr.p_memsz : Nat := 20

/-- The call `memory_->Read(offset, &phdr, &phdr.field, sizeof(phdr.field))`
for a 32-bit field of `Elf32_Phdr`: the word read at `offset` plus the offset
of the field in the structure, or `none` when the read fails. -/
def ReadField (memory : Memory) (offset field : Nat) : Option Nat :=
  match memory ((offset + field) % 2 ^ 64) with
  | none => none
  | some data => some (data % 2 ^ 32)

/-- What a call of `HandleType` leaves behind: the returned flag, the object
after the call and the source line of the `return` that ended the call. -/
structure HandleTypeResult where
  ret : Bool
  self : ElfInterfaceArm
  line : Nat

/-- `ElfInterfaceArm::HandleType` (ElfInterfaceArm.cpp:114-130); `type` is a
`uint32_t`. The difference `phdr.p_vaddr - load_bias_` is a `uint64_t`. -/
def HandleType (memory : Memory) (s : ElfInterfaceArm) (offset type : Nat) : HandleTypeResult :=
  if type ≠ PT_ARM_EXIDX then
    ⟨false, s, 116⟩
  else
    match ReadField memory offset Elf32_Phdr.p_vaddr with
    | none => ⟨true, s, 121⟩
    | some p_vaddr =>
      match ReadField memory offset Elf32_Phdr.p_memsz with
      | none => ⟨true, s, 124⟩
      | some p_memsz =>
        ⟨true, { s with start_offset_ := (p_vaddr + 2 ^ 64 - s.load_bias_ % 2 ^ 64) % 2 ^ 64,
                        total_entries_ := p_memsz / 8 }, 129⟩

/-- A memory holding the program header of an EXIDX segment at offset `0x34`:
`p_vaddr = 0x10100` and `p_memsz = 0x18`. -/
def phdrMemory : Memory := fun addr =>
  if addr = 0x34 + 8 then some 0x10100
  else if addr = 0x34 + 20 then some 0x18
  else none

/-- A memory holding only the `p_vaddr` of the program header at offset
`0x34`: the read of `p_memsz` fails. -/
def halfPhdrMemory : Memory := fun addr =>
  if addr = 0x34 + 8 then some 0x10100 else none

/-- An object whose table has been set before: start offset `0x200`, 5
entries, load bias `0x10000`. -/
def handledArm : ElfInterfaceArm := ElfInterfaceArm.fresh 0x10000 0x200 5

/-! ## ElfInterfaceArm::Step and ElfInterfaceArm::StepExidx -/

/-- Modelled from the spec: the ARM register set `RegsArm` (`Regs.h` is
missing): the logical program counter and stack pointer read by `pc()` and
`sp()` and written by `set_pc` and `set_sp`, and the architectural slots
indexed by `operator[]`, all 32-bit words. -/
structure RegsArm where
  pc_ : Nat
  sp_ : Nat
  regs_ : Nat → Nat

/-- The register numbers `ARM_REG_SP`, `ARM_REG_LR` and `ARM_REG_PC` that
`StepExidx` uses; `Machine.h`, which defines them, is missing. -/
structure ArmRegNumbers where
  ARM_REG_SP : Nat
  ARM_REG_LR : Nat
  ARM_REG_PC : Nat

/-- What the evaluator `ArmExidx` leaves behind: whether
`ExtractEntryData(entry_offset) && Eval()` held, the register set it worked
on, and its CFA. -/
structure ArmExidxResult where
  ok : Bool
  regs : RegsArm
  cfa : Nat

/-- The evaluator `ArmExidx` (`ArmExidx.h` is missing), for the two memories
it is constructed with: from the register set, the CFA it is seeded with and
the entry offset to what it leaves behind. -/
abbrev ArmExidx := RegsArm → Nat → Nat → ArmExidxResult

/-- What a call of `Step` or `StepExidx` leaves behind: the returned flag, the
object and the register set after the call, and the pcs with which the DWARF
step `ElfInterface32::Step` was called, in order. -/
structure StepResult where
  ret : Bool
  self : ElfInterfaceArm
  regs : RegsArm
  dwarfSteps : List Nat

/-- `ElfInterfaceArm::StepExidx` (ElfInterfaceArm.cpp:137-154). `pc` is a
`uint64_t` and is narrowed to the `uint32_t` parameter of `FindEntry`; the
local `entry_offset` is not initialised and is read only after `FindEntry` has
written it. `none` only when `FindEntry` runs out of loop bodies. -/
def StepExidx (memory : Memory) (arm : ArmExidx) (n : ArmRegNumbers) (s : ElfInterfaceArm)
    (pc : Nat) (regs : RegsArm) : Option StepResult :=
  match FindEntry memory s (pc % 2 ^ 32) 0 with
  | none => none
  | some found =>
    if found.ret = false then
      some ⟨false, found.self, regs, []⟩
    else
      let evaluated := arm regs regs.sp_ found.entry_offset
      if evaluated.ok then
        let regs := evaluated.regs
        let regs := { regs with pc_ := regs.regs_ n.ARM_REG_LR }
        let regs := { regs with sp_ := evaluated.cfa }
        let regs := { regs with regs_ := Function.update regs.regs_ n.ARM_REG_PC regs.pc_ }
        let regs := { regs with regs_ := Function.update regs.regs_ n.ARM_REG_SP regs.sp_ }
        some ⟨true, found.self, regs, []⟩
      else
        some ⟨false, found.self, evaluated.regs, []⟩

/-- The DWARF step `ElfInterface32::Step` (`ElfInterface.cpp` is missing):
from the object, the pc and the register set to the returned flag, the object
and the register set after the call. -/
abbrev DwarfStep := ElfInterfaceArm → Nat → RegsArm → Bool × ElfInterfaceArm × RegsArm

/-- `ElfInterfaceArm::Step` (ElfInterfaceArm.cpp:132-135): the right operand
of `||` is evaluated only when the left one is false. -/
def Step (memory : Memory) (arm : ArmExidx) (dwarf : DwarfStep) (n : ArmRegNumbers)
    (s : ElfInterfaceArm) (pc : Nat) (regs : RegsArm) : Option StepResult :=
  match StepExidx memory arm n s pc regs with
  | none => none
  | some exidx =>
    if exidx.ret then
      some exidx
    else
      let r := dwarf exidx.self pc exidx.regs
      some ⟨r.1, r.2.1, r.2.2, exidx.dwarfSteps ++ [pc]⟩

/-- The result of a call of `FindEntry` whose caller had `entry_offset` in
`*entry_offset` instead: a call that returns false leaves that value there. -/
def FindEntryResult.withInitial (entry_offset : Nat) (r : FindEntryResult) : FindEntryResult :=
  if r.ret then r else { r with entry_offset := entry_offset }

/-- The register numbers of 32-bit ARM: `r13`, `r14` and `r15`. -/
def armRegNumbers : ArmRegNumbers := ⟨13, 14, 15⟩

/-- A register set with `sp = 0x7000` and every slot 0. -/
def sampleRegs : RegsArm := ⟨0, 0x7000, fun _ => 0⟩

/-- An evaluator that always succeeds: it puts `0x1234` into slot 14 and
raises the CFA by 8. -/
def sampleEvaluator : ArmExidx := fun regs cfa _ =>
  ⟨true, { regs with regs_ := Function.update regs.regs_ 14 0x1234 }, cfa + 8⟩

/-- An evaluator that always fails and leaves the registers alone. -/
def failingEvaluator : ArmExidx := fun regs cfa _ => ⟨false, regs, cfa⟩

/-- A DWARF step that always succeeds and sets the logical pc to `0x4321`. -/
def sampleDwarf : DwarfStep := fun s _ regs => (true, s, { regs with pc_ := 0x4321 })

/-- What `StepExidx` leaves behind on the two-entry table for the pc `0x1500`
with the evaluator that always succeeds. -/
def sampleStepResult : StepResult :=
  (StepExidx sampleMemory sampleEvaluator armRegNumbers sampleArm 0x1500 sampleRegs).getD
    ⟨false, sampleArm, sampleRegs, []⟩

/-! ## Machine.cpp -/

/-- Modelled from the spec: the register sets `Regs32` and `Regs64` (`Regs.h`
is missing), each holding what its constructor is given: the index of the
program counter, the index of the stack pointer, the number of registers and
the storage for the registers. `Regs32` holds 32-bit words, `Regs64` 64-bit
words. -/
inductive Regs where
  | Regs32 (pc_reg sp_reg total_regs : Nat) (data : List Nat)
  | Regs64 (pc_reg sp_reg total_regs : Nat) (data : List Nat)
deriving DecidableEq

/-- The width in bits of the words of a register set. -/
def Regs.wordBits : Regs → Nat
  | .Regs32 _ _ _ _ => 32
  | .Regs64 _ _ _ _ => 64

/-- The index of the program counter of a register set. -/
def Regs.pc_reg : Regs → Nat
  | .Regs32 pc_reg _ _ _ => pc_reg
  | .Regs64 pc_reg _ _ _ => pc_reg

/-- The index of the stack pointer of a register set. -/
def Regs.sp_reg : Regs → Nat
  | .Regs32 _ sp_reg _ _ => sp_reg
  | .Regs64 _ sp_reg _ _ => sp_reg

/-- The number of registers of a register set. -/
def Regs.total_regs : Regs → Nat
  | .Regs32 _ _ total_regs _ => total_regs
  | .Regs64 _ _ total_regs _ => total_regs

/-- The register constants of `Machine.h`, which is missing. -/
structure MachineConstants where
  ARM_REG_PC : Nat
  ARM_REG_SP : Nat
  ARM_REG_LAST : Nat
  ARM64_REG_PC : Nat
  ARM64_REG_SP : Nat
  ARM64_REG_LAST : Nat
  X86_REG_PC : Nat
  X86_REG_SP : Nat
  X86_REG_LAST : Nat
  X86_64_REG_PC : Nat
  X86_64_REG_SP : Nat
  X86_64_REG_LAST : Nat

/-- `reg_mem.resize(n)` on a vector of `uint64_t`: the first `n` elements,
with zeros added when the vector was shorter. -/
def resize (reg_mem : List Nat) (n : Nat) : List Nat :=
  reg_mem.take n ++ List.replicate (n - reg_mem.length) 0

/-- `Arm::CreateRegs(void* data)` (Machine.cpp:27-29). -/
def Arm.CreateRegs (c : MachineConstants) (data : List Nat) : Regs :=
  .Regs32 c.ARM_REG_PC c.ARM_REG_SP c.ARM_REG_LAST data

/-- `Arm::CreateRegs(std::vector<uint64_t>& reg_mem)` (Machine.cpp:22-25);
`sizeof(uint32_t)` is 4. -/
def Arm.CreateRegsVector (c : MachineConstants) (reg_mem : List Nat) : Regs :=
  Arm.CreateRegs c (resize reg_mem ((c.ARM_REG_LAST * 4) / 2 + 1))

/-- `Arm64::CreateRegs(void* data)` (Machine.cpp:37-39). -/
def Arm64.CreateRegs (c : MachineConstants) (data : List Nat) : Regs :=
  .Regs64 c.ARM64_REG_PC c.ARM64_REG_SP c.ARM64_REG_LAST data

/-- `Arm64::CreateRegs(std::vector<uint64_t>& reg_mem)` (Machine.cpp:32-35);
`sizeof(uint64_t)` is 8. -/
def Arm64.CreateRegsVector (c : MachineConstants) (reg_mem : List Nat) : Regs :=
  Arm64.CreateRegs c (resize reg_mem (c.ARM64_REG_LAST * 8))

/-- `X86::CreateRegs(void* data)` (Machine.cpp:47-49). -/
def X86.CreateRegs (c : MachineConstants) (data : List Nat) : Regs :=
  .Regs32 c.X86_REG_PC c.X86_REG_SP c.X86_REG_LAST data

/-- `X86::CreateRegs(std::vector<uint64_t>& reg_mem)` (Machine.cpp:42-45). -/
def X86.CreateRegsVector (c : MachineConstants) (reg_mem : List Nat) : Regs :=
  X86.CreateRegs c (resize reg_mem ((c.X86_REG_LAST * 4) / 2 + 1))

/-- `X86_64::CreateRegs(void* data)` (Machine.cpp:57-59). -/
def X86_64.CreateRegs (c : MachineConstants) (data : List Nat) : Regs :=
  .Regs64 c.X86_64_REG_PC c.X86_64_REG_SP c.X86_64_REG_LAST data

/-- `X86_64::CreateRegs(std::vector<uint64_t>& reg_mem)` (Machine.cpp:52-55). -/
def X86_64.CreateRegsVector (c : MachineConstants) (reg_mem : List Nat) : Regs :=
  X86_64.CreateRegs c (resize reg_mem (c.X86_64_REG_LAST * 8))

/-! ## MapInfo::CreateMemory -/

/-- Modelled from the spec: the two memory accessors that `CreateMemory` can
return (`Memory.h` is missing): a file-backed one, initialised on a file name
and an offset into the file, and one over the address range `[start, end)` of
the process `pid`. -/
inductive MemoryAccessor where
  | MemoryFileAtOffset (file : List Char) (offset : Nat)
  | MemoryByPidRange (pid start end_ : Nat)
deriving DecidableEq

/-- `MapInfo::CreateMemory` (Maps.cpp:33-39). `Init` is
`MemoryFileAtOffset::Init` (`Memory.cpp` is missing): whether the file of that
name can be opened and mapped at that offset. -/
def MapInfo.CreateMemory (Init : List Char → Nat → Bool) (m : MapInfo) (pid : Nat) :
    MemoryAccessor :=
  if Init m.name m.offset then
    .MemoryFileAtOffset m.name m.offset
  else
    .MemoryByPidRange pid m.start m.end_

/-- The entry of a heap region: it has a name, but no file of that name
exists. -/
def heapMap : MapInfo :=
  { start := 0x1000, end_ := 0x2000, offset := 0, flags := 3, name := "[heap]".toList }

/-- A file system without any file: `Init` fails on every name. -/
def noFiles : List Char → Nat → Bool := fun _ _ => false

/-- A file system in which exactly the file `/system/lib/libc.so` can be
opened. -/
def onlyLibc : List Char → Nat → Bool := fun file _ => file = "/system/lib/libc.so".toList

/-- The entry of a region backed by `/system/lib/libc.so` at file offset
`0x3000`. -/
def libcMap : MapInfo :=
  { start := 0x7000, end_ := 0x9000, offset := 0x3000, flags := 5,
    name := "/system/lib/libc.so".toList }

/-! ## The code on the sample inputs -/

theorem Find_sampleMaps :
    Find sampleMaps 0x2fff = some (some 1) ∧ Find sampleMaps 0x3000 = some none ∧
    Find sampleMaps 0x5000 = some (some 2) ∧ Find sampleMaps 0 = some none := by
  decide

theorem ParseLine_sampleLine :
    ParseLine sampleLine = .returnTrue
      ⟨0x6f000000, 0x6f01e000, 0, 7, "/system/lib/libcomposer.so".toList⟩ := by
  decide

theorem ParseLine_samples :
    ParseLine "1000-2000 r-xp".toList = .returnFalse ∧
    ParseLine "1000-2000 r-xp 0 00:00 0 [heap]".toList
      = .returnTrue ⟨0x1000, 0x2000, 0, 5, "[heap]".toList⟩ := by
  decide

theorem FindEntry_sampleArm :
    GetPrel31Addr sampleMemory 0x100 = some 0x1000 ∧
    GetPrel31Addr sampleMemory 0x108 = some 0x2000 ∧
    (FindEntry sampleMemory sampleArm 0x1500 77).map
      (fun r => (r.ret, r.entry_offset, r.line, r.reads))
      = some (true, 0x100, 84, [0x100, 0x108]) ∧
    (FindEntry sampleMemory sampleArm 0x2500 77).map
      (fun r => (r.ret, r.entry_offset, r.line, r.reads))
      = some (true, 0x108, 63, [0x100, 0x108]) ∧
    (FindEntry sampleMemory sampleArm 0x500 77).map
      (fun r => (r.ret, r.entry_offset, r.line, r.reads))
      = some (false, 77, 58, [0x100, 0x108]) := by
  decide

/-! ## Facts about sorted tables and the linear scan -/

theorem sortedByStart_tail {a : MapInfo} {rest : List MapInfo}
    (h : SortedByStart (a :: rest)) : SortedByStart rest := by
  cases rest with
  | nil => trivial
  | cons b rest => exact h.2

theorem nonOverlapping_tail {a : MapInfo} {rest : List MapInfo}
    (h : NonOverlapping (a :: rest)) : NonOverlapping rest := by
  cases rest with
  | nil => trivial
  | cons b rest => exact h.2

theorem sortedByStart_head_le {a : MapInfo} {rest : List MapInfo}
    (h : SortedByStart (a :: rest)) : ∀ b ∈ rest, a.start ≤ b.start := by
  induction rest generalizing a with
  | nil => intro b hb; cases hb
  | cons c rest ih =>
    intro b hb
    rcases List.mem_cons.1 hb with rfl | hb
    · exact h.1
    · exact Nat.le_trans h.1 (ih h.2 b hb)

theorem nonOverlapping_head_end_le {a : MapInfo} {rest : List MapInfo}
    (hs : SortedByStart (a :: rest)) (h : NonOverlapping (a :: rest)) :
    ∀ b ∈ rest, a.end_ ≤ b.start := by
  cases rest with
  | nil => intro b hb; cases hb
  | cons c rest =>
    intro b hb
    rcases List.mem_cons.1 hb with rfl | hb
    · exact h.1
    · exact Nat.le_trans h.1 (sortedByStart_head_le hs.2 b hb)

/-- In a table sorted by start, an earlier entry starts no later than a later
one. -/
theorem sortedByStart_start_le {maps : List MapInfo} (hs : SortedByStart maps) :
    ∀ {i j : Nat} {a b : MapInfo}, i ≤ j → maps[i]? = some a → maps[j]? = some b →
      a.start ≤ b.start := by
  induction maps with
  | nil => intro i j a b _ ha; simp at ha
  | cons m rest ih =>
    intro i j a b hij ha hb
    cases i with
    | zero =>
      simp at ha
      subst ha
      cases j with
      | zero => simp at hb; subst hb; exact Nat.le_refl _
      | succ j =>
        simp at hb
        exact sortedByStart_head_le hs b (List.getElem?_mem hb)
    | succ i =>
      cases j with
      | zero => omega
      | succ j =>
        simp at ha hb
        exact ih (sortedByStart_tail hs) (by omega) ha hb

/-- In a sorted table without overlaps, an entry ends no later than any later
entry starts. -/
theorem nonOverlapping_end_le_start {maps : List MapInfo} (hs : SortedByStart maps)
    (hno : NonOverlapping maps) :
    ∀ {i j : Nat} {a b : MapInfo}, i < j → maps[i]? = some a → maps[j]? = some b →
      a.end_ ≤ b.start := by
  induction maps with
  | nil => intro i j a b _ ha; simp at ha
  | cons m rest ih =>
    intro i j a b hij ha hb
    cases j with
    | zero => omega
    | succ j =>
      simp at hb
      cases i with
      | zero =>
        simp at ha
        subst ha
        exact nonOverlapping_head_end_le hs hno b (List.getElem?_mem hb)
      | succ i =>
        simp at ha
        exact ih (sortedByStart_tail hs) (nonOverlapping_tail hno) (by omega) ha hb

theorem scanFrom_eq_none {pc : Nat} {maps : List MapInfo} (i : Nat)
    (h : ∀ (j : Nat) (m : MapInfo), maps[j]? = some m → ¬ (m.start ≤ pc ∧ pc < m.end_)) :
    scanFrom pc maps i = none := by
  induction maps generalizing i with
  | nil => rfl
  | cons a rest ih =>
    have h0 := h 0 a (by simp)
    simp only [scanFrom, if_neg h0]
    exact ih (i + 1) (fun j m hj => h (j + 1) m (by simpa using hj))

theorem scanFrom_eq_some {pc : Nat} {maps : List MapInfo} (i k : Nat) (m : MapInfo)
    (hk : maps[k]? = some m) (hm : m.start ≤ pc ∧ pc < m.end_)
    (h : ∀ (j : Nat) (a : MapInfo), j < k → maps[j]? = some a → ¬ (a.start ≤ pc ∧ pc < a.end_)) :
    scanFrom pc maps i = some (i + k) := by
  induction maps generalizing i k with
  | nil => simp at hk
  | cons a rest ih =>
    cases k with
    | zero =>
      simp at hk
      subst hk
      simp [scanFrom, hm]
    | succ k =>
      have h0 := h 0 a (by omega) (by simp)
      simp only [scanFrom, if_neg h0]
      rw [ih (i + 1) k (by simpa using hk)
        (fun j b hj hb => h (j + 1) b (by omega) (by simpa using hb))]
      congr 1
      omega

/-- The loop invariant of `Maps::Find`: when no entry left of `first` and no
entry right of `last` contains `pc`, the loop returns what the linear scan
returns, provided it may run `last + 1 - first` bodies. -/
theorem FindLoop_eq_linearScan {maps : List MapInfo} {pc : Nat}
    (hs : SortedByStart maps) (hno : NonOverlapping maps) :
    ∀ (fuel first last : Nat), last < maps.length → last + 1 - first ≤ fuel →
      (∀ (j : Nat) (m : MapInfo), j < first → maps[j]? = some m → ¬ (m.start ≤ pc ∧ pc < m.end_)) →
      (∀ (j : Nat) (m : MapInfo), last < j → maps[j]? = some m → ¬ (m.start ≤ pc ∧ pc < m.end_)) →
      FindLoop maps pc fuel first last = some (linearScan maps pc) := by
  intro fuel
  induction fuel with
  | zero =>
    intro first last _ hfuel hlo hhi
    have hfl : ¬ first ≤ last := by omega
    simp only [FindLoop, if_neg hfl]
    have : linearScan maps pc = none :=
      scanFrom_eq_none 0 (fun j m hj => by
        by_cases hjf : j < first
        · exact hlo j m hjf hj
        · exact hhi j m (by omega) hj)
    rw [this]
  | succ fuel ih =>
    intro first last hlast hfuel hlo hhi
    by_cases hfl : first ≤ last
    · have hidx : (first + last) / 2 < maps.length := by omega
      obtain ⟨cur, hcur⟩ : ∃ cur, maps[(first + last) / 2]? = some cur :=
        ⟨maps[(first + last) / 2], List.getElem?_eq_getElem hidx⟩
      simp only [FindLoop, if_pos hfl, hcur]
      by_cases hin : cur.start ≤ pc ∧ pc < cur.end_
      · simp only [if_pos hin]
        have := @scanFrom_eq_some pc maps 0 _ cur hcur hin (fun j a hj ha => by
          have := nonOverlapping_end_le_start hs hno hj ha hcur
          omega)
        simp only [linearScan, this, Nat.zero_add]
      · simp only [if_neg hin]
        by_cases hlt : pc < cur.start
        · simp only [if_pos hlt]
          have hright : ∀ (j : Nat) (m : MapInfo), (first + last) / 2 ≤ j → maps[j]? = some m →
              ¬ (m.start ≤ pc ∧ pc < m.end_) := by
            intro j m hj hm
            have := sortedByStart_start_le hs hj hcur hm
            omega
          by_cases h0 : (first + last) / 2 = 0
          · simp only [if_pos h0]
            have : linearScan maps pc = none :=
              scanFrom_eq_none 0 (fun j m hj => hright j m (by omega) hj)
            rw [this]
          · simp only [if_neg h0]
            exact ih first _ (by omega) (by omega) hlo
              (fun j m hj hm => hright j m (by omega) hm)
        · simp only [if_neg hlt]
          by_cases hl : (first + last) / 2 + 1 ≤ last
          · exact ih _ last hlast (by omega)
              (fun j m hj hm => by
                by_cases hje : j = (first + last) / 2
                · subst hje
                  rw [hcur] at hm
                  cases hm
                  exact hin
                · have := nonOverlapping_end_le_start hs hno (show j < (first + last) / 2 by omega) hm hcur
                  omega) hhi
          · exact ih _ last hlast (by omega)
              (fun j m hj hm => by
                by_cases hje : j = (first + last) / 2
                · subst hje
                  rw [hcur] at hm
                  cases hm
                  exact hin
                · have := nonOverlapping_end_le_start hs hno (show j < (first + last) / 2 by omega) hm hcur
                  omega) hhi
    · simp only [FindLoop, if_neg hfl]
      have : linearScan maps pc = none :=
        scanFrom_eq_none 0 (fun j m hj => by
          by_cases hjf : j < first
          · exact hlo j m hjf hj
          · exact hhi j m (by omega) hj)
      rw [this]

theorem scanFrom_some {pc : Nat} {maps : List MapInfo} {i r : Nat}
    (h : scanFrom pc maps i = some r) :
    ∃ k m, r = i + k ∧ maps[k]? = some m ∧ m.start ≤ pc ∧ pc < m.end_ := by
  induction maps generalizing i with
  | nil => simp [scanFrom] at h
  | cons a rest ih =>
    by_cases ha : a.start ≤ pc ∧ pc < a.end_
    · simp only [scanFrom, if_pos ha, Option.some.injEq] at h
      exact ⟨0, a, by omega, by simp, ha.1, ha.2⟩
    · simp only [scanFrom, if_neg ha] at h
      obtain ⟨k, m, hr, hk, hm⟩ := ih h
      exact ⟨k + 1, m, by omega, by simpa using hk, hm⟩

theorem scanFrom_none {pc : Nat} {maps : List MapInfo} {i : Nat}
    (h : scanFrom pc maps i = none) :
    ∀ m ∈ maps, ¬ (m.start ≤ pc ∧ pc < m.end_) := by
  induction maps generalizing i with
  | nil => intro m hm; cases hm
  | cons a rest ih =>
    by_cases ha : a.start ≤ pc ∧ pc < a.end_
    · simp [scanFrom, if_pos ha] at h
    · simp only [scanFrom, if_neg ha] at h
      intro m hm
      rcases List.mem_cons.1 hm with rfl | hm
      · exact ha
      · exact ih h m hm

/-- C1. On every map table that is sorted ascending by start and in which each
entry ends no later than the next one starts, and for every pc, `Maps::Find`
returns (a pointer to) the entry found by a linear scan for the first entry
with `start ≤ pc < end`, and `nullptr` when the scan finds none: it returns an
entry containing `pc` whenever one exists, and `nullptr` exactly when none
does. -/
theorem Find_eq_linearScan (maps : List MapInfo) (pc : Nat)
    (hs : SortedByStart maps) (hno : NonOverlapping maps) :
    Find maps pc = some (linearScan maps pc) ∧
    (∀ i, Find maps pc = some (some i) →
      ∃ m, maps[i]? = some m ∧ m.start ≤ pc ∧ pc < m.end_) ∧
    (Find maps pc = some none ↔ ∀ m ∈ maps, ¬ (m.start ≤ pc ∧ pc < m.end_)) := by
  have hfind : Find maps pc = some (linearScan maps pc) := by
    unfold Find
    cases maps with
    | nil => rfl
    | cons a rest =>
      simp only [List.isEmpty_cons, Bool.false_eq_true, if_false]
      exact FindLoop_eq_linearScan hs hno _ 0 _ (by simp) (by simp)
        (fun j m hj => by omega)
        (fun j m hj hm => by
          have := (List.getElem?_eq_some.1 hm).1
          simp at hj this
          omega)
  refine ⟨hfind, ?_, ?_⟩
  · intro i hi
    rw [hfind] at hi
    obtain ⟨k, m, hr, hk, hm⟩ := scanFrom_some (Option.some.inj hi)
    exact ⟨m, by simpa [hr] using hk, hm⟩
  · rw [hfind]
    constructor
    · intro h
      exact scanFrom_none (Option.some.inj h)
    · intro h
      have : linearScan maps pc = none :=
        scanFrom_eq_none 0 (fun j m hj => h m (List.getElem?_mem hj))
      rw [this]

/-- C1 at a concrete table: the three-entry table above is sorted and without
overlaps, so `Find` agrees with the scan at `0x2fff` (inside the second
entry). -/
theorem Find_eq_linearScan_witness :
    SortedByStart sampleMaps ∧ NonOverlapping sampleMaps ∧
    Find sampleMaps 0x2fff = some (linearScan sampleMaps 0x2fff) ∧
    Find sampleMaps 0x2fff = some (some 1) :=
  ⟨by decide, by decide,
    (Find_eq_linearScan sampleMaps 0x2fff (by decide) (by decide)).1, by decide⟩

/-! ## PREL31 decoding -/

/-- The value that `GetPrel31Addr` adds to the offset is the sign-extended low
31 bits of the word. -/
theorem prel31_value (w : Nat) : toInt32 (w % 2 ^ 32 * 2) / 2 = signExtend31 w := by
  unfold toInt32 signExtend31
  split <;> split <;> omega

theorem xor_bit31_mod (w : Nat) : (w ^^^ 0x80000000) % 2 ^ 31 = w % 2 ^ 31 := by
  apply Nat.eq_of_testBit_eq
  intro i
  have h : (0x80000000 : Nat) = 2 ^ 31 := by norm_num
  rw [h]
  simp only [Nat.testBit_mod_two_pow, Nat.testBit_xor, Nat.testBit_two_pow]
  by_cases hi : i < 31
  · have : ¬ (31 = i) := by omega
    simp [hi, this]
  · simp [hi]

theorem signExtend31_xor (w : Nat) : signExtend31 (w ^^^ 0x80000000) = signExtend31 w := by
  unfold signExtend31
  rw [xor_bit31_mod]

theorem GetPrel31Addr_of_read {memory : Memory} {o w : Nat} (h : memory o = some w) :
    GetPrel31Addr memory o = some (((o : Int) + signExtend31 w) % 2 ^ 32).toNat := by
  simp only [GetPrel31Addr, h, prel31_value]

/-- C3. PREL31 round trip: for every offset `o` and every 32-bit address `a`
whose delta `a - o` lies in `[-2^30, 2^30)`, if the word stored at `o` holds
the delta in its low 31 bits (bit 31 arbitrary), `GetPrel31Addr(o)` succeeds
and returns exactly `a`; negative deltas included. -/
theorem GetPrel31Addr_roundtrip (memory : Memory) (o a w : Nat) (ha : a < 2 ^ 32)
    (hlo : -(2 ^ 30) ≤ (a : Int) - o) (hhi : (a : Int) - o < 2 ^ 30)
    (hw : ((w % 2 ^ 31 : Nat) : Int) = ((a : Int) - o) % 2 ^ 31)
    (hread : memory o = some w) :
    GetPrel31Addr memory o = some a := by
  rw [GetPrel31Addr_of_read hread]
  congr 1
  have hs : signExtend31 w = (a : Int) - o := by
    unfold signExtend31
    split <;> omega
  rw [hs]
  omega

/-- C3 at a negative delta: the word `0xfffff000` at offset `0x2000` encodes
the delta `-0x1000` (bit 31 set) and decodes to `0x1000`. -/
theorem GetPrel31Addr_roundtrip_witness :
    GetPrel31Addr negativeDeltaMemory 0x2000 = some 0x1000 :=
  GetPrel31Addr_roundtrip negativeDeltaMemory 0x2000 0x1000 0xfffff000
    (by decide) (by decide) (by decide) (by decide) rfl

/-- C4. For every offset `o` and every word `w` readable at `o`,
`GetPrel31Addr(o)` returns `(o + s) mod 2^32`, where `s` is the low 31 bits of
`w` read as a signed 31-bit integer; bit 31 of `w` has no influence: over a
memory that holds `w XOR 0x80000000` at `o` instead, the decode is the same. -/
theorem GetPrel31Addr_eq (memory : Memory) (o w : Nat) (hread : memory o = some w) :
    GetPrel31Addr memory o = some (((o : Int) + signExtend31 w) % 2 ^ 32).toNat ∧
    ∀ memory' : Memory, memory' o = some (w ^^^ 0x80000000) →
      GetPrel31Addr memory' o = GetPrel31Addr memory o := by
  refine ⟨GetPrel31Addr_of_read hread, ?_⟩
  intro memory' h'
  rw [GetPrel31Addr_of_read hread, GetPrel31Addr_of_read h', signExtend31_xor]

/-- C4 at the word `0xfffff000` read at `0x2000`. -/
theorem GetPrel31Addr_eq_witness :
    GetPrel31Addr negativeDeltaMemory 0x2000
      = some ((((0x2000 : Nat) : Int) + signExtend31 0xfffff000) % 2 ^ 32).toNat ∧
    ∀ memory' : Memory, memory' 0x2000 = some (0xfffff000 ^^^ 0x80000000) →
      GetPrel31Addr memory' 0x2000 = GetPrel31Addr negativeDeltaMemory 0x2000 :=
  GetPrel31Addr_eq negativeDeltaMemory 0x2000 0xfffff000 rfl

/-! ## FindEntry: what a call does to the object -/

theorem entryOffset_zero (s : ElfInterfaceArm) :
    s.entryOffset 0 % 2 ^ 32 = s.start_offset_ % 2 ^ 32 := by
  unfold ElfInterfaceArm.entryOffset
  omega

theorem entryOffset_congr {s s' : ElfInterfaceArm} (h : s'.start_offset_ = s.start_offset_)
    (i : Nat) : s'.entryOffset i = s.entryOffset i := by
  unfold ElfInterfaceArm.entryOffset
  rw [h]

theorem decoded_congr {s s' : ElfInterfaceArm} (memory : Memory)
    (h : s'.start_offset_ = s.start_offset_) (i : Nat) :
    s'.decoded memory i = s.decoded memory i := by
  unfold ElfInterfaceArm.decoded
  rw [entryOffset_congr h]

theorem extends_refl (memory : Memory) (s : ElfInterfaceArm) : Extends memory s s :=
  ⟨rfl, rfl, rfl, rfl, rfl, fun _ => Or.inl rfl⟩

theorem extends_trans {memory : Memory} {s s' s'' : ElfInterfaceArm}
    (h : Extends memory s s') (h' : Extends memory s' s'') : Extends memory s s'' := by
  refine ⟨h'.load_bias_eq.trans h.load_bias_eq, h'.start_offset_eq.trans h.start_offset_eq,
    h'.total_entries_eq.trans h.total_entries_eq, h'.first_addr_eq.trans h.first_addr_eq,
    h'.last_addr_eq.trans h.last_addr_eq, ?_⟩
  intro i
  rcases h'.addrs i with h1 | ⟨h1, h2⟩
  · rcases h.addrs i with h3 | ⟨h3, h4⟩
    · exact Or.inl (h1.trans h3)
    · exact Or.inr ⟨h3, by rw [h1]; exact h4⟩
  · rcases h.addrs i with h3 | ⟨h3, h4⟩
    · exact Or.inr ⟨by rw [← h3]; exact h1, by
        rw [← decoded_congr memory h.start_offset_eq]; exact h2⟩
    · rw [decoded_congr memory h.start_offset_eq] at h2
      exact Or.inr ⟨h3, h2⟩

theorem cacheOK_of_extends {memory : Memory} {s s' : ElfInterfaceArm}
    (h : Extends memory s s') (hc : CacheOK memory s) : CacheOK memory s' := by
  refine ⟨?_, ?_, ?_⟩
  · rw [h.first_addr_eq, decoded_congr memory h.start_offset_eq]
    exact hc.first
  · intro i
    rw [decoded_congr memory h.start_offset_eq]
    rcases h.addrs i with h1 | ⟨_, h2⟩
    · rw [h1]
      exact hc.addrs i
    · exact Or.inr h2
  · rw [h.first_addr_eq, h.last_addr_eq, h.total_entries_eq]
    intro h1 v hv
    rw [decoded_congr memory h.start_offset_eq] at hv
    exact hc.last h1 v hv

/-- Lines 70-76 only ever add a decoded address to `addrs_`. -/
theorem readAddr_extends (memory : Memory) (s : ElfInterfaceArm) (current : Nat)
    (reads : List Nat) : Extends memory s (s.readAddr memory current reads).2.1 := by
  unfold ElfInterfaceArm.readAddr
  by_cases h0 : s.addrs_ current = 0
  · simp only [h0, if_true]
    cases hd : GetPrel31Addr memory (s.entryOffset current % 2 ^ 32) with
    | none => exact extends_refl memory s
    | some addr =>
      refine ⟨rfl, rfl, rfl, rfl, rfl, ?_⟩
      intro i
      by_cases hi : i = current
      · subst hi
        exact Or.inr ⟨h0, by unfold ElfInterfaceArm.decoded; rw [hd]; simp [Function.update]⟩
      · exact Or.inl (by simp [Function.update, hi])
  · simp only [h0, if_false]
    exact extends_refl memory s

/-- The loop only adds decoded addresses to `addrs_`, and a `return false`
leaves `*entry_offset` alone. -/
theorem FindEntryLoop_extends (memory : Memory) (pc entry_offset : Nat) :
    ∀ (fuel : Nat) (s : ElfInterfaceArm) (reads : List Nat) (first last : Nat)
      (r : FindEntryResult),
      FindEntryLoop memory pc entry_offset fuel s reads first last = some r →
      Extends memory s r.self ∧ (r.ret = false → r.entry_offset = entry_offset) := by
  intro fuel
  induction fuel with
  | zero =>
    intro s reads first last r h
    by_cases hfl : first ≤ last
    · simp [FindEntryLoop, hfl] at h
    · simp only [FindEntryLoop, if_neg hfl, Option.some.injEq] at h
      subst h
      exact ⟨extends_refl memory s, fun _ => rfl⟩
  | succ fuel ih =>
    intro s reads first last r h
    by_cases hfl : first ≤ last
    · have hext := readAddr_extends memory s (first + (last - first) / 2) reads
      rcases hra : s.readAddr memory (first + (last - first) / 2) reads with ⟨_ | addr, s', reads'⟩
      · simp only [FindEntryLoop, if_pos hfl, hra, Option.some.injEq] at h
        rw [hra] at hext
        subst h
        exact ⟨hext, fun _ => rfl⟩
      · simp only [FindEntryLoop, if_pos hfl, hra] at h
        rw [hra] at hext
        by_cases h1 : pc = addr
        · simp only [if_pos h1, Option.some.injEq] at h
          subst h
          exact ⟨hext, fun hf => by simp at hf⟩
        · simp only [if_neg h1] at h
          by_cases h2 : pc < addr
          · simp only [if_pos h2] at h
            by_cases h3 : first + (last - first) / 2 = first
            · simp only [if_pos h3, Option.some.injEq] at h
              subst h
              exact ⟨hext, fun hf => by simp at hf⟩
            · simp only [if_neg h3] at h
              have := ih _ _ _ _ _ h
              exact ⟨extends_trans hext this.1, this.2⟩
          · simp only [if_neg h2] at h
            by_cases h3 : first + (last - first) / 2 = last
            · simp only [if_pos h3, Option.some.injEq] at h
              subst h
              exact ⟨hext, fun hf => by simp at hf⟩
            · simp only [if_neg h3] at h
              have := ih _ _ _ _ _ h
              exact ⟨extends_trans hext this.1, this.2⟩
    · simp only [FindEntryLoop, if_neg hfl, Option.some.injEq] at h
      subst h
      exact ⟨extends_refl memory s, fun _ => rfl⟩

/-- The loop returns: `last + 1 - first` loop bodies are always enough. -/
theorem FindEntryLoop_returns (memory : Memory) (pc entry_offset : Nat) :
    ∀ (fuel : Nat) (s : ElfInterfaceArm) (reads : List Nat) (first last : Nat),
      last + 1 - first ≤ fuel →
      ∃ r, FindEntryLoop memory pc entry_offset fuel s reads first last = some r := by
  intro fuel
  induction fuel with
  | zero =>
    intro s reads first last hfuel
    have hfl : ¬ first ≤ last := by omega
    simp only [FindEntryLoop, if_neg hfl]
    exact ⟨_, rfl⟩
  | succ fuel ih =>
    intro s reads first last hfuel
    by_cases hfl : first ≤ last
    · rcases hra : s.readAddr memory (first + (last - first) / 2) reads with ⟨_ | addr, s', reads'⟩
      · simp only [FindEntryLoop, if_pos hfl, hra]
        exact ⟨_, rfl⟩
      · simp only [FindEntryLoop, if_pos hfl, hra]
        by_cases h1 : pc = addr
        · simp only [if_pos h1]
          exact ⟨_, rfl⟩
        · simp only [if_neg h1]
          by_cases h2 : pc < addr
          · simp only [if_pos h2]
            by_cases h3 : first + (last - first) / 2 = first
            · simp only [if_pos h3]
              exact ⟨_, rfl⟩
            · simp only [if_neg h3]
              exact ih _ _ _ _ (by omega)
          · simp only [if_neg h2]
            by_cases h3 : first + (last - first) / 2 = last
            · simp only [if_pos h3]
              exact ⟨_, rfl⟩
            · simp only [if_neg h3]
              exact ih _ _ _ _ (by omega)
    · simp only [FindEntryLoop, if_neg hfl]
      exact ⟨_, rfl⟩

theorem search_extends {memory : Memory} {s : ElfInterfaceArm} {pc entry_offset : Nat}
    {reads : List Nat} {r : FindEntryResult}
    (h : s.search memory pc entry_offset reads = some r) :
    Extends memory s r.self ∧ (r.ret = false → r.entry_offset = entry_offset) := by
  unfold ElfInterfaceArm.search at h
  by_cases h1 : pc < s.load_bias_
  · simp only [if_pos h1, Option.some.injEq] at h
    subst h
    exact ⟨extends_refl memory s, fun _ => rfl⟩
  · simp only [if_neg h1] at h
    by_cases h2 : (pc - s.load_bias_) % 2 ^ 32 < s.first_addr_
    · simp only [if_pos h2, Option.some.injEq] at h
      subst h
      exact ⟨extends_refl memory s, fun _ => rfl⟩
    · simp only [if_neg h2] at h
      by_cases h3 : (pc - s.load_bias_) % 2 ^ 32 ≥ s.last_addr_
      · simp only [if_pos h3, Option.some.injEq] at h
        subst h
        exact ⟨extends_refl memory s, fun hf => by simp at hf⟩
      · simp only [if_neg h3] at h
        exact FindEntryLoop_extends memory _ _ _ _ _ _ _ _ h

theorem search_returns (memory : Memory) (s : ElfInterfaceArm) (pc entry_offset : Nat)
    (reads : List Nat) : ∃ r, s.search memory pc entry_offset reads = some r := by
  unfold ElfInterfaceArm.search
  by_cases h1 : pc < s.load_bias_
  · simp only [if_pos h1]
    exact ⟨_, rfl⟩
  · simp only [if_neg h1]
    by_cases h2 : (pc - s.load_bias_) % 2 ^ 32 < s.first_addr_
    · simp only [if_pos h2]
      exact ⟨_, rfl⟩
    · simp only [if_neg h2]
      by_cases h3 : (pc - s.load_bias_) % 2 ^ 32 ≥ s.last_addr_
      · simp only [if_pos h3]
        exact ⟨_, rfl⟩
      · simp only [if_neg h3]
        exact FindEntryLoop_returns memory _ _ _ _ _ _ _ (by omega)

/-- `FindEntry` returns on every object, over every memory, for every pc. -/
theorem FindEntry_returns (memory : Memory) (s : ElfInterfaceArm) (pc entry_offset : Nat) :
    ∃ r, FindEntry memory s pc entry_offset = some r := by
  unfold FindEntry
  by_cases hg : s.start_offset_ = 0 ∨ s.total_entries_ = 0
  · simp only [if_pos hg]
    exact ⟨_, rfl⟩
  · simp only [if_neg hg]
    by_cases hf : s.first_addr_ = 0
    · simp only [if_pos hf]
      cases h0 : GetPrel31Addr memory (s.start_offset_ % 2 ^ 32) with
      | none => exact ⟨_, rfl⟩
      | some addr =>
        simp only []
        by_cases hN : s.total_entries_ > 1
        · simp only [if_pos hN]
          split
          · exact ⟨_, rfl⟩
          · exact search_returns memory _ _ _ _
        · simp only [if_neg hN]
          exact search_returns memory _ _ _ _
    · simp only [if_neg hf]
      exact search_returns memory _ _ _ _

/-- The set-up phase of `FindEntry` (lines 29-49) on an object whose cached
values agree with memory, when the table is there and its first and last
entry decode to `a0` and `aL`: the call continues at line 51 with an object
whose first and last address are `a0` and `aL`, having read nothing or just
the first and the last entry. -/
theorem FindEntry_setup {memory : Memory} {s : ElfInterfaceArm} (pc entry_offset : Nat)
    {a0 aL : Nat} (hc : CacheOK memory s) (hstart : s.start_offset_ ≠ 0)
    (hN : s.total_entries_ ≠ 0) (h0 : s.decoded memory 0 = some a0)
    (hL : s.decoded memory (s.total_entries_ - 1) = some aL) :
    ∃ (t : ElfInterfaceArm) (reads : List Nat),
      FindEntry memory s pc entry_offset = t.search memory pc entry_offset reads ∧
      CacheOK memory t ∧ t.load_bias_ = s.load_bias_ ∧ t.start_offset_ = s.start_offset_ ∧
      t.total_entries_ = s.total_entries_ ∧ t.first_addr_ = a0 ∧ t.last_addr_ = aL ∧
      (∀ o ∈ reads, o = s.entryOffset 0 % 2 ^ 32 ∨
        o = s.entryOffset (s.total_entries_ - 1) % 2 ^ 32) := by
  have hg : ¬ (s.start_offset_ = 0 ∨ s.total_entries_ = 0) := by
    rintro (h | h)
    · exact hstart h
    · exact hN h
  have h0' : GetPrel31Addr memory (s.start_offset_ % 2 ^ 32) = some a0 := by
    rw [← entryOffset_zero]; exact h0
  unfold FindEntry
  simp only [if_neg hg]
  by_cases hf : s.first_addr_ = 0
  · simp only [if_pos hf, h0']
    by_cases hN1 : s.total_entries_ > 1
    · have hL' : GetPrel31Addr memory
          (ElfInterfaceArm.entryOffset
            { s with addrs_ := Function.update s.addrs_ 0 a0, first_addr_ := a0 }
            (s.total_entries_ - 1) % 2 ^ 32) = some aL := hL
      simp only [if_pos hN1, hL']
      refine ⟨_, _, rfl, ⟨?_, ?_, ?_⟩, rfl, rfl, rfl, rfl, rfl, ?_⟩
      · exact Or.inr h0
      · intro i
        by_cases hi : i = s.total_entries_ - 1
        · subst hi
          right
          simpa [Function.update] using hL
        · by_cases hi0 : i = 0
          · subst hi0
            right
            simpa [Function.update, hi] using h0
          · rcases hc.addrs i with h | h
            · left
              simpa [Function.update, hi, hi0] using h
            · right
              simpa [Function.update, hi, hi0] using h
      · intro _ v hv
        have : some aL = some v := hL.symm.trans hv
        exact Option.some.inj this
      · intro o ho
        simp only [List.mem_cons, List.mem_singleton, List.not_mem_nil, or_false] at ho
        rcases ho with rfl | rfl
        · left; rw [entryOffset_zero]
        · right; rfl
    · have hN0 : s.total_entries_ - 1 = 0 := by omega
      simp only [if_neg hN1]
      refine ⟨_, _, rfl, ⟨?_, ?_, ?_⟩, rfl, rfl, rfl, rfl, ?_, ?_⟩
      · exact Or.inr h0
      · intro i
        by_cases hi0 : i = 0
        · subst hi0
          right
          simpa [Function.update] using h0
        · rcases hc.addrs i with h | h
          · left
            simpa [Function.update, hi0] using h
          · right
            simpa [Function.update, hi0] using h
      · intro _ v hv
        have hv' : s.decoded memory 0 = some v := by
          have : s.decoded memory (s.total_entries_ - 1) = some v := hv
          rwa [hN0] at this
        exact Option.some.inj (h0.symm.trans hv')
      · rw [hN0] at hL
        exact Option.some.inj (h0.symm.trans hL)
      · intro o ho
        simp only [List.mem_singleton] at ho
        left
        rw [ho, entryOffset_zero]
  · simp only [if_neg hf]
    refine ⟨s, [], rfl, hc, rfl, rfl, rfl, ?_, ?_, ?_⟩
    · rcases hc.first with h | h
      · exact absurd h hf
      · exact (Option.some.inj (h.symm.trans h0))
    · exact hc.last hf aL hL
    · intro o ho
      cases ho

/-- A call of `FindEntry` keeps the cached values in agreement with memory,
never changes the table or the load bias, and leaves `*entry_offset` alone
when it returns false. -/
theorem FindEntry_cacheOK {memory : Memory} {s : ElfInterfaceArm} {pc entry_offset : Nat}
    {r : FindEntryResult} (hc : CacheOK memory s)
    (h : FindEntry memory s pc entry_offset = some r) :
    CacheOK memory r.self ∧ r.self.load_bias_ = s.load_bias_ ∧
      r.self.start_offset_ = s.start_offset_ ∧ r.self.total_entries_ = s.total_entries_ ∧
      (r.ret = false → r.entry_offset = entry_offset) := by
  unfold FindEntry at h
  by_cases hg : s.start_offset_ = 0 ∨ s.total_entries_ = 0
  · simp only [if_pos hg, Option.some.injEq] at h
    subst h
    exact ⟨hc, rfl, rfl, rfl, fun _ => rfl⟩
  · simp only [if_neg hg] at h
    by_cases hf : s.first_addr_ = 0
    · simp only [if_pos hf] at h
      cases h0 : GetPrel31Addr memory (s.start_offset_ % 2 ^ 32) with
      | none =>
        simp only [h0, Option.some.injEq] at h
        subst h
        exact ⟨hc, rfl, rfl, rfl, fun _ => rfl⟩
      | some a0 =>
        have h0' : s.decoded memory 0 = some a0 := by
          unfold ElfInterfaceArm.decoded; rw [entryOffset_zero]; exact h0
        simp only [h0] at h
        have haddrs : ∀ i, Function.update s.addrs_ 0 a0 i = 0 ∨
            s.decoded memory i = some (Function.update s.addrs_ 0 a0 i) := by
          intro i
          by_cases hi0 : i = 0
          · subst hi0
            right
            simpa [Function.update] using h0'
          · rcases hc.addrs i with h | h
            · left
              simpa [Function.update, hi0] using h
            · right
              simpa [Function.update, hi0] using h
        by_cases hN1 : s.total_entries_ > 1
        · simp only [if_pos hN1] at h
          cases hL : s.decoded memory (s.total_entries_ - 1) with
          | none =>
            have hL' : GetPrel31Addr memory
                (ElfInterfaceArm.entryOffset
                  { s with addrs_ := Function.update s.addrs_ 0 a0, first_addr_ := a0 }
                  (s.total_entries_ - 1) % 2 ^ 32) = none := hL
            simp only [hL', Option.some.injEq] at h
            subst h
            refine ⟨⟨Or.inr h0', haddrs, ?_⟩, rfl, rfl, rfl, fun _ => rfl⟩
            intro _ v hv
            have : s.decoded memory (s.total_entries_ - 1) = some v := hv
            rw [hL] at this
            cases this
          | some aL =>
            have hL' : GetPrel31Addr memory
                (ElfInterfaceArm.entryOffset
                  { s with addrs_ := Function.update s.addrs_ 0 a0, first_addr_ := a0 }
                  (s.total_entries_ - 1) % 2 ^ 32) = some aL := hL
            simp only [hL'] at h
            have hext := search_extends h
            refine ⟨cacheOK_of_extends hext.1 ⟨Or.inr h0', ?_, ?_⟩, hext.1.load_bias_eq,
              hext.1.start_offset_eq, hext.1.total_entries_eq, hext.2⟩
            · intro i
              by_cases hi : i = s.total_entries_ - 1
              · subst hi
                right
                simpa [Function.update] using hL
              · rcases haddrs i with h | h
                · left
                  simpa [Function.update, hi] using h
                · right
                  simpa [Function.update, hi] using h
            · intro _ v hv
              exact Option.some.inj (hL.symm.trans hv)
        · simp only [if_neg hN1] at h
          have hN0 : s.total_entries_ - 1 = 0 := by omega
          have hext := search_extends h
          refine ⟨cacheOK_of_extends hext.1 ⟨Or.inr h0', haddrs, ?_⟩, hext.1.load_bias_eq,
            hext.1.start_offset_eq, hext.1.total_entries_eq, hext.2⟩
          intro _ v hv
          have hv' : s.decoded memory (s.total_entries_ - 1) = some v := hv
          rw [hN0] at hv'
          exact Option.some.inj (h0'.symm.trans hv')
    · simp only [if_neg hf] at h
      have hext := search_extends h
      exact ⟨cacheOK_of_extends hext.1 hc, hext.1.load_bias_eq, hext.1.start_offset_eq,
        hext.1.total_entries_eq, hext.2⟩

theorem cacheOK_fresh (memory : Memory) (load_bias start_offset total_entries : Nat) :
    CacheOK memory (ElfInterfaceArm.fresh load_bias start_offset total_entries) :=
  ⟨Or.inl rfl, fun _ => Or.inl rfl, fun h => absurd rfl h⟩

/-- In every object reachable from `s₀` by calls of `FindEntry`, the cached
values agree with memory if they do in `s₀`, and the table and the load bias
are those of `s₀`. -/
theorem reachable_cacheOK {memory : Memory} {s₀ s : ElfInterfaceArm}
    (hc : CacheOK memory s₀) (hr : Reachable memory s₀ s) :
    CacheOK memory s ∧ s.load_bias_ = s₀.load_bias_ ∧ s.start_offset_ = s₀.start_offset_ ∧
      s.total_entries_ = s₀.total_entries_ := by
  induction hr with
  | start => exact ⟨hc, rfl, rfl, rfl⟩
  | call pc entry_offset r _ _ hcall ih =>
    obtain ⟨h1, h2, h3, h4, _⟩ := FindEntry_cacheOK ih.1 hcall
    exact ⟨h1, h2.trans ih.2.1, h3.trans ih.2.2.1, h4.trans ih.2.2.2⟩

/-! ## FindEntry on a sorted table -/

theorem entryOffset_eq (s : ElfInterfaceArm) (i : Nat) :
    s.entryOffset i = (s.start_offset_ + 8 * i) % 2 ^ 64 := by
  unfold ElfInterfaceArm.entryOffset
  omega

/-- Lines 70-76 on an object whose cached values agree with memory, for an
entry that decodes to `v`: the address obtained is `v`. -/
theorem readAddr_of_decoded {memory : Memory} {s : ElfInterfaceArm} {current v : Nat}
    (reads : List Nat) (hc : ∀ i, s.addrs_ i = 0 ∨ s.decoded memory i = some (s.addrs_ i))
    (hv : s.decoded memory current = some v) :
    (s.readAddr memory current reads).1 = some v := by
  unfold ElfInterfaceArm.readAddr
  by_cases h0 : s.addrs_ current = 0
  · have hv' : GetPrel31Addr memory (s.entryOffset current % 2 ^ 32) = some v := hv
    simp only [h0, if_true, hv']
  · simp only [h0, if_false]
    rcases hc current with h | h
    · exact absurd h h0
    · exact h.symm.trans hv

/-- The binary search of `FindEntry` over strictly ascending decoded addresses
`a 0 < ... < a (n - 1)`: when `a (first - 1) ≤ pc` and `pc` is below every
address right of `last`, the loop returns true with the offset of the greatest
entry `i` with `a i ≤ pc`. -/
theorem FindEntryLoop_sorted {memory : Memory} {a : Nat → Nat} {n pc : Nat} (entry_offset : Nat)
    (hasc : ∀ i j, i < j → j < n → a i < a j) :
    ∀ (fuel : Nat) (s : ElfInterfaceArm) (reads : List Nat) (first last : Nat),
      (∀ i, s.addrs_ i = 0 ∨ s.decoded memory i = some (s.addrs_ i)) →
      (∀ i, i < n → s.decoded memory i = some (a i)) →
      1 ≤ first → first ≤ last → last < n → last + 1 - first ≤ fuel →
      a (first - 1) ≤ pc → (∀ j, last < j → j < n → pc < a j) →
      ∃ r i, FindEntryLoop memory pc entry_offset fuel s reads first last = some r ∧
        r.ret = true ∧ r.entry_offset = s.entryOffset i ∧ i < n ∧ a i ≤ pc ∧
        ∀ j, j < n → a j ≤ pc → j ≤ i := by
  intro fuel
  induction fuel with
  | zero =>
    intro s reads first last _ _ _ hfl _ hfuel
    omega
  | succ fuel ih =>
    intro s reads first last hc hdec h1 hfl hlast hfuel hlow hup
    have hcur : first + (last - first) / 2 < n := by omega
    have hread := readAddr_of_decoded reads hc (hdec _ hcur)
    have hext := readAddr_extends memory s (first + (last - first) / 2) reads
    rcases hra : s.readAddr memory (first + (last - first) / 2) reads with ⟨addr, s', reads'⟩
    rw [hra] at hread hext
    simp only at hread hext
    subst hread
    have hc' : ∀ i, s'.addrs_ i = 0 ∨ s'.decoded memory i = some (s'.addrs_ i) := by
      intro i
      rw [decoded_congr memory hext.start_offset_eq]
      rcases hext.addrs i with h | ⟨_, h⟩
      · rw [h]; exact hc i
      · exact Or.inr h
    have hdec' : ∀ i, i < n → s'.decoded memory i = some (a i) := by
      intro i hi
      rw [decoded_congr memory hext.start_offset_eq]
      exact hdec i hi
    simp only [FindEntryLoop, if_pos hfl, hra]
    by_cases he : pc = a (first + (last - first) / 2)
    · simp only [if_pos he]
      refine ⟨_, first + (last - first) / 2, rfl, rfl, ?_, hcur, by omega, ?_⟩
      · exact entryOffset_congr hext.start_offset_eq _
      · intro j hj hle
        by_contra hgt
        have := hasc (first + (last - first) / 2) j (by omega) hj
        omega
    · simp only [if_neg he]
      by_cases hlt : pc < a (first + (last - first) / 2)
      · simp only [if_pos hlt]
        have hup' : ∀ j, first + (last - first) / 2 - 1 < j → j < n → pc < a j := by
          intro j hj hjn
          by_cases hjc : j = first + (last - first) / 2
          · rw [hjc]; exact hlt
          · have := hasc (first + (last - first) / 2) j (by omega) hjn
            omega
        by_cases hcf : first + (last - first) / 2 = first
        · simp only [if_pos hcf]
          refine ⟨_, first - 1, rfl, rfl, ?_, by omega, hlow, ?_⟩
          · rw [hcf]
            exact entryOffset_congr hext.start_offset_eq _
          · intro j hj hle
            by_contra hgt
            have := hup' j (by omega) hj
            omega
        · simp only [if_neg hcf]
          obtain ⟨r, i, hr, h2, h3, h4⟩ := ih s' reads' first (first + (last - first) / 2 - 1)
            hc' hdec' h1 (by omega) (by omega) (by omega) hlow hup'
          exact ⟨r, i, hr, h2, by rw [h3]; exact entryOffset_congr hext.start_offset_eq _, h4⟩
      · simp only [if_neg hlt]
        by_cases hcl : first + (last - first) / 2 = last
        · simp only [if_pos hcl]
          have hge : a (first + (last - first) / 2) ≤ pc := Nat.le_of_not_lt hlt
          rw [hcl] at hge
          refine ⟨_, last, rfl, rfl, ?_, hlast, hge, ?_⟩
          · rw [hcl]
            exact entryOffset_congr hext.start_offset_eq _
          · intro j hj hle
            by_contra hgt
            have := hup j (by omega) hj
            omega
        · simp only [if_neg hcl]
          obtain ⟨r, i, hr, h2, h3, h4⟩ := ih s' reads' (first + (last - first) / 2 + 1) last
            hc' hdec' (by omega) (by omega) hlast (by omega) (by
              simp only [Nat.add_sub_cancel]; omega) hup
          exact ⟨r, i, hr, h2, by rw [h3]; exact entryOffset_congr hext.start_offset_eq _, h4⟩

theorem ascending_mono {a : Nat → Nat} {n : Nat} (hasc : ∀ i j, i < j → j < n → a i < a j)
    {i j : Nat} (hij : i ≤ j) (hj : j < n) : a i ≤ a j := by
  rcases Nat.eq_or_lt_of_le hij with h | h
  · rw [h]
  · exact Nat.le_of_lt (hasc i j h hj)

theorem rangeScan_eq_some {a : Nat → Nat} {n pc i : Nat}
    (hasc : ∀ i j, i < j → j < n → a i < a j) (hi : i < n) (hle : a i ≤ pc)
    (hmax : ∀ j, j < n → a j ≤ pc → j ≤ i) :
    ∀ (k i0 : Nat), i0 + k = n → i0 ≤ i → rangeScan a n pc k i0 = some i := by
  intro k
  induction k with
  | zero => intro i0 h1 h2; omega
  | succ k ih =>
    intro i0 h1 h2
    by_cases hc : a i0 ≤ pc ∧ (i0 + 1 = n ∨ pc < a (i0 + 1))
    · simp only [rangeScan, if_pos hc]
      by_cases hlt : i0 < i
      · have := ascending_mono hasc (show i0 + 1 ≤ i by omega) hi
        omega
      · congr 1
        omega
    · simp only [rangeScan, if_neg hc]
      have hne : i0 ≠ i := by
        rintro rfl
        apply hc
        refine ⟨hle, ?_⟩
        by_cases hn : i0 + 1 = n
        · exact Or.inl hn
        · right
          by_contra hge
          have := hmax (i0 + 1) (by omega) (by omega)
          omega
      exact ih (i0 + 1) (by omega) (by omega)

theorem rangeScan_eq_none {a : Nat → Nat} {n pc : Nat} (h : ∀ j, j < n → pc < a j) :
    ∀ (k i0 : Nat), i0 + k = n → rangeScan a n pc k i0 = none := by
  intro k
  induction k with
  | zero => intro i0 _; rfl
  | succ k ih =>
    intro i0 h1
    have := h i0 (by omega)
    have hc : ¬ (a i0 ≤ pc ∧ (i0 + 1 = n ∨ pc < a (i0 + 1))) := by omega
    simp only [rangeScan, if_neg hc]
    exact ih (i0 + 1) (by omega)

/-- Lines 51-96 on an object that holds the first and last address of a
strictly ascending table: false below `a 0`, otherwise the greatest entry
whose address is at most the bias-adjusted pc. -/
theorem search_sorted {memory : Memory} {t : ElfInterfaceArm} {a : Nat → Nat} {pc : Nat}
    (entry_offset : Nat) (reads : List Nat)
    (hc : ∀ i, t.addrs_ i = 0 ∨ t.decoded memory i = some (t.addrs_ i))
    (hN : 1 ≤ t.total_entries_)
    (hdec : ∀ i, i < t.total_entries_ → t.decoded memory i = some (a i))
    (hasc : ∀ i j, i < j → j < t.total_entries_ → a i < a j)
    (hfirst : t.first_addr_ = a 0) (hlast : t.last_addr_ = a (t.total_entries_ - 1))
    (hpc : pc < 2 ^ 32) (hbias : t.load_bias_ ≤ pc) :
    ∃ r, t.search memory pc entry_offset reads = some r ∧
      (pc - t.load_bias_ < a 0 → r.ret = false) ∧
      (a 0 ≤ pc - t.load_bias_ → ∃ i, i < t.total_entries_ ∧ a i ≤ pc - t.load_bias_ ∧
        (∀ j, j < t.total_entries_ → a j ≤ pc - t.load_bias_ → j ≤ i) ∧
        r.ret = true ∧ r.entry_offset = t.entryOffset i) := by
  have hmod : (pc - t.load_bias_) % 2 ^ 32 = pc - t.load_bias_ :=
    Nat.mod_eq_of_lt (by omega)
  unfold ElfInterfaceArm.search
  simp only [if_neg (Nat.not_lt.2 hbias), hmod, hfirst, hlast]
  by_cases h1 : pc - t.load_bias_ < a 0
  · simp only [if_pos h1]
    exact ⟨_, rfl, fun _ => rfl, fun h => by omega⟩
  · simp only [if_neg h1]
    by_cases h2 : pc - t.load_bias_ ≥ a (t.total_entries_ - 1)
    · simp only [if_pos h2]
      exact ⟨_, rfl, fun h => absurd h h1, fun _ =>
        ⟨t.total_entries_ - 1, by omega, h2, fun j hj _ => by omega, rfl, rfl⟩⟩
    · simp only [if_neg h2]
      have hne : t.total_entries_ - 1 ≠ 0 := by
        intro h0
        rw [h0] at h2
        omega
      obtain ⟨r, i, hr, h3, h4, h5, h6, h7⟩ :=
        FindEntryLoop_sorted entry_offset hasc t.total_entries_ t reads 1
          (t.total_entries_ - 1) hc hdec (Nat.le_refl 1) (by omega) (by omega) (by omega)
          (by simpa using Nat.le_of_not_lt h1) (fun j hj hjn => by omega)
      exact ⟨r, hr, fun h => absurd h h1, fun _ => ⟨i, h5, h6, h7, h3, h4⟩⟩

/-- C2. For every exception-index table with `N ≥ 1` entries at a non-zero
start offset whose entries all decode, to strictly ascending addresses
`a 0 < ... < a (N - 1)`, for every object reachable from the fresh one by
calls of `FindEntry`, and every 32-bit pc at or above the load bias:
`FindEntry(pc)` equals the linear scan over half-open ranges. It returns
false when `pc - load_bias < a 0`, and otherwise returns true with
`entry_offset` the `uint64_t` value of `start_offset + 8 * i` for the greatest
`i` with `a i ≤ pc - load_bias`. -/
theorem FindEntry_eq_linearScanExidx (memory : Memory)
    (load_bias start_offset total_entries : Nat) (s : ElfInterfaceArm)
    (hreach : Reachable memory (ElfInterfaceArm.fresh load_bias start_offset total_entries) s)
    (a : Nat → Nat) (hstart : start_offset ≠ 0) (hN : 1 ≤ total_entries)
    (hdec : ∀ i, i < total_entries → s.decoded memory i = some (a i))
    (hasc : ∀ i j, i < j → j < total_entries → a i < a j)
    (pc entry_offset : Nat) (hpc : pc < 2 ^ 32) (hbias : load_bias ≤ pc) :
    ∃ r, FindEntry memory s pc entry_offset = some r ∧
      r.ret = (linearScanExidx a total_entries (pc - load_bias)).isSome ∧
      (∀ i, linearScanExidx a total_entries (pc - load_bias) = some i →
        r.entry_offset = (start_offset + 8 * i) % 2 ^ 64) ∧
      (pc - load_bias < a 0 → r.ret = false) ∧
      (a 0 ≤ pc - load_bias → ∃ i, i < total_entries ∧ a i ≤ pc - load_bias ∧
        (∀ j, j < total_entries → a j ≤ pc - load_bias → j ≤ i) ∧
        r.ret = true ∧ r.entry_offset = (start_offset + 8 * i) % 2 ^ 64) := by
  obtain ⟨hc, hb, hs, hn⟩ := reachable_cacheOK (cacheOK_fresh memory _ _ _) hreach
  have hb' : s.load_bias_ = load_bias := hb
  have hs' : s.start_offset_ = start_offset := hs
  have hn' : s.total_entries_ = total_entries := hn
  obtain ⟨t, reads, hfe, htc, htb, hts, htn, htf, htl, _⟩ :=
    FindEntry_setup pc entry_offset hc (by omega) (by omega)
      (hdec 0 (by omega)) (hdec (s.total_entries_ - 1) (by omega))
  have htn' : t.total_entries_ = total_entries := htn.trans hn'
  have htb' : t.load_bias_ = load_bias := htb.trans hb'
  obtain ⟨r, hr, hlow, hhigh⟩ := @search_sorted memory t a pc entry_offset reads htc.addrs
    (by omega)
    (fun i hi => by rw [decoded_congr memory hts]; exact hdec i (by omega))
    (fun i j hij hj => hasc i j hij (by omega)) htf (by rw [htl, hn', htn']) hpc (by omega)
  rw [htb'] at hlow hhigh
  rw [htn'] at hhigh
  refine ⟨r, hfe.trans hr, ?_, ?_, hlow, ?_⟩
  · by_cases h1 : pc - load_bias < a 0
    · have : linearScanExidx a total_entries (pc - load_bias) = none :=
        rangeScan_eq_none (fun j hj => by
          have := ascending_mono hasc (Nat.zero_le j) hj
          omega) _ _ (by omega)
      rw [this, hlow h1]
      rfl
    · obtain ⟨i, hi, hle, hmax, hret, _⟩ := hhigh (by omega)
      have : linearScanExidx a total_entries (pc - load_bias) = some i :=
        rangeScan_eq_some hasc hi hle hmax _ _ (by omega) (Nat.zero_le i)
      rw [this, hret]
      rfl
  · intro i hscan
    by_cases h1 : pc - load_bias < a 0
    · have : linearScanExidx a total_entries (pc - load_bias) = none :=
        rangeScan_eq_none (fun j hj => by
          have := ascending_mono hasc (Nat.zero_le j) hj
          omega) _ _ (by omega)
      rw [this] at hscan
      cases hscan
    · obtain ⟨i', hi, hle, hmax, _, hoff⟩ := hhigh (by omega)
      have : linearScanExidx a total_entries (pc - load_bias) = some i' :=
        rangeScan_eq_some hasc hi hle hmax _ _ (by omega) (Nat.zero_le i')
      rw [this] at hscan
      cases hscan
      rw [hoff, entryOffset_eq, hts, hs']
  · intro h
    obtain ⟨i, hi, hle, hmax, hret, hoff⟩ := hhigh h
    exact ⟨i, hi, hle, hmax, hret, by rw [hoff, entryOffset_eq, hts, hs']⟩

/-- C2 on the two-entry table with entries at `0x1000` and `0x2000`, table at
offset `0x100`, load bias 0, for the pc `0x1500`. -/
theorem FindEntry_eq_linearScanExidx_witness :
    ∃ r, FindEntry sampleMemory sampleArm 0x1500 0 = some r ∧
      r.ret = (linearScanExidx sampleAddrs 2 (0x1500 - 0)).isSome ∧
      (∀ i, linearScanExidx sampleAddrs 2 (0x1500 - 0) = some i →
        r.entry_offset = (0x100 + 8 * i) % 2 ^ 64) ∧
      (0x1500 - 0 < sampleAddrs 0 → r.ret = false) ∧
      (sampleAddrs 0 ≤ 0x1500 - 0 → ∃ i, i < 2 ∧ sampleAddrs i ≤ 0x1500 - 0 ∧
        (∀ j, j < 2 → sampleAddrs j ≤ 0x1500 - 0 → j ≤ i) ∧
        r.ret = true ∧ r.entry_offset = (0x100 + 8 * i) % 2 ^ 64) :=
  FindEntry_eq_linearScanExidx sampleMemory 0 0x100 2 sampleArm Reachable.start sampleAddrs
    (by decide) (by decide) (by decide)
    (fun i j hij hj => by
      have hi : i = 0 := by omega
      have hj : j = 1 := by omega
      subst hi hj
      decide)
    0x1500 0 (by decide) (by decide)

/-! ## FindEntry: the open-ended last range and the lower bound -/

/-- C5, as amended. Open-ended final range: for every table at a non-zero
start offset with `N ≥ 1` entries whose first and last entries decode, for
every object reachable from the fresh one by calls of `FindEntry`, and every
32-bit pc with `pc ≥ load_bias` whose bias-adjusted value is at or above the
first and the last decoded address, `FindEntry` returns true (at line 63) with
`entry_offset` the `uint64_t` value of `start_offset + 8 * (N - 1)`, and the
only entries it decodes are the first and the last one. -/
theorem FindEntry_open_ended (memory : Memory) (load_bias start_offset total_entries : Nat)
    (s : ElfInterfaceArm)
    (hreach : Reachable memory (ElfInterfaceArm.fresh load_bias start_offset total_entries) s)
    (a0 aL : Nat) (hstart : start_offset ≠ 0) (hN : 1 ≤ total_entries)
    (h0 : s.decoded memory 0 = some a0) (hL : s.decoded memory (total_entries - 1) = some aL)
    (pc entry_offset : Nat) (hpc : pc < 2 ^ 32) (hbias : load_bias ≤ pc)
    (hfirst : a0 ≤ pc - load_bias) (hlast : aL ≤ pc - load_bias) :
    ∃ r, FindEntry memory s pc entry_offset = some r ∧ r.ret = true ∧
      r.entry_offset = (start_offset + 8 * (total_entries - 1)) % 2 ^ 64 ∧ r.line = 63 ∧
      ∀ o ∈ r.reads, o = start_offset % 2 ^ 32 ∨
        o = (start_offset + 8 * (total_entries - 1)) % 2 ^ 64 % 2 ^ 32 := by
  obtain ⟨hc, hb, hs, hn⟩ := reachable_cacheOK (cacheOK_fresh memory _ _ _) hreach
  have hb' : s.load_bias_ = load_bias := hb
  have hs' : s.start_offset_ = start_offset := hs
  have hn' : s.total_entries_ = total_entries := hn
  obtain ⟨t, reads, hfe, _, htb, hts, htn, htf, htl, hreads⟩ :=
    FindEntry_setup pc entry_offset hc (by omega) (by omega) h0 (by rw [hn']; exact hL)
  have hmod : (pc - load_bias) % 2 ^ 32 = pc - load_bias := Nat.mod_eq_of_lt (by omega)
  have h1 : ¬ pc < load_bias := by omega
  have h2 : ¬ (pc - load_bias) < a0 := by omega
  have h3 : pc - load_bias ≥ aL := hlast
  have hsearch : t.search memory pc entry_offset reads
      = some ⟨true, t.entryOffset (t.total_entries_ - 1), t, reads, 63⟩ := by
    unfold ElfInterfaceArm.search
    simp only [htb, hb', if_neg h1, hmod, htf, htl, if_neg h2, h3, ge_iff_le, if_true]
  refine ⟨_, hfe.trans hsearch, rfl, ?_, rfl, ?_⟩
  · simp only [entryOffset_eq, hts, hs', htn, hn']
  · intro o ho
    have := hreads o ho
    simpa only [entryOffset_eq, hs', hn', Nat.mul_zero, Nat.add_zero,
      Nat.mod_mod_of_dvd _ (show 2 ^ 32 ∣ 2 ^ 64 by norm_num)] using this

/-- C5 as stated fails at start offset `0`: the two entries at offsets `0` and
`8` decode to `0x1000` and `0x2000`, the pc `0x2500` is above both, and
`FindEntry` returns false at line 30. -/
theorem FindEntry_open_ended_counterexample :
    zeroStartArm.total_entries_ = 2 ∧
    zeroStartArm.decoded zeroStartMemory 0 = some 0x1000 ∧
    zeroStartArm.decoded zeroStartMemory 1 = some 0x2000 ∧
    (FindEntry zeroStartMemory zeroStartArm 0x2500 0).map (fun r => (r.ret, r.line))
      = some (false, 30) := by
  decide

/-- C5, as amended, on the two-entry table at `0x100` with entries at `0x1000`
and `0x2000`: `FindEntry(0x2500)` returns entry 1. -/
theorem FindEntry_open_ended_witness :
    (∃ r, FindEntry sampleMemory sampleArm 0x2500 0 = some r ∧ r.ret = true ∧
      r.entry_offset = (0x100 + 8 * (2 - 1)) % 2 ^ 64 ∧ r.line = 63 ∧
      ∀ o ∈ r.reads, o = 0x100 % 2 ^ 32 ∨ o = (0x100 + 8 * (2 - 1)) % 2 ^ 64 % 2 ^ 32) ∧
    (FindEntry sampleMemory sampleArm 0x2500 0).map (fun r => (r.ret, r.entry_offset))
      = some (true, 0x108) ∧
    (FindEntry sampleMemory sampleArm 0x1500 0).map (fun r => (r.ret, r.entry_offset))
      = some (true, 0x100) :=
  ⟨FindEntry_open_ended sampleMemory 0 0x100 2 sampleArm Reachable.start 0x1000 0x2000
    (by decide) (by decide) (by decide) (by decide) 0x2500 0 (by decide) (by decide)
    (by decide) (by decide), by decide, by decide⟩

/-- C6. For every table, every object reachable from the fresh one by calls of
`FindEntry`, and every pc whose bias-adjusted value `pc - load_bias` is
strictly below the decoded address of entry 0, `FindEntry` returns false and
does not write `*entry_offset`. -/
theorem FindEntry_below_first (memory : Memory) (load_bias start_offset total_entries : Nat)
    (s : ElfInterfaceArm)
    (hreach : Reachable memory (ElfInterfaceArm.fresh load_bias start_offset total_entries) s)
    (a0 : Nat) (h0 : s.decoded memory 0 = some a0) (pc entry_offset : Nat)
    (hlt : (pc : Int) - load_bias < a0) :
    ∃ r, FindEntry memory s pc entry_offset = some r ∧ r.ret = false ∧
      r.entry_offset = entry_offset := by
  obtain ⟨hc, hb, hs, hn⟩ := reachable_cacheOK (cacheOK_fresh memory _ _ _) hreach
  have hb' : s.load_bias_ = load_bias := hb
  obtain ⟨r, hr⟩ := FindEntry_returns memory s pc entry_offset
  have hkeep := (FindEntry_cacheOK hc hr).2.2.2.2
  suffices hret : r.ret = false from ⟨r, hr, hret, hkeep hret⟩
  have hsearch : ∀ (t : ElfInterfaceArm) (reads : List Nat),
      t.search memory pc entry_offset reads = some r → t.load_bias_ = load_bias →
      t.first_addr_ = a0 → r.ret = false := by
    intro t reads h htb htf
    unfold ElfInterfaceArm.search at h
    by_cases h1 : pc < t.load_bias_
    · simp only [if_pos h1, Option.some.injEq] at h
      rw [← h]
    · have h2 : (pc - t.load_bias_) % 2 ^ 32 < t.first_addr_ := by
        have := Nat.mod_le (pc - t.load_bias_) (2 ^ 32)
        omega
      simp only [if_neg h1, if_pos h2, Option.some.injEq] at h
      rw [← h]
  have h0' : GetPrel31Addr memory (s.start_offset_ % 2 ^ 32) = some a0 := by
    rw [← entryOffset_zero]; exact h0
  unfold FindEntry at hr
  by_cases hg : s.start_offset_ = 0 ∨ s.total_entries_ = 0
  · simp only [if_pos hg, Option.some.injEq] at hr
    rw [← hr]
  · simp only [if_neg hg] at hr
    by_cases hf : s.first_addr_ = 0
    · simp only [if_pos hf, h0'] at hr
      by_cases hN1 : s.total_entries_ > 1
      · simp only [if_pos hN1] at hr
        split at hr
        · simp only [Option.some.injEq] at hr
          rw [← hr]
        · exact hsearch _ _ hr hb' rfl
      · simp only [if_neg hN1] at hr
        exact hsearch _ _ hr hb' rfl
    · simp only [if_neg hf] at hr
      refine hsearch s [] hr hb' ?_
      rcases hc.first with h | h
      · exact absurd h hf
      · exact Option.some.inj (h.symm.trans h0)

/-- C6 on the two-entry table with entries at `0x1000` and `0x2000`:
`FindEntry(0x0500)` fails and leaves `*entry_offset` (here 77) alone. -/
theorem FindEntry_below_first_witness :
    ∃ r, FindEntry sampleMemory sampleArm 0x500 77 = some r ∧ r.ret = false ∧
      r.entry_offset = 77 :=
  FindEntry_below_first sampleMemory 0 0x100 2 sampleArm Reachable.start 0x1000
    (by decide) 0x500 77 (by decide)

/-! ## FindEntry and the load bias -/

theorem readAddr_withoutBias (memory : Memory) (s : ElfInterfaceArm) (current : Nat)
    (reads : List Nat) :
    s.withoutBias.readAddr memory current reads =
      ((s.readAddr memory current reads).1, (s.readAddr memory current reads).2.1.withoutBias,
        (s.readAddr memory current reads).2.2) := by
  unfold ElfInterfaceArm.readAddr
  have he : s.withoutBias.entryOffset current = s.entryOffset current := rfl
  have ha : s.withoutBias.addrs_ = s.addrs_ := rfl
  simp only [he, ha]
  by_cases h0 : s.addrs_ current = 0
  · simp only [h0, if_true]
    cases GetPrel31Addr memory (s.entryOffset current % 2 ^ 32) <;> rfl
  · simp only [h0, if_false]

/-- The loop does not look at the load bias. -/
theorem FindEntryLoop_withoutBias (memory : Memory) (pc entry_offset : Nat) :
    ∀ (fuel : Nat) (s : ElfInterfaceArm) (reads : List Nat) (first last : Nat),
      FindEntryLoop memory pc entry_offset fuel s.withoutBias reads first last =
        (FindEntryLoop memory pc entry_offset fuel s reads first last).map
          FindEntryResult.withoutBias := by
  intro fuel
  induction fuel with
  | zero =>
    intro s reads first last
    by_cases hfl : first ≤ last
    · simp only [FindEntryLoop, if_pos hfl, Option.map_none']
    · simp only [FindEntryLoop, if_neg hfl, Option.map_some']
      rfl
  | succ fuel ih =>
    intro s reads first last
    by_cases hfl : first ≤ last
    · simp only [FindEntryLoop, if_pos hfl, readAddr_withoutBias]
      rcases hra : s.readAddr memory (first + (last - first) / 2) reads with ⟨_ | addr, s', reads'⟩
      · rfl
      · simp only []
        by_cases h1 : pc = addr
        · simp only [if_pos h1, Option.map_some']
          rfl
        · simp only [if_neg h1]
          by_cases h2 : pc < addr
          · simp only [if_pos h2]
            by_cases h3 : first + (last - first) / 2 = first
            · simp only [if_pos h3, Option.map_some']
              rfl
            · simp only [if_neg h3]
              exact ih _ _ _ _
          · simp only [if_neg h2]
            by_cases h3 : first + (last - first) / 2 = last
            · simp only [if_pos h3, Option.map_some']
              rfl
            · simp only [if_neg h3]
              exact ih _ _ _ _
    · simp only [FindEntryLoop, if_neg hfl, Option.map_some']
      rfl

theorem search_withoutBias (memory : Memory) (s : ElfInterfaceArm) (pc entry_offset : Nat)
    (reads : List Nat) (hbias : s.load_bias_ ≤ pc) :
    s.withoutBias.search memory (pc - s.load_bias_) entry_offset reads =
      (s.search memory pc entry_offset reads).map FindEntryResult.withoutBias := by
  unfold ElfInterfaceArm.search
  have hb : s.withoutBias.load_bias_ = 0 := rfl
  have hf : s.withoutBias.first_addr_ = s.first_addr_ := rfl
  have hl : s.withoutBias.last_addr_ = s.last_addr_ := rfl
  have hn : s.withoutBias.total_entries_ = s.total_entries_ := rfl
  simp only [hb, hf, hl, hn, Nat.not_lt_zero, if_false, Nat.sub_zero,
    if_neg (Nat.not_lt.2 hbias)]
  by_cases h2 : (pc - s.load_bias_) % 2 ^ 32 < s.first_addr_
  · simp only [if_pos h2, Option.map_some']
    rfl
  · simp only [if_neg h2]
    by_cases h3 : (pc - s.load_bias_) % 2 ^ 32 ≥ s.last_addr_
    · simp only [if_pos h3, Option.map_some']
      rfl
    · simp only [if_neg h3]
      exact FindEntryLoop_withoutBias memory _ _ _ _ _ _ _

theorem FindEntry_withoutBias (memory : Memory) (s : ElfInterfaceArm) (pc entry_offset : Nat)
    (hbias : s.load_bias_ ≤ pc) :
    FindEntry memory s.withoutBias (pc - s.load_bias_) entry_offset =
      (FindEntry memory s pc entry_offset).map FindEntryResult.withoutBias := by
  unfold FindEntry
  simp only [ElfInterfaceArm.withoutBias, ElfInterfaceArm.entryOffset]
  by_cases hg : s.start_offset_ = 0 ∨ s.total_entries_ = 0
  · simp only [if_pos hg, Option.map_some']
    rfl
  · simp only [if_neg hg]
    by_cases hf0 : s.first_addr_ = 0
    · simp only [if_pos hf0]
      cases h0 : GetPrel31Addr memory (s.start_offset_ % 2 ^ 32) with
      | none => rfl
      | some a0 =>
        simp only []
        by_cases hN1 : s.total_entries_ > 1
        · simp only [if_pos hN1]
          cases hL : GetPrel31Addr memory
              ((s.start_offset_ + (s.total_entries_ - 1) * 8 % 2 ^ 64) % 2 ^ 64 % 2 ^ 32) with
          | none => rfl
          | some aL =>
            exact search_withoutBias memory
              { s with addrs_ := Function.update (Function.update s.addrs_ 0 a0)
                         (s.total_entries_ - 1) aL,
                       first_addr_ := a0, last_addr_ := aL } pc entry_offset _ hbias
        · simp only [if_neg hN1]
          exact search_withoutBias memory
            { s with addrs_ := Function.update s.addrs_ 0 a0, first_addr_ := a0,
                     last_addr_ := a0 } pc entry_offset _ hbias
    · simp only [if_neg hf0]
      exact search_withoutBias memory s pc entry_offset _ hbias

/-- C7. Load-bias handling in `FindEntry`, on every object and over every
memory: for every pc below the load bias the call returns false; for every pc
at or above the load bias `b`, the call returns the same flag and the same
`*entry_offset` as `FindEntry(pc - b)` on the same object with load bias 0. -/
theorem FindEntry_load_bias (memory : Memory) (s : ElfInterfaceArm) (pc entry_offset : Nat) :
    (pc < s.load_bias_ → ∃ r, FindEntry memory s pc entry_offset = some r ∧ r.ret = false) ∧
    (s.load_bias_ ≤ pc → ∃ r r', FindEntry memory s pc entry_offset = some r ∧
      FindEntry memory s.withoutBias (pc - s.load_bias_) entry_offset = some r' ∧
      r'.ret = r.ret ∧ r'.entry_offset = r.entry_offset) := by
  constructor
  · intro hlt
    obtain ⟨r, hr⟩ := FindEntry_returns memory s pc entry_offset
    refine ⟨r, hr, ?_⟩
    have hsearch : ∀ (t : ElfInterfaceArm) (reads : List Nat),
        t.search memory pc entry_offset reads = some r → t.load_bias_ = s.load_bias_ →
        r.ret = false := by
      intro t reads h htb
      unfold ElfInterfaceArm.search at h
      have h1 : pc < t.load_bias_ := by omega
      simp only [if_pos h1, Option.some.injEq] at h
      rw [← h]
    unfold FindEntry at hr
    by_cases hg : s.start_offset_ = 0 ∨ s.total_entries_ = 0
    · simp only [if_pos hg, Option.some.injEq] at hr
      rw [← hr]
    · simp only [if_neg hg] at hr
      by_cases hf : s.first_addr_ = 0
      · simp only [if_pos hf] at hr
        split at hr
        · simp only [Option.some.injEq] at hr
          rw [← hr]
        · by_cases hN1 : s.total_entries_ > 1
          · simp only [if_pos hN1] at hr
            split at hr
            · simp only [Option.some.injEq] at hr
              rw [← hr]
            · exact hsearch _ _ hr rfl
          · simp only [if_neg hN1] at hr
            exact hsearch _ _ hr rfl
      · simp only [if_neg hf] at hr
        exact hsearch _ _ hr rfl
  · intro hbias
    obtain ⟨r, hr⟩ := FindEntry_returns memory s pc entry_offset
    refine ⟨r, r.withoutBias, hr, ?_, rfl, rfl⟩
    rw [FindEntry_withoutBias memory s pc entry_offset hbias, hr]
    rfl

/-! ## FindEntry after a failed read of the last entry -/

/-- The second call after a failed read of the last entry returns true
whatever value `last_addr_` has in the new object: with a first entry that
decodes to a non-zero address `a0` and an unreadable last entry, the first call
returns false at line 44, and a second call with the pc `0xffffffff` returns
true at line 63. -/
theorem FindEntry_after_failed_last_read_any_init (memory : Memory) (s : ElfInterfaceArm)
    (a0 : Nat) (hstart : s.start_offset_ ≠ 0) (hN : 1 < s.total_entries_)
    (hbias : s.load_bias_ = 0) (hfresh : s.first_addr_ = 0) (hlast32 : s.last_addr_ < 2 ^ 32)
    (h0 : s.decoded memory 0 = some a0) (ha0 : a0 ≠ 0) (ha32 : a0 < 2 ^ 32)
    (hL : s.decoded memory (s.total_entries_ - 1) = none) (pc entry_offset : Nat) :
    FindEntryTwice memory s pc 0xffffffff entry_offset
      = some ((false, entry_offset, 44),
          (true, s.entryOffset (s.total_entries_ - 1), 63)) := by
  have hg : ¬ (s.start_offset_ = 0 ∨ s.total_entries_ = 0) := by
    rintro (h | h)
    · exact hstart h
    · omega
  have h0' : GetPrel31Addr memory (s.start_offset_ % 2 ^ 32) = some a0 := by
    rw [← entryOffset_zero]; exact h0
  have hL' : GetPrel31Addr memory
      (ElfInterfaceArm.entryOffset
        { s with addrs_ := Function.update s.addrs_ 0 a0, first_addr_ := a0 }
        (s.total_entries_ - 1) % 2 ^ 32) = none := hL
  have h1 : FindEntry memory s pc entry_offset
      = some ⟨false, entry_offset,
          { s with addrs_ := Function.update s.addrs_ 0 a0, first_addr_ := a0 },
          [s.start_offset_ % 2 ^ 32, s.entryOffset (s.total_entries_ - 1) % 2 ^ 32], 44⟩ := by
    unfold FindEntry
    simp only [if_neg hg, hfresh, if_true, h0', gt_iff_lt, hN, hL']
    rfl
  have h2 : FindEntry memory
      { s with addrs_ := Function.update s.addrs_ 0 a0, first_addr_ := a0 } 0xffffffff
      entry_offset
      = some ⟨true, s.entryOffset (s.total_entries_ - 1),
          { s with addrs_ := Function.update s.addrs_ 0 a0, first_addr_ := a0 }, [], 63⟩ := by
    unfold FindEntry ElfInterfaceArm.search
    have hle : s.last_addr_ ≤ 0xffffffff := by omega
    have hlt : ¬ (0xffffffff < a0) := by omega
    simp only [if_neg hg, if_neg ha0, hbias, Nat.not_lt_zero, if_false, Nat.sub_zero,
      Nat.reducePow, Nat.reduceMod, if_neg hlt, ge_iff_le, hle, if_true]
    rfl
  simp only [FindEntryTwice, h1, h2]

/-- C8, the code at the failing input. The table at `0x100` has two entries;
the first decodes to `0x1000`, the last cannot be read. On the fresh object
the first call `FindEntry(0x1500)` returns false at line 44, and the second
call `FindEntry(0x1500)` returns true at line 63 with `*entry_offset` the
offset `0x108` of the unreadable last entry. -/
theorem FindEntry_after_failed_last_read :
    FindEntryTwice lastUnreadableMemory (ElfInterfaceArm.fresh 0 0x100 2) 0x1500 0x1500 0
      = some ((false, 0, 44), (true, 0x108, 63)) ∧
    (ElfInterfaceArm.fresh 0 0x100 2).decoded lastUnreadableMemory 1 = none := by
  decide

/-! ## ParseLine on a well-formed line -/

theorem hexValue_none_of_isspace {c : Char} (h : isspace c = true) : hexValue c = none := by
  simp only [isspace, Bool.or_eq_true, decide_eq_true_eq] at h
  rcases h with ((((h | h) | h) | h) | h) | h <;> subst h <;> decide

theorem decValue_none_of_isspace {c : Char} (h : isspace c = true) : decValue c = none := by
  simp only [isspace, Bool.or_eq_true, decide_eq_true_eq] at h
  rcases h with ((((h | h) | h) | h) | h) | h <;> subst h <;> decide

theorem isspace_false_of_hexValue {c : Char} (h : (hexValue c).isSome = true) :
    isspace c = false := by
  cases hs : isspace c with
  | false => rfl
  | true => rw [hexValue_none_of_isspace hs] at h; cases h

theorem hexValue_of_decValue {c : Char} (h : (decValue c).isSome = true) :
    (hexValue c).isSome = true := by
  unfold decValue at h
  unfold hexValue
  split at h
  · rename_i h1
    simp [h1]
  · cases h

theorem skipSpace_cons_of_not_space {c : Char} (cs : List Char) (h : isspace c = false) :
    skipSpace (c :: cs) = c :: cs := by
  simp [skipSpace, h]

theorem skipSpace_append_of_blank {w : List Char} (rest : List Char)
    (h : ∀ c ∈ w, isspace c = true) : skipSpace (w ++ rest) = skipSpace rest := by
  induction w with
  | nil => rfl
  | cons c w ih =>
    have hc : isspace c = true := h c (List.mem_cons_self _ _)
    simp only [List.cons_append, skipSpace, hc, if_true]
    exact ih (fun d hd => h d (List.mem_cons_of_mem _ hd))

theorem spanDigits_append (digit : Char → Option Nat) {S : List Char} (rest : List Char)
    (hS : ∀ c ∈ S, (digit c).isSome = true)
    (hrest : ∀ c, rest.head? = some c → digit c = none) :
    spanDigits digit (S ++ rest) = (S.filterMap digit, rest) := by
  induction S with
  | nil =>
    cases rest with
    | nil => rfl
    | cons c cs =>
      have := hrest c rfl
      simp [spanDigits, this]
  | cons c S ih =>
    have hc := hS c (List.mem_cons_self _ _)
    obtain ⟨d, hd⟩ := Option.isSome_iff_exists.1 hc
    have ih' := ih (fun e he => hS e (List.mem_cons_of_mem _ he))
    simp [spanDigits, hd, ih', List.filterMap_cons]

theorem ne_x_of_hexValue {c : Char} (h : (hexValue c).isSome = true) : c ≠ 'x' ∧ c ≠ 'X' := by
  constructor <;> rintro rfl <;> exact absurd h (by decide)

theorem ne_sign_of_hexValue {c : Char} (h : (hexValue c).isSome = true) : c ≠ '-' ∧ c ≠ '+' := by
  constructor <;> rintro rfl <;> exact absurd h (by decide)

/-- `%llx` on a string of hexadecimal digits followed by something that does
not continue the number: the digits are consumed, their value is stored. -/
theorem scanHex_numeral {S : List Char} (rest : List Char) (hS : HexNumeral S)
    (hrest : ∀ c, rest.head? = some c → hexValue c = none ∧ c ≠ 'x' ∧ c ≠ 'X') :
    scanHex (S ++ rest) = .ok (toUnsigned64 false (hexNumber S)) rest := by
  obtain ⟨hne, hall⟩ := hS
  cases S with
  | nil => exact absurd rfl hne
  | cons c cs =>
    have hc := hall c (List.mem_cons_self _ _)
    obtain ⟨d, hd⟩ := Option.isSome_iff_exists.1 hc
    have hsp : isspace c = false := isspace_false_of_hexValue hc
    have hsign := ne_sign_of_hexValue hc
    have hstrip : stripHexPrefix (c :: (cs ++ rest)) = c :: (cs ++ rest) := by
      cases hcs : cs ++ rest with
      | nil => rfl
      | cons c1 r =>
        have hc1 : c1 ≠ 'x' ∧ c1 ≠ 'X' := by
          cases cs with
          | nil =>
            have : rest.head? = some c1 := by
              simp only [List.nil_append] at hcs
              rw [hcs]; rfl
            exact (hrest c1 this).2
          | cons c1' cs' =>
            simp only [List.cons_append, List.cons.injEq] at hcs
            have := hall c1' (List.mem_cons_of_mem _ (List.mem_cons_self _ _))
            rw [hcs.1] at this
            exact ne_x_of_hexValue this
        simp [stripHexPrefix, hc1.1, hc1.2]
    have hspan := spanDigits_append hexValue rest hall (fun e he => (hrest e he).1)
    simp only [List.cons_append, List.filterMap_cons, hd] at hspan
    simp only [scanHex, List.cons_append, skipSpace_cons_of_not_space _ hsp, hsign.1, hsign.2,
      or_self, if_false, hstrip, hspan, hexNumber, List.filterMap_cons, hd, decide_False]

/-- `%*d` on a string of decimal digits followed by something that is not a
digit: the digits are consumed. -/
theorem scanDec_numeral {S : List Char} (rest : List Char) (hS : DecNumeral S)
    (hrest : ∀ c, rest.head? = some c → decValue c = none) :
    ∃ v, scanDec (S ++ rest) = .ok v rest := by
  obtain ⟨hne, hall⟩ := hS
  cases S with
  | nil => exact absurd rfl hne
  | cons c cs =>
    have hc := hall c (List.mem_cons_self _ _)
    obtain ⟨d, hd⟩ := Option.isSome_iff_exists.1 hc
    have hsp : isspace c = false := isspace_false_of_hexValue (hexValue_of_decValue hc)
    have hsign := ne_sign_of_hexValue (hexValue_of_decValue hc)
    have hspan := spanDigits_append decValue rest hall hrest
    simp only [List.cons_append, List.filterMap_cons, hd] at hspan
    refine ⟨ofDigits 10 (d :: cs.filterMap decValue), ?_⟩
    simp only [scanDec, List.cons_append, skipSpace_cons_of_not_space _ hsp, hsign.1,
      hsign.2, or_self, if_false, hspan]

/-- `%4s` on a permission field: its four characters are stored. -/
theorem scanString4_field {P : List Char} (rest : List Char) (hP : PermissionField P) :
    scanString4 (P ++ rest) = .ok P rest := by
  obtain ⟨hlen, hns⟩ := hP
  rcases P with _ | ⟨a, _ | ⟨b, _ | ⟨c, _ | ⟨d, _ | ⟨e, t⟩⟩⟩⟩⟩ <;> simp at hlen
  have ha := hns a (by simp)
  have hb := hns b (by simp)
  have hc := hns c (by simp)
  have hd := hns d (by simp)
  simp [scanString4, skipSpace, takeNonSpace, ha, hb, hc, hd]

theorem head_blank {w : List Char} (rest : List Char) (hw : Blank w) :
    ∀ c, (w ++ rest).head? = some c → isspace c = true := by
  obtain ⟨hne, hall⟩ := hw
  cases w with
  | nil => exact absurd rfl hne
  | cons d w =>
    intro c hc
    simp only [List.cons_append, List.head?_cons, Option.some.injEq] at hc
    rw [← hc]
    exact hall d (List.mem_cons_self _ _)

theorem head_blank_hex {w : List Char} (rest : List Char) (hw : Blank w) :
    ∀ c, (w ++ rest).head? = some c → hexValue c = none ∧ c ≠ 'x' ∧ c ≠ 'X' := by
  intro c hc
  have hs := head_blank rest hw c hc
  refine ⟨hexValue_none_of_isspace hs, ?_, ?_⟩ <;> rintro rfl <;> exact absurd hs (by decide)

theorem skipSpace_hexNumeral {S : List Char} (rest : List Char) (hS : HexNumeral S) :
    skipSpace (S ++ rest) = S ++ rest := by
  obtain ⟨hne, hall⟩ := hS
  cases S with
  | nil => exact absurd rfl hne
  | cons c cs =>
    exact skipSpace_cons_of_not_space _ (isspace_false_of_hexValue (hall c (List.mem_cons_self _ _)))

theorem skipSpace_decNumeral {S : List Char} (rest : List Char) (hS : DecNumeral S) :
    skipSpace (S ++ rest) = S ++ rest :=
  skipSpace_hexNumeral rest ⟨hS.1, fun c hc => hexValue_of_decValue (hS.2 c hc)⟩

theorem skipSpace_field {P : List Char} (rest : List Char) (hP : PermissionField P) :
    skipSpace (P ++ rest) = P ++ rest := by
  obtain ⟨hlen, hns⟩ := hP
  cases P with
  | nil => simp at hlen
  | cons c cs => exact skipSpace_cons_of_not_space _ (hns c (List.mem_cons_self _ _))

theorem drop_length_sub (l1 l2 : List Char) :
    (l1 ++ l2).drop ((l1 ++ l2).length - l2.length) = l2 := by
  have : (l1 ++ l2).length - l2.length = l1.length := by simp
  rw [this, List.drop_left]

theorem mapsLine_eq_append (S E w1 P w2 O w3 D1 D2 w4 I w5 NAME nl : List Char) :
    ∃ front, mapsLine S E w1 P w2 O w3 D1 D2 w4 I w5 NAME nl = front ++ (NAME ++ nl) :=
  ⟨S ++ ('-' :: (E ++ (w1 ++ (P ++ (w2 ++ (O ++ (w3 ++ (D1 ++ (':' :: (D2 ++ (w4 ++ (I ++
    w5)))))))))))), by simp [mapsLine]⟩

/-- The `sscanf` call on a well-formed line: four assignments, with the values
of the numerals, and `name_pos` at the first character of the name. -/
theorem sscanfMapsLine_wellFormed {S E w1 P w2 O w3 D1 D2 w4 I w5 NAME nl : List Char}
    (hS : HexNumeral S) (hE : HexNumeral E) (hw1 : Blank w1) (hP : PermissionField P)
    (hw2 : Blank w2) (hO : HexNumeral O) (hw3 : Blank w3) (hD1 : HexNumeral D1)
    (hD2 : HexNumeral D2) (hw4 : Blank w4) (hI : DecNumeral I) (hw5 : Blank w5)
    (hNAME : RegionName NAME) :
    sscanfMapsLine (mapsLine S E w1 P w2 O w3 D1 D2 w4 I w5 NAME nl) =
      .assigned4 (toUnsigned64 false (hexNumber S)) (toUnsigned64 false (hexNumber E)) P
        (toUnsigned64 false (hexNumber O))
        (some ((mapsLine S E w1 P w2 O w3 D1 D2 w4 I w5 NAME nl).length
          - (NAME ++ nl).length)) := by
  have h1 := scanHex_numeral ('-' :: (E ++ (w1 ++ (P ++ (w2 ++ (O ++ (w3 ++ (D1 ++ (':' :: (D2 ++ (w4 ++ (I ++ (w5 ++ (NAME ++ nl)))))))))))))) hS
    (by intro c hc
        simp only [List.head?_cons, Option.some.injEq] at hc
        subst hc
        decide)
  have h2 := scanHex_numeral (w1 ++ (P ++ (w2 ++ (O ++ (w3 ++ (D1 ++ (':' :: (D2 ++ (w4 ++ (I ++ (w5 ++ (NAME ++ nl)))))))))))) hE
    (head_blank_hex _ hw1)
  have h3 := scanString4_field (w2 ++ (O ++ (w3 ++ (D1 ++ (':' :: (D2 ++ (w4 ++ (I ++ (w5 ++ (NAME ++ nl)))))))))) hP
  have h4 := scanHex_numeral (w3 ++ (D1 ++ (':' :: (D2 ++ (w4 ++ (I ++ (w5 ++ (NAME ++ nl)))))))) hO
    (head_blank_hex _ hw3)
  have h5 := scanHex_numeral (':' :: (D2 ++ (w4 ++ (I ++ (w5 ++ (NAME ++ nl)))))) hD1
    (by intro c hc
        simp only [List.head?_cons, Option.some.injEq] at hc
        subst hc
        decide)
  have h6 := scanHex_numeral (w4 ++ (I ++ (w5 ++ (NAME ++ nl)))) hD2 (head_blank_hex _ hw4)
  obtain ⟨v, h7⟩ := scanDec_numeral (w5 ++ (NAME ++ nl)) hI
    (fun c hc => decValue_none_of_isspace (head_blank _ hw5 c hc))
  have h8 : skipSpace (NAME ++ nl) = NAME ++ nl := by
    obtain ⟨hne, hhead, _⟩ := hNAME
    cases NAME with
    | nil => exact absurd rfl hne
    | cons c cs => exact skipSpace_cons_of_not_space _ (hhead c rfl)
  simp only [sscanfMapsLine, scanNamePos, mapsLine, h1, scanChar, if_true, h2,
    skipSpace_append_of_blank _ hw1.2, skipSpace_append_of_blank _ hw2.2,
    skipSpace_append_of_blank _ hw3.2, skipSpace_append_of_blank _ hw4.2,
    skipSpace_append_of_blank _ hw5.2, skipSpace_field _ hP, skipSpace_hexNumeral _ hO,
    skipSpace_hexNumeral _ hD1, skipSpace_decNumeral _ hI, h3, h4, h5, h6, h7, h8]

/-- The last line of `ParseLine` on a non-empty name followed by nothing or by
one newline: the newline is removed, the name is kept. -/
theorem strip_newline {NAME nl : List Char} (hNAME : RegionName NAME)
    (hnl : nl = [] ∨ nl = [Char.ofNat 10]) :
    (NAME ++ nl).length ≠ 0 ∧
    ((NAME ++ nl)[(NAME ++ nl).length - 1]? = some (Char.ofNat 10) ∧
        (NAME ++ nl).take ((NAME ++ nl).length - 1) = NAME ∨
      (∃ c, (NAME ++ nl)[(NAME ++ nl).length - 1]? = some c ∧ c ≠ Char.ofNat 10) ∧
        NAME ++ nl = NAME) := by
  obtain ⟨hne, _, hno⟩ := hNAME
  have hlen : 0 < NAME.length := List.length_pos.2 hne
  rcases hnl with rfl | rfl
  · refine ⟨by simp; exact hne, Or.inr ⟨?_, by simp⟩⟩
    simp only [List.append_nil]
    refine ⟨NAME[NAME.length - 1], List.getElem?_eq_getElem (by omega), ?_⟩
    intro h
    exact hno (h ▸ List.getElem_mem _)
  · refine ⟨by simp, Or.inl ⟨?_, ?_⟩⟩
    · simp [List.getElem?_append_right]
    · simp

/-- `ParseLine` on a well-formed line returns true with the values of the
numerals, the flags of the permission field and the name. -/
theorem ParseLine_wellFormed {S E w1 P w2 O w3 D1 D2 w4 I w5 NAME nl : List Char}
    (hS : HexNumeral S) (hE : HexNumeral E) (hw1 : Blank w1) (hP : PermissionField P)
    (hw2 : Blank w2) (hO : HexNumeral O) (hw3 : Blank w3) (hD1 : HexNumeral D1)
    (hD2 : HexNumeral D2) (hw4 : Blank w4) (hI : DecNumeral I) (hw5 : Blank w5)
    (hNAME : RegionName NAME) (hnl : nl = [] ∨ nl = [Char.ofNat 10]) :
    ParseLine (mapsLine S E w1 P w2 O w3 D1 D2 w4 I w5 NAME nl) =
      .returnTrue ⟨toUnsigned64 false (hexNumber S), toUnsigned64 false (hexNumber E),
        toUnsigned64 false (hexNumber O), permissionFlags P, NAME⟩ := by
  have hsc := @sscanfMapsLine_wellFormed S E w1 P w2 O w3 D1 D2 w4 I w5 NAME nl
    hS hE hw1 hP hw2 hO hw3 hD1 hD2 hw4 hI hw5 hNAME
  obtain ⟨front, hfront⟩ := mapsLine_eq_append S E w1 P w2 O w3 D1 D2 w4 I w5 NAME nl
  have hdrop : (mapsLine S E w1 P w2 O w3 D1 D2 w4 I w5 NAME nl).drop
      ((mapsLine S E w1 P w2 O w3 D1 D2 w4 I w5 NAME nl).length - (NAME ++ nl).length)
      = NAME ++ nl := by
    rw [hfront]; exact drop_length_sub _ _
  obtain ⟨hlen, hP'⟩ := hP
  rcases P with _ | ⟨a, _ | ⟨b, _ | ⟨c, _ | ⟨d, _ | ⟨e, t⟩⟩⟩⟩⟩ <;> simp at hlen
  obtain ⟨hne, hcase⟩ := strip_newline hNAME hnl
  generalize NAME ++ nl = name at hsc hdrop hne hcase
  simp only [ParseLine, hsc, permissionAt, List.length_cons, List.length_nil, hdrop, hne,
    if_false]
  rcases hcase with ⟨h1, h2⟩ | ⟨⟨c', h1, h3⟩, h2⟩
  · simp [h1, h2, permissionFlags]
  · subst h2
    simp [h1, h3, permissionFlags]

/-- C10. For every well-formed line `S-E PPPP O D:D I NAME`, with runs of
white space between the fields and nothing or one newline at its end, where
`NAME` is non-empty, starts with a character that is not white space and may
contain spaces, `ParseLine` returns true and sets `name` to exactly `NAME`:
embedded spaces are kept and the final newline is removed. -/
theorem ParseLine_name (S E w1 P w2 O w3 D1 D2 w4 I w5 NAME nl : List Char)
    (hS : HexNumeral S) (hE : HexNumeral E) (hw1 : Blank w1) (hP : PermissionField P)
    (hw2 : Blank w2) (hO : HexNumeral O) (hw3 : Blank w3) (hD1 : HexNumeral D1)
    (hD2 : HexNumeral D2) (hw4 : Blank w4) (hI : DecNumeral I) (hw5 : Blank w5)
    (hNAME : RegionName NAME) (hnl : nl = [] ∨ nl = [Char.ofNat 10]) :
    ∃ m, ParseLine (mapsLine S E w1 P w2 O w3 D1 D2 w4 I w5 NAME nl) = .returnTrue m ∧
      m.name = NAME :=
  ⟨_, ParseLine_wellFormed hS hE hw1 hP hw2 hO hw3 hD1 hD2 hw4 hI hw5 hNAME hnl, rfl⟩

/-- C10 on a line whose name has two embedded spaces and a final newline. -/
theorem ParseLine_name_witness :
    spacedLine =
      "6f000000-6f01e000 rwxp 00000000 00:0c 16389419   /data/app/My App/lib one.so\n".toList ∧
    ∃ m, ParseLine spacedLine = .returnTrue m ∧
      m.name = "/data/app/My App/lib one.so".toList :=
  ⟨by decide,
    ParseLine_name "6f000000".toList "6f01e000".toList " ".toList "rwxp".toList " ".toList
      "00000000".toList " ".toList "00".toList "0c".toList " ".toList "16389419".toList
      "   ".toList "/data/app/My App/lib one.so".toList [Char.ofNat 10]
      (by decide) (by decide) (by decide) (by decide) (by decide) (by decide) (by decide)
      (by decide) (by decide) (by decide) (by decide) (by decide) (by decide)
      (Or.inr rfl)⟩

/-- C9, the code at the failing input. On the line `1000-2000 r-xp 00000000`,
which stops after the offset, the `sscanf` call assigns `start`, `end`,
`permissions` and `offset` and returns 4 without writing `name_pos`, so
`ParseLine` does not return false: it goes on and reads `name_pos`, which was
never written. -/
theorem ParseLine_short_line :
    sscanfMapsLine shortLine = .assigned4 0x1000 0x2000 "r-xp".toList 0 none ∧
    (sscanfMapsLine shortLine).ret = 4 ∧
    ParseLine shortLine = .undefined ∧
    ParseLine shortLine ≠ .returnFalse := by
  decide

/-- C7 on the two-entry table with load bias `0x10000`: the pc `0x500` is
below the load bias, and the pc `0x11500` gives what `0x1500` gives without
the bias. -/
theorem FindEntry_load_bias_witness :
    (∃ r, FindEntry sampleMemory biasedArm 0x500 0 = some r ∧ r.ret = false) ∧
    (∃ r r', FindEntry sampleMemory biasedArm 0x11500 0 = some r ∧
      FindEntry sampleMemory biasedArm.withoutBias (0x11500 - biasedArm.load_bias_) 0
        = some r' ∧
      r'.ret = r.ret ∧ r'.entry_offset = r.entry_offset) :=
  ⟨(FindEntry_load_bias sampleMemory biasedArm 0x500 0).1 (by decide),
    (FindEntry_load_bias sampleMemory biasedArm 0x11500 0).2 (by decide)⟩

/-! ## The number of entries that Maps::Find inspects -/

/-- A result of the loop of `Maps::Find` does not change when more loop bodies
are allowed. -/
theorem FindLoop_mono (maps : List MapInfo) (pc : Nat) :
    ∀ (k k' first last : Nat) (r : Option Nat), k ≤ k' →
      FindLoop maps pc k first last = some r → FindLoop maps pc k' first last = some r := by
  intro k
  induction k with
  | zero =>
    intro k' first last r _ h
    by_cases hfl : first ≤ last
    · simp [FindLoop, hfl] at h
    · simp only [FindLoop, if_neg hfl] at h
      cases k' <;> simp only [FindLoop, if_neg hfl, h]
  | succ k ih =>
    intro k' first last r hk h
    obtain ⟨j, rfl⟩ : ∃ j, k' = j + 1 := ⟨k' - 1, by omega⟩
    by_cases hfl : first ≤ last
    · simp only [FindLoop, if_pos hfl] at h ⊢
      cases hcur : maps[(first + last) / 2]? with
      | none => simp [hcur] at h
      | some cur =>
        simp only [hcur] at h ⊢
        by_cases hin : cur.start ≤ pc ∧ pc < cur.end_
        · simp only [if_pos hin] at h ⊢
          exact h
        · simp only [if_neg hin] at h ⊢
          by_cases hlt : pc < cur.start
          · simp only [if_pos hlt] at h ⊢
            by_cases h0 : (first + last) / 2 = 0
            · simp only [if_pos h0] at h ⊢
              exact h
            · simp only [if_neg h0] at h ⊢
              exact ih j _ _ r (by omega) h
          · simp only [if_neg hlt] at h ⊢
            exact ih j _ _ r (by omega) h
    · simp only [FindLoop, if_neg hfl] at h ⊢
      exact h

/-- The loop of `Maps::Find` on a range of fewer than `2 ^ k` entries returns
within `k` loop bodies: each body that does not return leaves at most half of
the range. -/
theorem FindLoop_returns_within (maps : List MapInfo) (pc : Nat) :
    ∀ (k first last : Nat), last < maps.length → last + 1 - first < 2 ^ k →
      ∃ r, FindLoop maps pc k first last = some r := by
  intro k
  induction k with
  | zero =>
    intro first last _ hsize
    have hfl : ¬ first ≤ last := by
      simp only [Nat.pow_zero] at hsize
      omega
    exact ⟨none, by simp only [FindLoop, if_neg hfl]⟩
  | succ k ih =>
    intro first last hlast hsize
    have hpow : 2 ^ (k + 1) = 2 * 2 ^ k := by rw [Nat.pow_succ]; omega
    rw [hpow] at hsize
    by_cases hfl : first ≤ last
    · have hidx : (first + last) / 2 < maps.length := by omega
      have hcur : maps[(first + last) / 2]? = some maps[(first + last) / 2] :=
        List.getElem?_eq_getElem hidx
      simp only [FindLoop, if_pos hfl, hcur]
      by_cases hin : maps[(first + last) / 2].start ≤ pc ∧ pc < maps[(first + last) / 2].end_
      · simp only [if_pos hin]
        exact ⟨_, rfl⟩
      · simp only [if_neg hin]
        by_cases hlt : pc < maps[(first + last) / 2].start
        · simp only [if_pos hlt]
          by_cases h0 : (first + last) / 2 = 0
          · simp only [if_pos h0]
            exact ⟨_, rfl⟩
          · simp only [if_neg h0]
            exact ih first _ (by omega) (by omega)
        · simp only [if_neg hlt]
          exact ih _ last hlast (by omega)
    · exact ⟨none, by simp only [FindLoop, if_neg hfl]⟩

/-- C20. `Maps::Find` is logarithmic: for every table of `n ≥ 1` entries,
sorted or not, and every pc, the search loop returns within
`floor(log2 n) + 1` loop bodies, each of which inspects one entry, and what it
returns then is the result of `Find`. -/
theorem Find_logarithmic (maps : List MapInfo) (pc : Nat) (hn : 1 ≤ maps.length) :
    ∃ r, FindLoop maps pc (Nat.log2 maps.length + 1) 0 (maps.length - 1) = some r ∧
      Find maps pc = some r := by
  obtain ⟨r, hr⟩ := FindLoop_returns_within maps pc (Nat.log2 maps.length + 1) 0
    (maps.length - 1) (by omega) (by
      have := @Nat.lt_log2_self maps.length
      omega)
  refine ⟨r, hr, ?_⟩
  have hne : maps.isEmpty = false := by
    cases maps with
    | nil => simp at hn
    | cons a rest => rfl
  have hle : Nat.log2 maps.length + 1 ≤ maps.length := by
    have h1 : 2 ^ Nat.log2 maps.length ≤ maps.length := Nat.log2_self_le (by omega)
    have h2 : Nat.log2 maps.length < 2 ^ Nat.log2 maps.length := Nat.lt_two_pow _
    omega
  simp only [Find, hne, Bool.false_eq_true, if_false]
  exact FindLoop_mono maps pc _ _ 0 _ r hle hr

/-- C20 on the three-entry table: `floor(log2 3) + 1 = 2` loop bodies give the
result of `Find` for the pc `0x5000`, which lies in the last entry. -/
theorem Find_logarithmic_witness :
    Nat.log2 sampleMaps.length + 1 = 2 ∧
    FindLoop sampleMaps 0x5000 2 0 2 = some (some 2) ∧
    ∃ r, FindLoop sampleMaps 0x5000 (Nat.log2 sampleMaps.length + 1) 0
        (sampleMaps.length - 1) = some r ∧
      Find sampleMaps 0x5000 = some r :=
  ⟨by
      have h1 := (@Nat.log2_lt 3 2 (by decide)).2 (by decide)
      have h2 := (@Nat.le_log2 3 1 (by decide)).2 (by decide)
      show Nat.log2 3 + 1 = 2
      omega,
    by decide, Find_logarithmic sampleMaps 0x5000 (by decide)⟩

/-! ## HandleType -/

/-- C19. `HandleType(offset, type)` returns true iff `type` is `PT_ARM_EXIDX`
(`0x70000001`); for any other type it returns false and leaves the object,
`start_offset_` and `total_entries_` included, unchanged; for `PT_ARM_EXIDX`
with both program-header reads succeeding it sets `start_offset_` to the
`uint64_t` difference `p_vaddr - load_bias_` (the plain difference whenever
`load_bias_ ≤ p_vaddr`) and `total_entries_` to `floor(p_memsz / 8)`. -/
theorem HandleType_spec (memory : Memory) (s : ElfInterfaceArm) (offset type : Nat) :
    ((HandleType memory s offset type).ret = true ↔ type = PT_ARM_EXIDX) ∧
    (type = 0x70000001 ↔ type = PT_ARM_EXIDX) ∧
    (type ≠ PT_ARM_EXIDX →
      (HandleType memory s offset type).ret = false ∧
      (HandleType memory s offset type).self = s) ∧
    (∀ p_vaddr p_memsz, type = PT_ARM_EXIDX →
      ReadField memory offset Elf32_Phdr.p_vaddr = some p_vaddr →
      ReadField memory offset Elf32_Phdr.p_memsz = some p_memsz →
      (HandleType memory s offset type).self.start_offset_
        = (p_vaddr + 2 ^ 64 - s.load_bias_ % 2 ^ 64) % 2 ^ 64 ∧
      (s.load_bias_ ≤ p_vaddr →
        (HandleType memory s offset type).self.start_offset_ = p_vaddr - s.load_bias_) ∧
      (HandleType memory s offset type).self.total_entries_ = p_memsz / 8) := by
  refine ⟨?_, Iff.rfl, ?_, ?_⟩
  · unfold HandleType
    by_cases ht : type = PT_ARM_EXIDX
    · simp only [ht, ne_eq, not_true_eq_false, if_false, iff_true]
      cases ReadField memory offset Elf32_Phdr.p_vaddr with
      | none => rfl
      | some p_vaddr =>
        cases ReadField memory offset Elf32_Phdr.p_memsz with
        | none => rfl
        | some p_memsz => rfl
    · simp [ht]
  · intro ht
    simp [HandleType, ht]
  · intro p_vaddr p_memsz ht hv hm
    have hv32 : p_vaddr < 2 ^ 32 := by
      unfold ReadField at hv
      split at hv
      · cases hv
      · simp only [Option.some.injEq] at hv
        omega
    simp only [HandleType, ht, ne_eq, not_true_eq_false, if_false, hv, hm, true_and]
    refine ⟨?_, trivial⟩
    intro hle
    omega

/-- C19 on the program header of `phdrMemory`, for the fresh object with load
bias `0x10000`: the table starts at `0x100` and has 3 entries. -/
theorem HandleType_spec_witness :
    (HandleType phdrMemory (ElfInterfaceArm.fresh 0x10000 0 0) 0x34 0x70000001).ret = true ∧
    (HandleType phdrMemory (ElfInterfaceArm.fresh 0x10000 0 0) 0x34
      0x70000001).self.start_offset_ = 0x100 ∧
    (HandleType phdrMemory (ElfInterfaceArm.fresh 0x10000 0 0) 0x34
      0x70000001).self.total_entries_ = 3 ∧
    (HandleType phdrMemory (ElfInterfaceArm.fresh 0x10000 0 0) 0x34 1).ret = false :=
  ⟨(HandleType_spec phdrMemory (ElfInterfaceArm.fresh 0x10000 0 0) 0x34 0x70000001).1.2 rfl,
    by decide, by decide, by decide⟩

/-! ## The register-set factory -/

/-- C17. The register-set factory fixes the variant per architecture:
`Arm::CreateRegs` and `X86::CreateRegs` build a set of 32-bit words,
`Arm64::CreateRegs` and `X86_64::CreateRegs` a set of 64-bit words, and in each
case, for both overloads, the PC index, the SP index and the register count of
the set are the `*_REG_PC`, `*_REG_SP` and `*_REG_LAST` of that same
architecture. -/
theorem CreateRegs_variant (c : MachineConstants) (data reg_mem : List Nat) :
    (Arm.CreateRegs c data = .Regs32 c.ARM_REG_PC c.ARM_REG_SP c.ARM_REG_LAST data ∧
      (Arm.CreateRegsVector c reg_mem).wordBits = 32 ∧
      (Arm.CreateRegsVector c reg_mem).pc_reg = c.ARM_REG_PC ∧
      (Arm.CreateRegsVector c reg_mem).sp_reg = c.ARM_REG_SP ∧
      (Arm.CreateRegsVector c reg_mem).total_regs = c.ARM_REG_LAST) ∧
    (X86.CreateRegs c data = .Regs32 c.X86_REG_PC c.X86_REG_SP c.X86_REG_LAST data ∧
      (X86.CreateRegsVector c reg_mem).wordBits = 32 ∧
      (X86.CreateRegsVector c reg_mem).pc_reg = c.X86_REG_PC ∧
      (X86.CreateRegsVector c reg_mem).sp_reg = c.X86_REG_SP ∧
      (X86.CreateRegsVector c reg_mem).total_regs = c.X86_REG_LAST) ∧
    (Arm64.CreateRegs c data = .Regs64 c.ARM64_REG_PC c.ARM64_REG_SP c.ARM64_REG_LAST data ∧
      (Arm64.CreateRegsVector c reg_mem).wordBits = 64 ∧
      (Arm64.CreateRegsVector c reg_mem).pc_reg = c.ARM64_REG_PC ∧
      (Arm64.CreateRegsVector c reg_mem).sp_reg = c.ARM64_REG_SP ∧
      (Arm64.CreateRegsVector c reg_mem).total_regs = c.ARM64_REG_LAST) ∧
    (X86_64.CreateRegs c data
        = .Regs64 c.X86_64_REG_PC c.X86_64_REG_SP c.X86_64_REG_LAST data ∧
      (X86_64.CreateRegsVector c reg_mem).wordBits = 64 ∧
      (X86_64.CreateRegsVector c reg_mem).pc_reg = c.X86_64_REG_PC ∧
      (X86_64.CreateRegsVector c reg_mem).sp_reg = c.X86_64_REG_SP ∧
      (X86_64.CreateRegsVector c reg_mem).total_regs = c.X86_64_REG_LAST) :=
  ⟨⟨rfl, rfl, rfl, rfl, rfl⟩, ⟨rfl, rfl, rfl, rfl, rfl⟩, ⟨rfl, rfl, rfl, rfl, rfl⟩,
    ⟨rfl, rfl, rfl, rfl, rfl⟩⟩

/-! ## The backing store of a map entry -/

/-- C18, as amended. `MapInfo::CreateMemory` chooses the backing store by
whether the file accessor can be initialised on the name and the file offset of
the entry: when `Init(name, offset)` succeeds it returns the file-backed
accessor on that name at that offset, and when it fails it returns a
process-memory accessor over exactly the range `[start, end)` of the given pid;
that is what an entry with an empty name gets when no file can be opened under
the empty name. -/
theorem CreateMemory_spec (Init : List Char → Nat → Bool) (m : MapInfo) (pid : Nat) :
    (Init m.name m.offset = true →
      m.CreateMemory Init pid = .MemoryFileAtOffset m.name m.offset) ∧
    (Init m.name m.offset = false →
      m.CreateMemory Init pid = .MemoryByPidRange pid m.start m.end_) ∧
    (m.name = [] → Init [] m.offset = false →
      m.CreateMemory Init pid = .MemoryByPidRange pid m.start m.end_) := by
  refine ⟨?_, ?_, ?_⟩
  · intro h
    simp [MapInfo.CreateMemory, h]
  · intro h
    simp [MapInfo.CreateMemory, h]
  · intro hn h
    simp [MapInfo.CreateMemory, hn, h]

/-- C18 as stated fails for an entry that has a name under which no file can
be opened: the heap entry is named `[heap]`, and `CreateMemory` returns the
process-memory accessor over its range. -/
theorem CreateMemory_counterexample :
    heapMap.name ≠ [] ∧
    heapMap.CreateMemory noFiles 1234 = .MemoryByPidRange 1234 0x1000 0x2000 ∧
    heapMap.CreateMemory noFiles 1234 ≠ .MemoryFileAtOffset heapMap.name heapMap.offset := by
  decide

/-- C18, as amended, on an entry backed by a file that can be opened and on the
heap entry. -/
theorem CreateMemory_spec_witness :
    libcMap.CreateMemory onlyLibc 1234
      = .MemoryFileAtOffset "/system/lib/libc.so".toList 0x3000 ∧
    heapMap.CreateMemory onlyLibc 1234 = .MemoryByPidRange 1234 0x1000 0x2000 :=
  ⟨(CreateMemory_spec onlyLibc libcMap 1234).1 (by decide),
    (CreateMemory_spec onlyLibc heapMap 1234).2.1 (by decide)⟩

/-! ## Step and StepExidx -/

/-- The value that `*entry_offset` has before the call shows in the result of
the loop of `FindEntry` only when the loop returns false. -/
theorem FindEntryLoop_initial (memory : Memory) (pc e e' : Nat) :
    ∀ (fuel : Nat) (s : ElfInterfaceArm) (reads : List Nat) (first last : Nat),
      FindEntryLoop memory pc e' fuel s reads first last =
        (FindEntryLoop memory pc e fuel s reads first last).map
          (FindEntryResult.withInitial e') := by
  intro fuel
  induction fuel with
  | zero =>
    intro s reads first last
    by_cases hfl : first ≤ last
    · simp only [FindEntryLoop, if_pos hfl, Option.map_none']
    · simp only [FindEntryLoop, if_neg hfl, Option.map_some']
      rfl
  | succ fuel ih =>
    intro s reads first last
    by_cases hfl : first ≤ last
    · simp only [FindEntryLoop, if_pos hfl]
      rcases hra : s.readAddr memory (first + (last - first) / 2) reads with ⟨_ | addr, s', reads'⟩
      · rfl
      · simp only []
        by_cases h1 : pc = addr
        · simp only [if_pos h1, Option.map_some']
          rfl
        · simp only [if_neg h1]
          by_cases h2 : pc < addr
          · simp only [if_pos h2]
            by_cases h3 : first + (last - first) / 2 = first
            · simp only [if_pos h3, Option.map_some']
              rfl
            · simp only [if_neg h3]
              exact ih _ _ _ _
          · simp only [if_neg h2]
            by_cases h3 : first + (last - first) / 2 = last
            · simp only [if_pos h3, Option.map_some']
              rfl
            · simp only [if_neg h3]
              exact ih _ _ _ _
    · simp only [FindEntryLoop, if_neg hfl, Option.map_some']
      rfl

theorem search_initial (memory : Memory) (s : ElfInterfaceArm) (pc e e' : Nat)
    (reads : List Nat) :
    s.search memory pc e' reads =
      (s.search memory pc e reads).map (FindEntryResult.withInitial e') := by
  unfold ElfInterfaceArm.search
  by_cases h1 : pc < s.load_bias_
  · simp only [if_pos h1, Option.map_some']
    rfl
  · simp only [if_neg h1]
    by_cases h2 : (pc - s.load_bias_) % 2 ^ 32 < s.first_addr_
    · simp only [if_pos h2, Option.map_some']
      rfl
    · simp only [if_neg h2]
      by_cases h3 : (pc - s.load_bias_) % 2 ^ 32 ≥ s.last_addr_
      · simp only [if_pos h3, Option.map_some']
        rfl
      · simp only [if_neg h3]
        exact FindEntryLoop_initial memory _ e e' _ _ _ _ _

/-- A call of `FindEntry` that returns true does not depend on the value that
`*entry_offset` had before the call, and one that returns false depends on it
only by leaving it there: an uninitialised `entry_offset`, as in `StepExidx`,
is never read. -/
theorem FindEntry_initial (memory : Memory) (s : ElfInterfaceArm) (pc e e' : Nat) :
    FindEntry memory s pc e' =
      (FindEntry memory s pc e).map (FindEntryResult.withInitial e') := by
  unfold FindEntry
  by_cases hg : s.start_offset_ = 0 ∨ s.total_entries_ = 0
  · simp only [if_pos hg, Option.map_some']
    rfl
  · simp only [if_neg hg]
    by_cases hf0 : s.first_addr_ = 0
    · simp only [if_pos hf0]
      cases h0 : GetPrel31Addr memory (s.start_offset_ % 2 ^ 32) with
      | none => rfl
      | some a0 =>
        simp only []
        by_cases hN1 : s.total_entries_ > 1
        · simp only [if_pos hN1]
          split
          · rfl
          · exact search_initial memory _ pc e e' _
        · simp only [if_neg hN1]
          exact search_initial memory _ pc e e' _
    · simp only [if_neg hf0]
      exact search_initial memory s pc e e' _

/-- `StepExidx` returns on every input. -/
theorem StepExidx_returns (memory : Memory) (arm : ArmExidx) (n : ArmRegNumbers)
    (s : ElfInterfaceArm) (pc : Nat) (regs : RegsArm) :
    ∃ r, StepExidx memory arm n s pc regs = some r := by
  obtain ⟨found, hf⟩ := FindEntry_returns memory s (pc % 2 ^ 32) 0
  simp only [StepExidx, hf]
  by_cases h1 : found.ret = false
  · simp only [h1, if_true]
    exact ⟨_, rfl⟩
  · simp only [h1, if_false]
    by_cases h2 : (arm regs regs.sp_ found.entry_offset).ok = true
    · simp only [h2, if_true]
      exact ⟨_, rfl⟩
    · simp only [h2]
      exact ⟨_, rfl⟩

/-- `StepExidx` itself never runs the DWARF step. -/
theorem StepExidx_dwarfSteps {memory : Memory} {arm : ArmExidx} {n : ArmRegNumbers}
    {s : ElfInterfaceArm} {pc : Nat} {regs : RegsArm} {r : StepResult}
    (h : StepExidx memory arm n s pc regs = some r) : r.dwarfSteps = [] := by
  unfold StepExidx at h
  split at h
  · cases h
  · split at h
    · simp only [Option.some.injEq] at h
      rw [← h]
    · simp only at h
      split at h <;>
      · simp only [Option.some.injEq] at h
        rw [← h]

/-- C15. ARM fallback order. `StepExidx` returns some result `exidx`, and
`Step` returns true iff `exidx` is a success or, `exidx` being a failure, the
DWARF step `ElfInterface32::Step` succeeds. When `StepExidx` succeeds the DWARF
step is not run at all and the object and the registers are exactly those left
by `StepExidx`; when `StepExidx` fails the DWARF step is run exactly once, with
the same pc, on the object and registers that `StepExidx` left, and `Step`
returns what it returns. -/
theorem Step_fallback_order (memory : Memory) (arm : ArmExidx) (dwarf : DwarfStep)
    (n : ArmRegNumbers) (s : ElfInterfaceArm) (pc : Nat) (regs : RegsArm) :
    ∃ exidx r, StepExidx memory arm n s pc regs = some exidx ∧
      Step memory arm dwarf n s pc regs = some r ∧
      (r.ret = true ↔
        exidx.ret = true ∨ (exidx.ret = false ∧ (dwarf exidx.self pc exidx.regs).1 = true)) ∧
      (exidx.ret = true → r.dwarfSteps = [] ∧ r.regs = exidx.regs ∧ r.self = exidx.self) ∧
      (exidx.ret = false → r.dwarfSteps = [pc] ∧
        r.ret = (dwarf exidx.self pc exidx.regs).1 ∧
        r.self = (dwarf exidx.self pc exidx.regs).2.1 ∧
        r.regs = (dwarf exidx.self pc exidx.regs).2.2) := by
  obtain ⟨exidx, hx⟩ := StepExidx_returns memory arm n s pc regs
  have hd := StepExidx_dwarfSteps hx
  cases hret : exidx.ret with
  | true =>
    refine ⟨exidx, exidx, hx, ?_, ?_, ?_, ?_⟩
    · simp [Step, hx, hret]
    · simp [hret]
    · intro _
      exact ⟨hd, rfl, rfl⟩
    · intro h
      rw [hret] at h
      cases h
  | false =>
    refine ⟨exidx, ⟨(dwarf exidx.self pc exidx.regs).1, (dwarf exidx.self pc exidx.regs).2.1,
        (dwarf exidx.self pc exidx.regs).2.2, [pc]⟩, hx, ?_, ?_, ?_, ?_⟩
    · simp [Step, hx, hret, hd]
    · simp [hret]
    · intro h
      rw [hret] at h
      cases h
    · intro _
      exact ⟨rfl, rfl, rfl, rfl⟩

/-- C15 on the two-entry table: with an evaluator that succeeds the DWARF step
is not run; with one that fails it is run once, with the pc of the call. -/
theorem Step_fallback_order_witness :
    (Step sampleMemory sampleEvaluator sampleDwarf armRegNumbers sampleArm 0x1500
      sampleRegs).map (fun r => (r.ret, r.dwarfSteps, r.regs.pc_)) = some (true, [], 0x1234) ∧
    (Step sampleMemory failingEvaluator sampleDwarf armRegNumbers sampleArm 0x1500
      sampleRegs).map (fun r => (r.ret, r.dwarfSteps, r.regs.pc_))
      = some (true, [0x1500], 0x4321) ∧
    ∃ exidx r, StepExidx sampleMemory failingEvaluator armRegNumbers sampleArm 0x1500
        sampleRegs = some exidx ∧
      Step sampleMemory failingEvaluator sampleDwarf armRegNumbers sampleArm 0x1500
        sampleRegs = some r ∧
      (r.ret = true ↔ exidx.ret = true ∨
        (exidx.ret = false ∧ (sampleDwarf exidx.self 0x1500 exidx.regs).1 = true)) ∧
      (exidx.ret = true → r.dwarfSteps = [] ∧ r.regs = exidx.regs ∧ r.self = exidx.self) ∧
      (exidx.ret = false → r.dwarfSteps = [0x1500] ∧
        r.ret = (sampleDwarf exidx.self 0x1500 exidx.regs).1 ∧
        r.self = (sampleDwarf exidx.self 0x1500 exidx.regs).2.1 ∧
        r.regs = (sampleDwarf exidx.self 0x1500 exidx.regs).2.2) :=
  ⟨by decide, by decide,
    Step_fallback_order sampleMemory failingEvaluator sampleDwarf armRegNumbers sampleArm
      0x1500 sampleRegs⟩

/-- C16. Whenever `StepExidx` returns true, an entry was found, the evaluator,
seeded with `cfa = regs.sp()`, succeeded on it, and the register set afterwards
has: logical pc = the value the evaluator left in `regs[ARM_REG_LR]`, logical
sp = the final CFA of the evaluator, `regs[ARM_REG_PC]` = logical pc and
`regs[ARM_REG_SP]` = logical sp; every other slot is as the evaluator left it.
`ARM_REG_PC` and `ARM_REG_SP` are different registers. -/
theorem StepExidx_success (memory : Memory) (arm : ArmExidx) (n : ArmRegNumbers)
    (s : ElfInterfaceArm) (pc : Nat) (regs : RegsArm) (r : StepResult)
    (hne : n.ARM_REG_PC ≠ n.ARM_REG_SP)
    (h : StepExidx memory arm n s pc regs = some r) (hret : r.ret = true) :
    ∃ found, FindEntry memory s (pc % 2 ^ 32) 0 = some found ∧ found.ret = true ∧
      (arm regs regs.sp_ found.entry_offset).ok = true ∧
      r.regs.pc_ = (arm regs regs.sp_ found.entry_offset).regs.regs_ n.ARM_REG_LR ∧
      r.regs.sp_ = (arm regs regs.sp_ found.entry_offset).cfa ∧
      r.regs.regs_ n.ARM_REG_PC = r.regs.pc_ ∧
      r.regs.regs_ n.ARM_REG_SP = r.regs.sp_ ∧
      ∀ i, i ≠ n.ARM_REG_PC → i ≠ n.ARM_REG_SP →
        r.regs.regs_ i = (arm regs regs.sp_ found.entry_offset).regs.regs_ i := by
  obtain ⟨found, hf⟩ := FindEntry_returns memory s (pc % 2 ^ 32) 0
  refine ⟨found, hf, ?_⟩
  simp only [StepExidx, hf] at h
  cases h1 : found.ret with
  | false =>
    simp only [h1, if_true, Option.some.injEq] at h
    rw [← h] at hret
    cases hret
  | true =>
    simp only [h1, Bool.true_eq_false, if_false] at h
    cases h2 : (arm regs regs.sp_ found.entry_offset).ok with
    | true =>
      simp only [h2, if_true, Option.some.injEq] at h
      subst h
      refine ⟨rfl, rfl, rfl, rfl, ?_, ?_, ?_⟩
      · simp [Function.update, hne]
      · simp [Function.update]
      · intro i hi1 hi2
        simp [Function.update, hi1, hi2]
    | false =>
      simp only [h2, Bool.false_eq_true, if_false, Option.some.injEq] at h
      rw [← h] at hret
      cases hret

/-- C16 on the two-entry table with the evaluator that puts `0x1234` into the
link register and raises the CFA from `0x7000` to `0x7008`: `StepExidx` returns
true, and both the logical and the architectural pc and sp are `0x1234` and
`0x7008`. -/
theorem StepExidx_success_witness :
    StepExidx sampleMemory sampleEvaluator armRegNumbers sampleArm 0x1500 sampleRegs
      = some sampleStepResult ∧
    sampleStepResult.ret = true ∧
    (sampleStepResult.regs.pc_, sampleStepResult.regs.sp_, sampleStepResult.regs.regs_ 15,
      sampleStepResult.regs.regs_ 13) = (0x1234, 0x7008, 0x1234, 0x7008) ∧
    ∃ found, FindEntry sampleMemory sampleArm (0x1500 % 2 ^ 32) 0 = some found ∧
      found.ret = true ∧
      (sampleEvaluator sampleRegs sampleRegs.sp_ found.entry_offset).ok = true ∧
      sampleStepResult.regs.pc_ = (sampleEvaluator sampleRegs sampleRegs.sp_
        found.entry_offset).regs.regs_ armRegNumbers.ARM_REG_LR ∧
      sampleStepResult.regs.sp_
        = (sampleEvaluator sampleRegs sampleRegs.sp_ found.entry_offset).cfa ∧
      sampleStepResult.regs.regs_ armRegNumbers.ARM_REG_PC = sampleStepResult.regs.pc_ ∧
      sampleStepResult.regs.regs_ armRegNumbers.ARM_REG_SP = sampleStepResult.regs.sp_ ∧
      ∀ i, i ≠ armRegNumbers.ARM_REG_PC → i ≠ armRegNumbers.ARM_REG_SP →
        sampleStepResult.regs.regs_ i = (sampleEvaluator sampleRegs sampleRegs.sp_
          found.entry_offset).regs.regs_ i :=
  ⟨rfl, by decide, by decide,
    StepExidx_success sampleMemory sampleEvaluator armRegNumbers sampleArm 0x1500 sampleRegs
      sampleStepResult (by decide) rfl (by decide)⟩

/-! ## ParseLine on the line of an anonymous mapping -/

/-- The `sscanf` call on the line of an anonymous mapping: four assignments,
and `name_pos` is the length of the line, the white space after the inode
being skipped by the directive before `%n`. -/
theorem sscanfMapsLine_anonymous {S E w1 P w2 O w3 D1 D2 w4 I trail : List Char}
    (hS : HexNumeral S) (hE : HexNumeral E) (hw1 : Blank w1) (hP : PermissionField P)
    (hw2 : Blank w2) (hO : HexNumeral O) (hw3 : Blank w3) (hD1 : HexNumeral D1)
    (hD2 : HexNumeral D2) (hw4 : Blank w4) (hI : DecNumeral I)
    (htrail : ∀ c ∈ trail, isspace c = true) :
    sscanfMapsLine (anonymousLine S E w1 P w2 O w3 D1 D2 w4 I trail) =
      .assigned4 (toUnsigned64 false (hexNumber S)) (toUnsigned64 false (hexNumber E)) P
        (toUnsigned64 false (hexNumber O))
        (some (anonymousLine S E w1 P w2 O w3 D1 D2 w4 I trail).length) := by
  have h1 := scanHex_numeral ('-' :: (E ++ (w1 ++ (P ++ (w2 ++ (O ++ (w3 ++ (D1 ++ (':' :: (D2 ++ (w4 ++ (I ++ (trail ++ ([] ++ [])))))))))))))) hS
    (by intro c hc
        simp only [List.head?_cons, Option.some.injEq] at hc
        subst hc
        decide)
  have h2 := scanHex_numeral (w1 ++ (P ++ (w2 ++ (O ++ (w3 ++ (D1 ++ (':' :: (D2 ++ (w4 ++ (I ++ (trail ++ ([] ++ [])))))))))))) hE
    (head_blank_hex _ hw1)
  have h3 := scanString4_field (w2 ++ (O ++ (w3 ++ (D1 ++ (':' :: (D2 ++ (w4 ++ (I ++ (trail ++ ([] ++ [])))))))))) hP
  have h4 := scanHex_numeral (w3 ++ (D1 ++ (':' :: (D2 ++ (w4 ++ (I ++ (trail ++ ([] ++ [])))))))) hO
    (head_blank_hex _ hw3)
  have h5 := scanHex_numeral (':' :: (D2 ++ (w4 ++ (I ++ (trail ++ ([] ++ [])))))) hD1
    (by intro c hc
        simp only [List.head?_cons, Option.some.injEq] at hc
        subst hc
        decide)
  have h6 := scanHex_numeral (w4 ++ (I ++ (trail ++ ([] ++ [])))) hD2 (head_blank_hex _ hw4)
  obtain ⟨v, h7⟩ := scanDec_numeral (trail ++ ([] ++ [])) hI
    (fun c hc => decValue_none_of_isspace (by
      simp only [List.append_nil] at hc
      exact htrail c (List.mem_of_mem_head? hc)))
  have h8 : skipSpace (trail ++ ([] ++ [])) = [] := by
    rw [skipSpace_append_of_blank _ htrail]
    rfl
  simp only [anonymousLine, sscanfMapsLine, scanNamePos, mapsLine, h1, scanChar, if_true, h2,
    skipSpace_append_of_blank _ hw1.2, skipSpace_append_of_blank _ hw2.2,
    skipSpace_append_of_blank _ hw3.2, skipSpace_append_of_blank _ hw4.2,
    skipSpace_field _ hP, skipSpace_hexNumeral _ hO,
    skipSpace_hexNumeral _ hD1, skipSpace_decNumeral _ hI, h3, h4, h5, h6, h7, h8,
    List.length_nil, Nat.sub_zero]

/-- On every well-formed line of an anonymous mapping the name is empty, the
index `name.length() - 1` is `2^64 - 1`, which is outside the name, and
`ParseLine` indexes the name there: the behaviour of the call is undefined. -/
theorem ParseLine_anonymous {S E w1 P w2 O w3 D1 D2 w4 I trail : List Char}
    (hS : HexNumeral S) (hE : HexNumeral E) (hw1 : Blank w1) (hP : PermissionField P)
    (hw2 : Blank w2) (hO : HexNumeral O) (hw3 : Blank w3) (hD1 : HexNumeral D1)
    (hD2 : HexNumeral D2) (hw4 : Blank w4) (hI : DecNumeral I)
    (htrail : ∀ c ∈ trail, isspace c = true) :
    ParseLine (anonymousLine S E w1 P w2 O w3 D1 D2 w4 I trail) = .undefined := by
  have hsc := sscanfMapsLine_anonymous hS hE hw1 hP hw2 hO hw3 hD1 hD2 hw4 hI htrail
  obtain ⟨hlen, hP'⟩ := hP
  rcases P with _ | ⟨a, _ | ⟨b, _ | ⟨c, _ | ⟨d, _ | ⟨e, t⟩⟩⟩⟩⟩ <;> simp at hlen
  simp [ParseLine, hsc, permissionAt]

/-- C11, the code at the failing input. On the line
`1000-2000 rw-p 00000000 00:00 0` with its newline, `sscanf` assigns four
items and sets `name_pos` to 32, the length of the line, so the name is empty;
the index `name.length() - 1` is then `2^64 - 1`, no element of the name is
there, and `ParseLine` indexes the name outside its bounds instead of
returning true. -/
theorem ParseLine_anonymous_line :
    sscanfMapsLine anonLine = .assigned4 0x1000 0x2000 "rw-p".toList 0 (some 32) ∧
    anonLine.length = 32 ∧
    anonLine.drop 32 = [] ∧
    newlineIndex (anonLine.drop 32) = 2 ^ 64 - 1 ∧
    (anonLine.drop 32)[newlineIndex (anonLine.drop 32)]? = none ∧
    ParseLine anonLine = .undefined := by
  decide

/-! ## The numbers and flags that ParseLine stores -/

theorem leBytes_length (n v : Nat) : (leBytes n v).length = n := by
  induction n generalizing v with
  | zero => rfl
  | succ n ih => simp [leBytes, ih]

theorem leValue_leBytes (n : Nat) : ∀ v, v < 256 ^ n → leValue (leBytes n v) = v := by
  induction n with
  | zero =>
    intro v hv
    simp only [Nat.pow_zero] at hv
    simp only [leBytes, leValue]
    omega
  | succ n ih =>
    intro v hv
    have hdiv : v / 256 < 256 ^ n := by
      rw [Nat.pow_succ] at hv
      exact Nat.div_lt_of_lt_mul (by rw [Nat.mul_comm]; exact hv)
    simp only [leBytes, leValue, ih _ hdiv]
    omega

theorem leBytes_leValue (bs : List Byte) : leBytes bs.length (leValue bs) = bs := by
  induction bs with
  | nil => rfl
  | cons b bs ih =>
    have hb := b.isLt
    have h1 : (b.val + 256 * leValue bs) % 256 = b.val := by omega
    have h2 : (b.val + 256 * leValue bs) / 256 = leValue bs := by omega
    simp only [List.length_cons, leBytes, leValue, h2, ih, List.cons.injEq, and_true]
    exact Fin.ext h1

theorem leValue_lt (bs : List Byte) : leValue bs < 256 ^ bs.length := by
  induction bs with
  | nil => simp [leValue]
  | cons b bs ih =>
    have hb := b.isLt
    simp only [leValue, List.length_cons, Nat.pow_succ]
    omega

theorem readBytes_append {a : List Byte} {n : Nat} (rest : List Byte) (h : a.length = n) :
    readBytes (a ++ rest) n = (a, rest) := by
  subst h
  simp [readBytes]

theorem readBytes_full {stream : List Byte} {n : Nat}
    (h : (readBytes stream n).1.length = n) :
    stream = (readBytes stream n).1 ++ (readBytes stream n).2 ∧
      leBytes n (leValue (readBytes stream n).1) = (readBytes stream n).1 := by
  refine ⟨(List.take_append_drop n stream).symm, ?_⟩
  have := leBytes_leValue (readBytes stream n).1
  rw [h] at this
  exact this

theorem toNat_ofNat_byte (n : Nat) (h : n < 256) : (Char.ofNat n).toNat = n := by
  have hv : n.isValidChar := Or.inl (by omega)
  unfold Char.ofNat
  simp only [hv, dif_pos]
  rfl

theorem charByte_ofNat (b : Byte) : charByte (Char.ofNat b.val) = b := by
  apply Fin.ext
  have hb := b.isLt
  simp only [charByte, toNat_ofNat_byte b.val hb]
  omega

theorem ofNat_charByte {c : Char} (h : c.toNat < 256) : Char.ofNat (charByte c).val = c := by
  have : (charByte c).val = c.toNat := by
    simp only [charByte]
    omega
  rw [this]
  exact Char.ofNat_toNat c

theorem map_ofNat_charByte (name : List Char) (h : ∀ c ∈ name, c.toNat < 256) :
    (name.map charByte).map (fun b => Char.ofNat b.val) = name := by
  induction name with
  | nil => rfl
  | cons c cs ih =>
    simp only [List.map_cons, ofNat_charByte (h c (List.mem_cons_self _ _)),
      ih (fun d hd => h d (List.mem_cons_of_mem _ hd))]

theorem map_charByte_ofNat (bs : List Byte) :
    (bs.map (fun b => Char.ofNat b.val)).map charByte = bs := by
  induction bs with
  | nil => rfl
  | cons b bs ih => simp only [List.map_cons, charByte_ofNat, ih]

/-- One loop body on a complete record followed by `rest`: the record is read
back and `rest` is left. -/
theorem readRecord_encode (m : MapInfo) (rest : List Byte) (h : RecordOK m) :
    MapsOffline.readRecord (encodeRecord m ++ rest) = .record m rest := by
  obtain ⟨h1, h2, h3, h4, h5, h6⟩ := h
  have p64 : (256 : Nat) ^ 8 = 2 ^ 64 := by norm_num
  have p16 : (256 : Nat) ^ 2 = 2 ^ 16 := by norm_num
  have v1 := leValue_leBytes 8 m.start (by omega)
  have v2 := leValue_leBytes 8 m.end_ (by omega)
  have v3 := leValue_leBytes 8 m.offset (by omega)
  have v4 := leValue_leBytes 2 m.flags (by omega)
  have v5 := leValue_leBytes 2 m.name.length (by omega)
  cases m with
  | mk start end_ offset flags name =>
    simp only at v1 v2 v3 v4 v5 h6
    simp only [encodeRecord, List.append_assoc, MapsOffline.readRecord,
      readBytes_append _ (leBytes_length 8 _), readBytes_append _ (leBytes_length 2 _),
      leBytes_length, v1, v2, v3, v4, v5]
    by_cases hL : name.length > 0
    · have hr : readBytes (name.map charByte ++ rest) name.length
          = (name.map charByte, rest) := readBytes_append rest (by simp)
      simp [hL, hr, map_ofNat_charByte name h6]
    · have hn : name = [] := List.length_eq_zero.1 (by omega)
      subst hn
      simp

/-- A loop body that reads a record has read a complete record: the bytes
consumed are the encoding of the entry it stores. -/
theorem readRecord_record {stream rest : List Byte} {m : MapInfo}
    (h : MapsOffline.readRecord stream = .record m rest) :
    RecordOK m ∧ stream = encodeRecord m ++ rest := by
  have p64 : (256 : Nat) ^ 8 = 2 ^ 64 := by norm_num
  have p16 : (256 : Nat) ^ 2 = 2 ^ 16 := by norm_num
  unfold MapsOffline.readRecord at h
  simp only at h
  by_cases c0 : (readBytes stream 8).1.length = 0
  · simp [c0] at h
  · by_cases c1 : (readBytes stream 8).1.length = 8
    · by_cases c2 : (readBytes (readBytes stream 8).2 8).1.length = 8
      · by_cases c3 : (readBytes (readBytes (readBytes stream 8).2 8).2 8).1.length = 8
        · by_cases c4 : (readBytes
              (readBytes (readBytes (readBytes stream 8).2 8).2 8).2 2).1.length = 2
          · by_cases c5 : (readBytes (readBytes
                (readBytes (readBytes (readBytes stream 8).2 8).2 8).2 2).2 2).1.length = 2
            · obtain ⟨e1, b1⟩ := readBytes_full c1
              obtain ⟨e2, b2⟩ := readBytes_full c2
              obtain ⟨e3, b3⟩ := readBytes_full c3
              obtain ⟨e4, b4⟩ := readBytes_full c4
              obtain ⟨e5, b5⟩ := readBytes_full c5
              have l1 := leValue_lt (readBytes stream 8).1
              have l2 := leValue_lt (readBytes (readBytes stream 8).2 8).1
              have l3 := leValue_lt (readBytes (readBytes (readBytes stream 8).2 8).2 8).1
              have l4 := leValue_lt (readBytes
                (readBytes (readBytes (readBytes stream 8).2 8).2 8).2 2).1
              have l5 := leValue_lt (readBytes (readBytes
                (readBytes (readBytes (readBytes stream 8).2 8).2 8).2 2).2 2).1
              rw [c1] at l1
              rw [c2] at l2
              rw [c3] at l3
              rw [c4] at l4
              rw [c5] at l5
              generalize readBytes stream 8 = r1 at *
              generalize readBytes r1.2 8 = r2 at *
              generalize readBytes r2.2 8 = r3 at *
              generalize readBytes r3.2 2 = r4 at *
              generalize readBytes r4.2 2 = r5 at *
              simp only [c1, c2, c3, c4, c5, ne_eq, not_true_eq_false, if_false,
                eq_false (by decide : ¬ (8 : Nat) = 0)] at h
              by_cases hL : leValue r5.1 > 0
              · simp only [hL, if_true] at h
                by_cases c6 : (readBytes r5.2 (leValue r5.1)).1.length = leValue r5.1
                · obtain ⟨e6, _⟩ := readBytes_full c6
                  generalize readBytes r5.2 (leValue r5.1) = r6 at *
                  simp only [c6, not_true_eq_false, if_false, RecordRead.record.injEq] at h
                  obtain ⟨hm, hrest⟩ := h
                  subst hm
                  refine ⟨⟨by dsimp only; omega, by dsimp only; omega, by dsimp only; omega,
                    by dsimp only; omega, ?_, ?_⟩, ?_⟩
                  · simp only [List.length_map, c6]
                    omega
                  · intro c hc
                    obtain ⟨b, _, rfl⟩ := List.mem_map.1 hc
                    rw [toNat_ofNat_byte b.val b.isLt]
                    exact b.isLt
                  · simp only [encodeRecord, List.length_map, c6, map_charByte_ofNat, b1, b2,
                      b3, b4, b5, List.append_assoc]
                    rw [e1, e2, e3, e4, e5, e6, hrest]
                · simp [c6] at h
              · simp only [hL, if_false, RecordRead.record.injEq] at h
                obtain ⟨hm, hrest⟩ := h
                subst hm
                have hL0 : leValue r5.1 = 0 := by omega
                refine ⟨⟨by dsimp only; omega, by dsimp only; omega, by dsimp only; omega,
                  by dsimp only; omega, by simp, by simp⟩, ?_⟩
                have b5' : leBytes 2 0 = r5.1 := by rw [← hL0]; exact b5
                simp only [encodeRecord, List.length_nil, List.map_nil, b1, b2, b3, b4, b5',
                  List.append_assoc, List.append_nil]
                rw [e1, e2, e3, e4, e5, hrest]
            · simp [c0, c1, c2, c3, c4, c5] at h
          · simp [c0, c1, c2, c3, c4] at h
        · simp [c0, c1, c2, c3] at h
      · simp [c0, c1, c2] at h
    · simp [c0, c1] at h

theorem encodeRecord_length (m : MapInfo) : 20 ≤ (encodeRecord m).length := by
  simp only [encodeRecord, List.length_append, leBytes_length, List.length_map]
  omega

theorem encodeRecords_length (recs : List MapInfo) :
    recs.length ≤ (encodeRecords recs).length := by
  induction recs with
  | nil => simp
  | cons m ms ih =>
    have := encodeRecord_length m
    simp only [encodeRecords, List.length_cons, List.length_append]
    omega

/-- The loop of `MapsOffline::Parse` returns: every body that reads a record
consumes it. -/
theorem MapsOffline_ParseLoop_returns :
    ∀ (fuel : Nat) (stream : List Byte) (maps_ : List MapInfo), stream.length < fuel →
      ∃ r, MapsOffline.ParseLoop fuel stream maps_ = some r := by
  intro fuel
  induction fuel with
  | zero => intro stream maps_ h; omega
  | succ fuel ih =>
    intro stream maps_ h
    cases hr : MapsOffline.readRecord stream with
    | endOfFile => simp only [MapsOffline.ParseLoop, hr]; exact ⟨_, rfl⟩
    | shortRead => simp only [MapsOffline.ParseLoop, hr]; exact ⟨_, rfl⟩
    | record m rest =>
      simp only [MapsOffline.ParseLoop, hr]
      have := (readRecord_record hr).2
      have hlen := encodeRecord_length m
      apply ih
      rw [this, List.length_append] at h
      omega

/-- The loop of `MapsOffline::Parse` on a concatenation of complete records
returns true and appends the records in order. -/
theorem MapsOffline_ParseLoop_encode :
    ∀ (recs : List MapInfo) (fuel : Nat) (maps_ : List MapInfo),
      (∀ m ∈ recs, RecordOK m) → recs.length < fuel →
      MapsOffline.ParseLoop fuel (encodeRecords recs) maps_ = some (true, maps_ ++ recs) := by
  intro recs
  induction recs with
  | nil =>
    intro fuel maps_ _ hfuel
    obtain ⟨k, rfl⟩ : ∃ k, fuel = k + 1 := ⟨fuel - 1, by simp at hfuel; omega⟩
    simp [MapsOffline.ParseLoop, encodeRecords, MapsOffline.readRecord, readBytes]
  | cons m ms ih =>
    intro fuel maps_ hok hfuel
    obtain ⟨k, rfl⟩ : ∃ k, fuel = k + 1 := ⟨fuel - 1, by simp at hfuel; omega⟩
    have hm := readRecord_encode m (encodeRecords ms) (hok m (List.mem_cons_self _ _))
    simp only [MapsOffline.ParseLoop, encodeRecords, hm]
    rw [ih k (maps_ ++ [m]) (fun x hx => hok x (List.mem_cons_of_mem _ hx))
      (by simp at hfuel; omega)]
    simp

/-- When the loop of `MapsOffline::Parse` returns true, the stream was a
concatenation of complete records, and these are what was appended. -/
theorem MapsOffline_ParseLoop_true :
    ∀ (fuel : Nat) (stream : List Byte) (maps_ maps : List MapInfo),
      MapsOffline.ParseLoop fuel stream maps_ = some (true, maps) →
      ∃ recs, (∀ m ∈ recs, RecordOK m) ∧ stream = encodeRecords recs ∧
        maps = maps_ ++ recs := by
  intro fuel
  induction fuel with
  | zero => intro stream maps_ maps h; simp [MapsOffline.ParseLoop] at h
  | succ fuel ih =>
    intro stream maps_ maps h
    cases hr : MapsOffline.readRecord stream with
    | endOfFile =>
      simp only [MapsOffline.ParseLoop, hr, Option.some.injEq, Prod.mk.injEq, true_and] at h
      refine ⟨[], by simp, ?_, by simp [h]⟩
      unfold MapsOffline.readRecord at hr
      by_cases c0 : (readBytes stream 8).1.length = 0
      · cases stream with
        | nil => rfl
        | cons b bs => simp [readBytes] at c0
      · simp only [c0, if_false] at hr
        repeat' split at hr
        all_goals cases hr
    | shortRead =>
      simp [MapsOffline.ParseLoop, hr] at h
    | record m rest =>
      simp only [MapsOffline.ParseLoop, hr] at h
      obtain ⟨recs, hok, hstream, hmaps⟩ := ih rest (maps_ ++ [m]) maps h
      obtain ⟨hm, he⟩ := readRecord_record hr
      refine ⟨m :: recs, ?_, ?_, ?_⟩
      · intro x hx
        rcases List.mem_cons.1 hx with rfl | hx
        · exact hm
        · exact hok x hx
      · rw [he, hstream]
        rfl
      · rw [hmaps]
        simp

/-- C13. `MapsOffline::Parse` over a byte stream returns, and it returns true
iff the stream is a concatenation of zero or more complete records (8-byte
start, 8-byte end, 8-byte offset, 2-byte flags, 2-byte name length `L`, then
`L` name bytes, integers little-endian); the table then holds, after what it
held before, exactly those records in stream order, with an empty name when
`L = 0`. On every other stream, in particular one that ends inside a record,
it returns false. -/
theorem MapsOffline_Parse_spec (stream : List Byte) (maps_ : List MapInfo) :
    (∃ r, MapsOffline.Parse (some stream) maps_ = some r) ∧
    (∀ maps, MapsOffline.Parse (some stream) maps_ = some (true, maps) ↔
      ∃ recs, (∀ m ∈ recs, RecordOK m) ∧ stream = encodeRecords recs ∧
        maps = maps_ ++ recs) ∧
    ((¬ ∃ recs, (∀ m ∈ recs, RecordOK m) ∧ stream = encodeRecords recs) →
      ∃ maps, MapsOffline.Parse (some stream) maps_ = some (false, maps)) := by
  have hret := MapsOffline_ParseLoop_returns (stream.length + 1) stream maps_ (by omega)
  have htrue : ∀ maps, MapsOffline.Parse (some stream) maps_ = some (true, maps) ↔
      ∃ recs, (∀ m ∈ recs, RecordOK m) ∧ stream = encodeRecords recs ∧
        maps = maps_ ++ recs := by
    intro maps
    constructor
    · intro h
      exact MapsOffline_ParseLoop_true _ stream maps_ maps h
    · rintro ⟨recs, hok, rfl, rfl⟩
      exact MapsOffline_ParseLoop_encode recs _ maps_ hok
        (by have := encodeRecords_length recs; omega)
  refine ⟨hret, htrue, ?_⟩
  intro hno
  obtain ⟨⟨ret, maps⟩, hr⟩ := hret
  cases ret with
  | false => exact ⟨maps, hr⟩
  | true => exact absurd ((htrue maps).1 hr) (fun ⟨recs, h1, h2, _⟩ => hno ⟨recs, h1, h2⟩)

/-- C13 on the stream of two records, the second without a name, and on the
same stream cut inside the second record. -/
theorem MapsOffline_Parse_spec_witness :
    MapsOffline.Parse (some (encodeRecords offlineMaps)) [] = some (true, offlineMaps) ∧
    MapsOffline.Parse (some ((encodeRecords offlineMaps).take 50)) []
      = some (false, offlineMaps.take 1) ∧
    (encodeRecords offlineMaps).length = 60 ∧
    ∀ maps, MapsOffline.Parse (some (encodeRecords offlineMaps)) [] = some (true, maps) ↔
      ∃ recs, (∀ m ∈ recs, RecordOK m) ∧ encodeRecords offlineMaps = encodeRecords recs ∧
        maps = [] ++ recs :=
  ⟨by decide, by decide, by decide,
    (MapsOffline_Parse_spec (encodeRecords offlineMaps) []).2.1⟩

/-! ## Maps::Parse and MapsBuffer::Parse: the table they build -/

theorem ParseLine_nil : ParseLine [] = .returnFalse := by decide

theorem splitFirstLine_ne_nil (c : Char) (cs : List Char) :
    (splitFirstLine (c :: cs)).1 ≠ [] := by
  unfold splitFirstLine
  split <;> simp

theorem splitFirstLine_rest_length :
    ∀ (s e : List Char), (splitFirstLine s).2 = some e → e.length < s.length := by
  intro s
  induction s with
  | nil => intro e h; simp [splitFirstLine] at h
  | cons c cs ih =>
    intro e h
    unfold splitFirstLine at h
    split at h
    · simp only [Option.some.injEq] at h
      subst h
      simp
    · have := ih e h
      simp only [List.length_cons]
      omega

theorem splitLines_newline (c : Char) (cs : List Char) (h : c = Char.ofNat 10) :
    splitLines (c :: cs) = [c] :: splitLines cs := by
  rw [splitLines, if_pos h]

theorem splitLines_other (c : Char) (cs : List Char) (h : ¬ c = Char.ofNat 10) :
    splitLines (c :: cs) =
      match splitLines cs with
      | [] => [[c]]
      | line :: lines => (c :: line) :: lines := by
  rw [splitLines, if_neg h]

theorem splitFirstLine_newline (c : Char) (cs : List Char) (h : c = Char.ofNat 10) :
    splitFirstLine (c :: cs) = ([c], some cs) := by
  rw [splitFirstLine, if_pos h]

theorem splitFirstLine_other (c : Char) (cs : List Char) (h : ¬ c = Char.ofNat 10) :
    splitFirstLine (c :: cs) = (c :: (splitFirstLine cs).1, (splitFirstLine cs).2) := by
  rw [splitFirstLine, if_neg h]

/-- The lines of a non-empty text are its first line, as `MapsBuffer::Parse`
cuts it off, and the lines of what follows. -/
theorem splitLines_eq (c : Char) (cs : List Char) :
    splitLines (c :: cs) = (splitFirstLine (c :: cs)).1 ::
      splitLines ((splitFirstLine (c :: cs)).2.getD []) := by
  induction cs generalizing c with
  | nil =>
    by_cases hc : c = Char.ofNat 10
    · rw [splitLines_newline c [] hc, splitFirstLine_newline c [] hc]
      rfl
    · rw [splitLines_other c [] hc, splitFirstLine_other c [] hc]
      rfl
  | cons d ds ih =>
    by_cases hc : c = Char.ofNat 10
    · rw [splitLines_newline c _ hc, splitFirstLine_newline c _ hc]
      rfl
    · rw [splitLines_other c _ hc, splitFirstLine_other c _ hc, ih d]

/-- `fgets` with room for the first line stores that line. -/
theorem takeLine_eq :
    ∀ (k : Nat) (s : List Char), (splitFirstLine s).1.length ≤ k →
      takeLine k s = ((splitFirstLine s).1, (splitFirstLine s).2.getD []) := by
  intro k
  induction k with
  | zero =>
    intro s h
    cases s with
    | nil => simp [takeLine, splitFirstLine]
    | cons c cs =>
      have := splitFirstLine_ne_nil c cs
      have : (splitFirstLine (c :: cs)).1.length ≠ 0 := by
        intro h0
        exact this (List.length_eq_zero.1 h0)
      omega
  | succ k ih =>
    intro s h
    cases s with
    | nil => simp [takeLine, splitFirstLine]
    | cons c cs =>
      unfold takeLine
      unfold splitFirstLine at h ⊢
      split
      · simp
      · rename_i hc
        simp only [hc, if_false, List.length_cons] at h
        rw [ih cs (by omega)]

theorem takeLine_rest_length (k : Nat) (c : Char) (cs : List Char) :
    (takeLine (k + 1) (c :: cs)).2.length < (c :: cs).length := by
  induction k generalizing c cs with
  | zero =>
    unfold takeLine
    split
    · simp
    · simp [takeLine]
  | succ k ih =>
    unfold takeLine
    split
    · simp
    · cases cs with
      | nil => simp [takeLine]
      | cons d ds =>
        have := ih d ds
        simp only [List.length_cons] at this ⊢
        omega

/-- `MapsBuffer::Parse` returns: every loop body but the last consumes a
character. -/
theorem MapsBuffer_ParseLoop_returns :
    ∀ (fuel : Nat) (s : List Char) (maps_ : List MapInfo), s.length < fuel →
      ∃ r, MapsBuffer.ParseLoop fuel s maps_ = some r := by
  intro fuel
  induction fuel with
  | zero => intro s maps_ h; omega
  | succ fuel ih =>
    intro s maps_ h
    unfold MapsBuffer.ParseLoop
    split
    · exact ⟨_, rfl⟩
    · exact ⟨_, rfl⟩
    · split
      · exact ⟨_, rfl⟩
      · rename_i e he
        split
        · exact ⟨_, rfl⟩
        · have := splitFirstLine_rest_length s e he
          exact ih e _ (by omega)

/-- `Maps::Parse` returns: every call of `fgets` that stores a line consumes a
character. -/
theorem Maps_ParseLoop_returns :
    ∀ (fuel : Nat) (s : List Char) (maps_ : List MapInfo), s.length < fuel →
      ∃ r, Maps.ParseLoop fuel s maps_ = some r := by
  intro fuel
  induction fuel with
  | zero => intro s maps_ h; omega
  | succ fuel ih =>
    intro s maps_ h
    cases s with
    | nil => simp only [Maps.ParseLoop, fgets, if_true]; exact ⟨_, rfl⟩
    | cons c cs =>
      have hlen := takeLine_rest_length 8190 c cs
      simp only [Maps.ParseLoop, fgets, List.cons_ne_nil, if_false, reduceCtorEq,
        show 8192 - 1 = 8190 + 1 from rfl]
      split
      · exact ⟨_, rfl⟩
      · exact ⟨_, rfl⟩
      · exact ih _ _ (by simp only [List.length_cons] at h hlen ⊢; omega)

/-- When the loop of `MapsBuffer::Parse` returns true, it has appended the
entries that `ParseLine` returns for the lines, in their order. -/
theorem MapsBuffer_ParseLoop_true :
    ∀ (fuel : Nat) (s : List Char) (maps_ maps : List MapInfo),
      MapsBuffer.ParseLoop fuel s maps_ = some (.returnTrue maps) →
      ∃ entries, List.Forall₂ (fun line m => ParseLine line = .returnTrue m)
        (splitLines s) entries ∧ maps = maps_ ++ entries := by
  intro fuel
  induction fuel with
  | zero => intro s maps_ maps h; simp [MapsBuffer.ParseLoop] at h
  | succ fuel ih =>
    intro s maps_ maps h
    cases s with
    | nil => simp [MapsBuffer.ParseLoop, splitFirstLine, ParseLine_nil] at h
    | cons c cs =>
      rw [splitLines_eq]
      unfold MapsBuffer.ParseLoop at h
      cases hp : ParseLine (splitFirstLine (c :: cs)).1 with
      | returnFalse => simp [hp] at h
      | undefined => simp [hp] at h
      | returnTrue m =>
        simp only [hp] at h
        cases he : (splitFirstLine (c :: cs)).2 with
        | none =>
          simp only [he, Option.some.injEq, ParseOutcome.returnTrue.injEq] at h
          exact ⟨[m], by simp [splitLines, hp], h.symm⟩
        | some e =>
          simp only [he] at h
          by_cases hnil : e = []
          · simp only [hnil, if_true, Option.some.injEq, ParseOutcome.returnTrue.injEq] at h
            exact ⟨[m], by simp [hnil, splitLines, hp], h.symm⟩
          · simp only [hnil, if_false] at h
            obtain ⟨entries, hall, hmaps⟩ := ih e _ maps h
            exact ⟨m :: entries, by simpa [hp] using hall, by simp [hmaps]⟩

/-- When the loop of `Maps::Parse` returns true on a file whose lines fit the
buffer, it has appended the entries that `ParseLine` returns for the lines, in
their order. -/
theorem Maps_ParseLoop_true :
    ∀ (fuel : Nat) (s : List Char) (maps_ maps : List MapInfo),
      (∀ line ∈ splitLines s, line.length ≤ 8191) →
      Maps.ParseLoop fuel s maps_ = some (.returnTrue maps) →
      ∃ entries, List.Forall₂ (fun line m => ParseLine line = .returnTrue m)
        (splitLines s) entries ∧ maps = maps_ ++ entries := by
  intro fuel
  induction fuel with
  | zero => intro s maps_ maps _ h; simp [Maps.ParseLoop] at h
  | succ fuel ih =>
    intro s maps_ maps hfit h
    cases s with
    | nil =>
      simp only [Maps.ParseLoop, fgets, if_true, Option.some.injEq,
        ParseOutcome.returnTrue.injEq] at h
      exact ⟨[], by simp [splitLines], by simp [h]⟩
    | cons c cs =>
      rw [splitLines_eq] at hfit ⊢
      have h1 := hfit _ (List.mem_cons_self _ _)
      simp only [Maps.ParseLoop, fgets, List.cons_ne_nil, if_false, reduceCtorEq,
        show 8192 - 1 = 8191 from rfl, takeLine_eq 8191 (c :: cs) h1] at h
      cases hp : ParseLine (splitFirstLine (c :: cs)).1 with
      | returnFalse => simp [hp] at h
      | undefined => simp [hp] at h
      | returnTrue m =>
        simp only [hp] at h
        obtain ⟨entries, hall, hmaps⟩ := ih _ _ maps
          (fun line hl => hfit line (List.mem_cons_of_mem _ hl)) h
        exact ⟨m :: entries, by simpa [hp] using hall, by simp [hmaps]⟩

/-- C14, refuted as stated. Both `Maps::Parse` and `MapsBuffer::Parse` return
true on two lines in descending address order and leave the table in that
order, which is not sorted by start, so that `Maps::Find` misses the entry
that holds 0x1800; and both return true on a line whose end is below its
start, leaving an entry without `start < end`. -/
theorem Parse_invariant_counterexample :
    MapsBuffer.Parse descendingBuffer [] = some (.returnTrue descendingMaps) ∧
    Maps.Parse (some descendingBuffer) [] = some (.returnTrue descendingMaps) ∧
    ¬ MapsInvariant descendingMaps ∧
    ¬ SortedByStart descendingMaps ∧
    Find descendingMaps 0x1800 = some none ∧
    linearScan descendingMaps 0x1800 = some 1 ∧
    MapsBuffer.Parse invertedBuffer [] = some (.returnTrue [⟨0x2000, 0x1000, 0, 5, ['a']⟩]) ∧
    Maps.Parse (some invertedBuffer) [] = some (.returnTrue [⟨0x2000, 0x1000, 0, 5, ['a']⟩]) ∧
    ¬ MapsInvariant [⟨0x2000, 0x1000, 0, 5, ['a']⟩] := by
  refine ⟨?_, ?_, ?_, ?_, ?_, ?_, ?_, ?_, ?_⟩ <;> decide

/-- C14, amended. A successful `MapsBuffer::Parse`, and a successful
`Maps::Parse` on a file whose lines fit the buffer of 8192 characters, appends
to the table exactly the entries that `ParseLine` returns for the lines of the
input, in input order, neither sorted nor checked; a table that was empty
before the call therefore satisfies the MapEntry invariant iff the entries of
the input lines, in their order, do. -/
theorem Parse_table (content : List Char) (maps_ maps : List MapInfo)
    (h : MapsBuffer.Parse content maps_ = some (.returnTrue maps) ∨
      (Maps.Parse (some content) maps_ = some (.returnTrue maps) ∧
        ∀ line ∈ splitLines content, line.length ≤ 8191)) :
    ∃ entries,
      List.Forall₂ (fun line m => ParseLine line = .returnTrue m)
        (splitLines content) entries ∧
      maps = maps_ ++ entries ∧
      (maps_ = [] → (MapsInvariant maps ↔ MapsInvariant entries)) := by
  have key : ∃ entries, List.Forall₂ (fun line m => ParseLine line = .returnTrue m)
      (splitLines content) entries ∧ maps = maps_ ++ entries := by
    rcases h with h | ⟨h, hfit⟩
    · exact MapsBuffer_ParseLoop_true _ content maps_ maps h
    · exact Maps_ParseLoop_true _ content maps_ maps hfit h
  obtain ⟨entries, hall, hmaps⟩ := key
  refine ⟨entries, hall, hmaps, ?_⟩
  intro hnil
  rw [hmaps, hnil, List.nil_append]

/-- C14, amended, on the two lines in ascending order given to
`MapsBuffer::Parse`: the table is the two entries, and it satisfies the
invariant. -/
theorem Parse_table_witness :
    MapsBuffer.Parse ascendingBuffer [] = some (.returnTrue ascendingMaps) ∧
    Maps.Parse (some ascendingBuffer) [] = some (.returnTrue ascendingMaps) ∧
    MapsInvariant ascendingMaps ∧
    ∃ entries,
      List.Forall₂ (fun line m => ParseLine line = .returnTrue m)
        (splitLines ascendingBuffer) entries ∧
      ascendingMaps = [] ++ entries ∧
      (([] : List MapInfo) = [] → (MapsInvariant ascendingMaps ↔ MapsInvariant entries)) :=
  ⟨by decide, by decide, by decide,
    Parse_table ascendingBuffer [] ascendingMaps (Or.inl (by decide))⟩

/-- `MapsBuffer::Parse` and `Maps::Parse` return on every input. -/
theorem Parse_returns (content : List Char) (maps_ : List MapInfo) :
    (∃ r, MapsBuffer.Parse content maps_ = some r) ∧
    (∀ file, ∃ r, Maps.Parse file maps_ = some r) := by
  refine ⟨MapsBuffer_ParseLoop_returns _ content maps_ (by omega), ?_⟩
  intro file
  cases file with
  | none => exact ⟨_, rfl⟩
  | some stream => exact Maps_ParseLoop_returns _ stream maps_ (by omega)

/-! ## Maps::Find on arbitrary tables -/

/-- An entry that the loop of `Maps::Find` returns contains the pc. -/
theorem FindLoop_sound (maps : List MapInfo) (pc : Nat) :
    ∀ (fuel first last i : Nat), FindLoop maps pc fuel first last = some (some i) →
      ∃ m, maps[i]? = some m ∧ m.start ≤ pc ∧ pc < m.end_ := by
  intro fuel
  induction fuel with
  | zero =>
    intro first last i h
    by_cases hfl : first ≤ last
    · simp [FindLoop, hfl] at h
    · simp [FindLoop, hfl] at h
  | succ fuel ih =>
    intro first last i h
    by_cases hfl : first ≤ last
    · simp only [FindLoop, if_pos hfl] at h
      cases hcur : maps[(first + last) / 2]? with
      | none => simp [hcur] at h
      | some cur =>
        simp only [hcur] at h
        by_cases hin : cur.start ≤ pc ∧ pc < cur.end_
        · simp only [if_pos hin, Option.some.injEq] at h
          subst h
          exact ⟨cur, hcur, hin⟩
        · simp only [if_neg hin] at h
          by_cases hlt : pc < cur.start
          · simp only [if_pos hlt] at h
            by_cases h0 : (first + last) / 2 = 0
            · simp [if_pos h0] at h
            · simp only [if_neg h0] at h
              exact ih _ _ i h
          · simp only [if_neg hlt] at h
            exact ih _ _ i h
    · simp [FindLoop, hfl] at h

/-- C23. Soundness of `Maps::Find` on arbitrary tables: for every table, also
an unsorted or overlapping one, and every pc, `Find` returns, every entry it
returns has `start ≤ pc < end` (so a pc equal to the end of an entry is never
attributed to that entry), and on the empty table it returns `nullptr`. -/
theorem Find_sound (maps : List MapInfo) (pc : Nat) :
    ∃ r, Find maps pc = some r ∧
      (∀ i, r = some i → ∃ m, maps[i]? = some m ∧ m.start ≤ pc ∧ pc < m.end_) ∧
      (∀ i m, r = some i → maps[i]? = some m → pc ≠ m.end_) ∧
      (maps = [] → r = none) := by
  cases maps with
  | nil => exact ⟨none, rfl, by simp, by simp, fun _ => rfl⟩
  | cons a rest =>
    obtain ⟨r, hr⟩ := FindLoop_returns_within (a :: rest) pc (a :: rest).length 0
      ((a :: rest).length - 1) (by simp) (by
        have := @Nat.lt_two_pow (a :: rest).length
        simp only [List.length_cons] at this ⊢
        omega)
    have hF : Find (a :: rest) pc = some r := by
      simp only [Find, List.isEmpty_cons, Bool.false_eq_true, if_false]
      exact hr
    refine ⟨r, hF, ?_, ?_, by simp⟩
    · intro i hi
      subst hi
      exact FindLoop_sound _ pc _ _ _ i hr
    · intro i m hi hm
      subst hi
      obtain ⟨m', hm', _, hlt⟩ := FindLoop_sound _ pc _ _ _ i hr
      rw [hm] at hm'
      cases hm'
      omega

/-- C23 on a table that is neither sorted nor free of overlaps: `0x1800` is
found in the entry at index 1; `0x2000`, the end of that entry, is attributed
to the entry at index 2, which holds it; `0x5000`, the end of the entry at
index 2, and `0x800` are not found; the empty table gives `nullptr`. -/
theorem Find_sound_samples :
    Find overlappingMaps 0x1800 = some (some 1) ∧
    Find overlappingMaps 0x2000 = some (some 2) ∧
    Find overlappingMaps 0x5000 = some none ∧
    Find overlappingMaps 0x800 = some none ∧
    Find [] 0x1000 = some none := by
  decide

/-! ## HandleType when a read of the program header fails -/

/-- C28. `HandleType` is atomic on read failure: when `type` is `PT_ARM_EXIDX`
and the read of `p_vaddr` or the read of `p_memsz` fails, `HandleType` returns
true and the object is unchanged, so both `start_offset_` and `total_entries_`
keep their previous values; the call ends at line 121 or 124, before either
member is written. -/
theorem HandleType_read_failure (memory : Memory) (s : ElfInterfaceArm) (offset : Nat)
    (h : ReadField memory offset Elf32_Phdr.p_vaddr = none ∨
      ReadField memory offset Elf32_Phdr.p_memsz = none) :
    (HandleType memory s offset PT_ARM_EXIDX).ret = true ∧
    (HandleType memory s offset PT_ARM_EXIDX).self = s ∧
    (HandleType memory s offset PT_ARM_EXIDX).self.start_offset_ = s.start_offset_ ∧
    (HandleType memory s offset PT_ARM_EXIDX).self.total_entries_ = s.total_entries_ ∧
    ((HandleType memory s offset PT_ARM_EXIDX).line = 121 ∨
      (HandleType memory s offset PT_ARM_EXIDX).line = 124) := by
  unfold HandleType
  simp only [ne_eq, not_true_eq_false, if_false]
  cases hv : ReadField memory offset Elf32_Phdr.p_vaddr with
  | none => exact ⟨rfl, rfl, rfl, rfl, Or.inl rfl⟩
  | some p_vaddr =>
    cases hm : ReadField memory offset Elf32_Phdr.p_memsz with
    | none => exact ⟨rfl, rfl, rfl, rfl, Or.inr rfl⟩
    | some p_memsz =>
      rw [hv, hm] at h
      rcases h with h | h <;> cases h

/-- C28 on a program header of which only `p_vaddr` can be read, for an object
whose table was set before: the call returns true at line 124 and the table is
still at `0x200` with 5 entries. -/
theorem HandleType_read_failure_witness :
    (HandleType halfPhdrMemory handledArm 0x34 PT_ARM_EXIDX).line = 124 ∧
    ReadField halfPhdrMemory 0x34 Elf32_Phdr.p_vaddr = some 0x10100 ∧
    handledArm.start_offset_ = 0x200 ∧ handledArm.total_entries_ = 5 ∧
    (HandleType halfPhdrMemory handledArm 0x34 PT_ARM_EXIDX).ret = true ∧
    (HandleType halfPhdrMemory handledArm 0x34 PT_ARM_EXIDX).self = handledArm ∧
    (HandleType halfPhdrMemory handledArm 0x34 PT_ARM_EXIDX).self.start_offset_
      = handledArm.start_offset_ ∧
    (HandleType halfPhdrMemory handledArm 0x34 PT_ARM_EXIDX).self.total_entries_
      = handledArm.total_entries_ ∧
    ((HandleType halfPhdrMemory handledArm 0x34 PT_ARM_EXIDX).line = 121 ∨
      (HandleType halfPhdrMemory handledArm 0x34 PT_ARM_EXIDX).line = 124) :=
  ⟨by decide, by decide, by decide, by decide,
    HandleType_read_failure halfPhdrMemory handledArm 0x34 (Or.inr (by decide))⟩

/-! ## StepExidx when FindEntry fails -/

/-- C29. If `FindEntry` fails for the pc (narrowed to the `uint32_t` of its
parameter), `StepExidx` returns false, the register set after the call is the
one before it, logical pc and sp included, the DWARF step is not run, and the
result is the same whatever the opcode evaluator is: the evaluator is neither
constructed nor run. -/
theorem StepExidx_FindEntry_fails (memory : Memory) (arm : ArmExidx) (n : ArmRegNumbers)
    (s : ElfInterfaceArm) (pc : Nat) (regs : RegsArm)
    (h : Option.map FindEntryResult.ret (FindEntry memory s (pc % 2 ^ 32) 0) = some false) :
    ∃ r, StepExidx memory arm n s pc regs = some r ∧ r.ret = false ∧ r.regs = regs ∧
      r.dwarfSteps = [] ∧
      ∀ arm' : ArmExidx, StepExidx memory arm' n s pc regs = some r := by
  cases hf : FindEntry memory s (pc % 2 ^ 32) 0 with
  | none =>
    rw [hf] at h
    simp only [Option.map_none', reduceCtorEq] at h
  | some found =>
    rw [hf] at h
    simp only [Option.map_some', Option.some.injEq] at h
    refine ⟨⟨false, found.self, regs, []⟩, ?_, rfl, rfl, rfl, ?_⟩
    · simp only [StepExidx, hf, if_pos h]
    · intro arm'
      simp only [StepExidx, hf, if_pos h]

/-- C29 on the two-entry table for the pc `0x500`, which is below the first
entry: `FindEntry` fails, and `StepExidx` does the same with the evaluator that
succeeds and with the one that fails. -/
theorem StepExidx_FindEntry_fails_witness :
    (StepExidx sampleMemory sampleEvaluator armRegNumbers sampleArm 0x500 sampleRegs).map
      (fun r => (r.ret, r.regs.pc_, r.regs.sp_, r.regs.regs_ 14, r.dwarfSteps))
      = some (false, 0, 0x7000, 0, []) ∧
    ∃ r, StepExidx sampleMemory sampleEvaluator armRegNumbers sampleArm 0x500 sampleRegs
        = some r ∧ r.ret = false ∧ r.regs = sampleRegs ∧ r.dwarfSteps = [] ∧
      ∀ arm' : ArmExidx,
        StepExidx sampleMemory arm' armRegNumbers sampleArm 0x500 sampleRegs = some r :=
  ⟨by decide,
    StepExidx_FindEntry_fails sampleMemory sampleEvaluator armRegNumbers sampleArm 0x500
      sampleRegs (by decide)⟩

/-! ## FindEntry: the offsets it reads -/

/-- Lines 70-76 read at most the entry `current`, and only when no address is
cached for it; an entry without a cached address afterwards had none before. -/
theorem readAddr_reads (memory : Memory) (s : ElfInterfaceArm) (current : Nat)
    (reads : List Nat) :
    (∀ o ∈ (s.readAddr memory current reads).2.2,
      o ∈ reads ∨ (s.addrs_ current = 0 ∧ o = s.entryOffset current % 2 ^ 32)) ∧
    (∀ i, (s.readAddr memory current reads).2.1.addrs_ i = 0 → s.addrs_ i = 0) := by
  unfold ElfInterfaceArm.readAddr
  by_cases h0 : s.addrs_ current = 0
  · simp only [h0, if_true]
    cases hd : GetPrel31Addr memory (s.entryOffset current % 2 ^ 32) with
    | none =>
      refine ⟨?_, fun i hi => hi⟩
      intro o ho
      simp only [List.mem_append, List.mem_singleton] at ho
      rcases ho with ho | ho
      · exact Or.inl ho
      · exact Or.inr ⟨trivial, ho⟩
    | some addr =>
      refine ⟨?_, ?_⟩
      · intro o ho
        simp only [List.mem_append, List.mem_singleton] at ho
        rcases ho with ho | ho
        · exact Or.inl ho
        · exact Or.inr ⟨trivial, ho⟩
      · intro i hi
        by_cases hic : i = current
        · rw [hic]; exact h0
        · simpa [Function.update, hic] using hi
  · simp only [h0, if_false]
    exact ⟨fun o ho => Or.inl ho, fun i hi => hi⟩

/-- Every offset that the loop reads is the offset of an entry between `first`
and `last` for which no address was cached. -/
theorem FindEntryLoop_reads (memory : Memory) (pc entry_offset : Nat) :
    ∀ (fuel : Nat) (s : ElfInterfaceArm) (reads : List Nat) (first last : Nat)
      (r : FindEntryResult),
      FindEntryLoop memory pc entry_offset fuel s reads first last = some r →
      ∀ o ∈ r.reads, o ∈ reads ∨
        ∃ i, first ≤ i ∧ i ≤ last ∧ s.addrs_ i = 0 ∧ o = s.entryOffset i % 2 ^ 32 := by
  intro fuel
  induction fuel with
  | zero =>
    intro s reads first last r h
    by_cases hfl : first ≤ last
    · simp [FindEntryLoop, hfl] at h
    · simp only [FindEntryLoop, if_neg hfl, Option.some.injEq] at h
      subst h
      exact fun o ho => Or.inl ho
  | succ fuel ih =>
    intro s reads first last r h
    by_cases hfl : first ≤ last
    · have hrd := readAddr_reads memory s (first + (last - first) / 2) reads
      have hext := readAddr_extends memory s (first + (last - first) / 2) reads
      have hcur : ∀ o ∈ (s.readAddr memory (first + (last - first) / 2) reads).2.2,
          o ∈ reads ∨ ∃ i, first ≤ i ∧ i ≤ last ∧ s.addrs_ i = 0 ∧
            o = s.entryOffset i % 2 ^ 32 := by
        intro o ho
        rcases hrd.1 o ho with h1 | ⟨h1, h2⟩
        · exact Or.inl h1
        · exact Or.inr ⟨_, by omega, by omega, h1, h2⟩
      have hrec : ∀ (first' last' : Nat) (r' : FindEntryResult), first ≤ first' →
          last' ≤ last →
          FindEntryLoop memory pc entry_offset fuel
            (s.readAddr memory (first + (last - first) / 2) reads).2.1
            (s.readAddr memory (first + (last - first) / 2) reads).2.2 first' last' = some r' →
          ∀ o ∈ r'.reads, o ∈ reads ∨ ∃ i, first ≤ i ∧ i ≤ last ∧ s.addrs_ i = 0 ∧
            o = s.entryOffset i % 2 ^ 32 := by
        intro first' last' r' hf hl hr' o ho
        rcases ih _ _ _ _ _ hr' o ho with h1 | ⟨i, h1, h2, h3, h4⟩
        · exact hcur o h1
        · exact Or.inr ⟨i, by omega, by omega, hrd.2 i h3, by
            rw [h4, entryOffset_congr hext.start_offset_eq]⟩
      rcases hra : s.readAddr memory (first + (last - first) / 2) reads with ⟨_ | addr, s', reads'⟩
      · simp only [FindEntryLoop, if_pos hfl, hra, Option.some.injEq] at h
        rw [hra] at hcur
        subst h
        exact hcur
      · simp only [FindEntryLoop, if_pos hfl, hra] at h
        rw [hra] at hcur hrec
        by_cases h1 : pc = addr
        · simp only [if_pos h1, Option.some.injEq] at h
          subst h
          exact hcur
        · simp only [if_neg h1] at h
          by_cases h2 : pc < addr
          · simp only [if_pos h2] at h
            by_cases h3 : first + (last - first) / 2 = first
            · simp only [if_pos h3, Option.some.injEq] at h
              subst h
              exact hcur
            · simp only [if_neg h3] at h
              exact hrec _ _ r (Nat.le_refl _) (by omega) h
          · simp only [if_neg h2] at h
            by_cases h3 : first + (last - first) / 2 = last
            · simp only [if_pos h3, Option.some.injEq] at h
              subst h
              exact hcur
            · simp only [if_neg h3] at h
              exact hrec _ _ r (by omega) (Nat.le_refl _) h
    · simp only [FindEntryLoop, if_neg hfl, Option.some.injEq] at h
      subst h
      exact fun o ho => Or.inl ho

theorem search_reads {memory : Memory} {s : ElfInterfaceArm} {pc entry_offset : Nat}
    {reads : List Nat} {r : FindEntryResult}
    (h : s.search memory pc entry_offset reads = some r) :
    ∀ o ∈ r.reads, o ∈ reads ∨
      ∃ i, 1 ≤ i ∧ i ≤ s.total_entries_ - 1 ∧ s.addrs_ i = 0 ∧
        o = s.entryOffset i % 2 ^ 32 := by
  unfold ElfInterfaceArm.search at h
  by_cases h1 : pc < s.load_bias_
  · simp only [if_pos h1, Option.some.injEq] at h
    subst h
    exact fun o ho => Or.inl ho
  · simp only [if_neg h1] at h
    by_cases h2 : (pc - s.load_bias_) % 2 ^ 32 < s.first_addr_
    · simp only [if_pos h2, Option.some.injEq] at h
      subst h
      exact fun o ho => Or.inl ho
    · simp only [if_neg h2] at h
      by_cases h3 : (pc - s.load_bias_) % 2 ^ 32 ≥ s.last_addr_
      · simp only [if_pos h3, Option.some.injEq] at h
        subst h
        exact fun o ho => Or.inl ho
      · simp only [if_neg h3] at h
        exact FindEntryLoop_reads memory _ _ _ _ _ _ _ _ h

/-- Every offset that a call of `FindEntry` passes to `GetPrel31Addr` is the
offset of an entry `i < total_entries_`: entry 0 or the last entry, read by the
set-up block when `first_addr_` is 0, or an entry `i ≥ 1` for which no address
was cached, read by the loop. -/
theorem FindEntry_reads {memory : Memory} {s : ElfInterfaceArm} {pc entry_offset : Nat}
    {r : FindEntryResult} (h : FindEntry memory s pc entry_offset = some r) :
    ∀ o ∈ r.reads, ∃ i, i < s.total_entries_ ∧ o = s.entryOffset i % 2 ^ 32 ∧
      ((s.first_addr_ = 0 ∧ (i = 0 ∨ i + 1 = s.total_entries_)) ∨
        (1 ≤ i ∧ s.addrs_ i = 0)) := by
  unfold FindEntry at h
  by_cases hg : s.start_offset_ = 0 ∨ s.total_entries_ = 0
  · simp only [if_pos hg, Option.some.injEq] at h
    subst h
    intro o ho
    cases ho
  · simp only [if_neg hg] at h
    have hN : s.total_entries_ ≠ 0 := fun h0 => hg (Or.inr h0)
    by_cases hf : s.first_addr_ = 0
    · simp only [if_pos hf] at h
      have hfirst : ∀ o, o = s.start_offset_ % 2 ^ 32 →
          ∃ i, i < s.total_entries_ ∧ o = s.entryOffset i % 2 ^ 32 ∧
            ((s.first_addr_ = 0 ∧ (i = 0 ∨ i + 1 = s.total_entries_)) ∨
              (1 ≤ i ∧ s.addrs_ i = 0)) := by
        intro o ho
        exact ⟨0, by omega, by rw [ho, entryOffset_zero], Or.inl ⟨hf, Or.inl rfl⟩⟩
      have hlast : ∀ o, o = s.entryOffset (s.total_entries_ - 1) % 2 ^ 32 →
          ∃ i, i < s.total_entries_ ∧ o = s.entryOffset i % 2 ^ 32 ∧
            ((s.first_addr_ = 0 ∧ (i = 0 ∨ i + 1 = s.total_entries_)) ∨
              (1 ≤ i ∧ s.addrs_ i = 0)) := by
        intro o ho
        exact ⟨s.total_entries_ - 1, by omega, ho, Or.inl ⟨hf, Or.inr (by omega)⟩⟩
      cases h0 : GetPrel31Addr memory (s.start_offset_ % 2 ^ 32) with
      | none =>
        simp only [h0, Option.some.injEq] at h
        subst h
        intro o ho
        simp only [List.mem_singleton] at ho
        exact hfirst o ho
      | some a0 =>
        simp only [h0] at h
        by_cases hN1 : s.total_entries_ > 1
        · simp only [if_pos hN1] at h
          cases hL : GetPrel31Addr memory
              (ElfInterfaceArm.entryOffset
                { s with addrs_ := Function.update s.addrs_ 0 a0, first_addr_ := a0 }
                (s.total_entries_ - 1) % 2 ^ 32) with
          | none =>
            simp only [hL, Option.some.injEq] at h
            subst h
            intro o ho
            simp only [List.mem_cons, List.mem_singleton, List.not_mem_nil, or_false] at ho
            rcases ho with ho | ho
            · exact hfirst o ho
            · exact hlast o ho
          | some aL =>
            simp only [hL] at h
            intro o ho
            rcases search_reads h o ho with ho | ⟨i, hi1, hi2, hi3, hi4⟩
            · simp only [List.mem_cons, List.mem_singleton, List.not_mem_nil, or_false] at ho
              rcases ho with ho | ho
              · exact hfirst o ho
              · exact hlast o ho
            · have hi2' : i ≤ s.total_entries_ - 1 := hi2
              by_cases hiL : i = s.total_entries_ - 1
              · exact ⟨i, by omega, hi4, Or.inl ⟨hf, Or.inr (by omega)⟩⟩
              · have hi0 : i ≠ 0 := by omega
                have hi3' : s.addrs_ i = 0 := by
                  simpa [Function.update, hiL, hi0] using hi3
                exact ⟨i, by omega, hi4, Or.inr ⟨hi1, hi3'⟩⟩
        · simp only [if_neg hN1] at h
          intro o ho
          rcases search_reads h o ho with ho | ⟨i, hi1, hi2, _, _⟩
          · simp only [List.mem_singleton] at ho
            exact hfirst o ho
          · have hi2' : i ≤ s.total_entries_ - 1 := hi2
            omega
    · simp only [if_neg hf] at h
      intro o ho
      rcases search_reads h o ho with ho | ⟨i, hi1, hi2, hi3, hi4⟩
      · cases ho
      · exact ⟨i, by omega, hi4, Or.inr ⟨hi1, hi3⟩⟩

/-- The offsets of the entries of a table of at most `2 ^ 29` entries are
pairwise different as `uint32_t` values. -/
theorem entryOffset_injective (s : ElfInterfaceArm) (i j : Nat) (hi : i < 2 ^ 29)
    (hj : j < 2 ^ 29) (h : s.entryOffset i % 2 ^ 32 = s.entryOffset j % 2 ^ 32) : i = j := by
  rw [entryOffset_eq, entryOffset_eq] at h
  omega

/-- C22. Table reads stay inside the table: for every object, whatever its
table (sorted or not) and its cache hold, with
`start_offset_ + 8 * total_entries_ ≤ 2^32`, and for every pc, `FindEntry`
returns, and each offset that it passes to `GetPrel31Addr` is
`start_offset_ + 8 * i` for some `i < total_entries_`, so that the entry read
lies in the bytes from `start_offset_` up to `start_offset_ + 8 * total_entries_`
of the section. -/
theorem FindEntry_reads_in_table (memory : Memory) (s : ElfInterfaceArm) (pc entry_offset : Nat)
    (hfit : s.start_offset_ + 8 * s.total_entries_ ≤ 2 ^ 32) :
    ∃ r, FindEntry memory s pc entry_offset = some r ∧
      ∀ o ∈ r.reads, ∃ i, i < s.total_entries_ ∧ o = s.start_offset_ + 8 * i ∧
        s.start_offset_ ≤ o ∧ o + 8 ≤ s.start_offset_ + 8 * s.total_entries_ := by
  obtain ⟨r, hr⟩ := FindEntry_returns memory s pc entry_offset
  refine ⟨r, hr, ?_⟩
  intro o ho
  obtain ⟨i, hi, hoff, _⟩ := FindEntry_reads hr o ho
  rw [entryOffset_eq] at hoff
  exact ⟨i, hi, by omega, by omega, by omega⟩

/-- C22 on the unsorted four-entry table at `0x100` for the pc `0x2500`: the
call reads the entries 0, 3 and 2, at `0x100`, `0x118` and `0x110`. -/
theorem FindEntry_reads_in_table_witness :
    (FindEntry unsortedMemory unsortedArm 0x2500 0).map
      (fun r => (r.ret, r.entry_offset, r.reads)) = some (true, 0x110, [0x100, 0x118, 0x110]) ∧
    ∃ r, FindEntry unsortedMemory unsortedArm 0x2500 0 = some r ∧
      ∀ o ∈ r.reads, ∃ i, i < unsortedArm.total_entries_ ∧
        o = unsortedArm.start_offset_ + 8 * i ∧
        unsortedArm.start_offset_ ≤ o ∧
        o + 8 ≤ unsortedArm.start_offset_ + 8 * unsortedArm.total_entries_ :=
  ⟨by decide, FindEntry_reads_in_table unsortedMemory unsortedArm 0x2500 0 (by decide)⟩

/-! ## FindEntry: the cache invariant -/

theorem lastOK_of_extends {memory : Memory} {s s' : ElfInterfaceArm}
    (h : Extends memory s s')
    (hl : s.last_addr_ = 0 ∨ s.decoded memory (s.total_entries_ - 1) = some s.last_addr_) :
    s'.last_addr_ = 0 ∨ s'.decoded memory (s'.total_entries_ - 1) = some s'.last_addr_ := by
  rw [h.last_addr_eq, h.total_entries_eq, decoded_congr memory h.start_offset_eq]
  exact hl

/-- A call of `FindEntry` keeps a non-zero `last_addr_` equal to the decoded
address of the last entry. -/
theorem FindEntry_lastOK {memory : Memory} {s : ElfInterfaceArm} {pc entry_offset : Nat}
    {r : FindEntryResult}
    (hl : s.last_addr_ = 0 ∨ s.decoded memory (s.total_entries_ - 1) = some s.last_addr_)
    (h : FindEntry memory s pc entry_offset = some r) :
    r.self.last_addr_ = 0 ∨
      r.self.decoded memory (r.self.total_entries_ - 1) = some r.self.last_addr_ := by
  unfold FindEntry at h
  by_cases hg : s.start_offset_ = 0 ∨ s.total_entries_ = 0
  · simp only [if_pos hg, Option.some.injEq] at h
    subst h
    exact hl
  · simp only [if_neg hg] at h
    by_cases hf : s.first_addr_ = 0
    · simp only [if_pos hf] at h
      cases h0 : GetPrel31Addr memory (s.start_offset_ % 2 ^ 32) with
      | none =>
        simp only [h0, Option.some.injEq] at h
        subst h
        exact hl
      | some a0 =>
        simp only [h0] at h
        by_cases hN1 : s.total_entries_ > 1
        · simp only [if_pos hN1] at h
          cases hL : GetPrel31Addr memory
              (ElfInterfaceArm.entryOffset
                { s with addrs_ := Function.update s.addrs_ 0 a0, first_addr_ := a0 }
                (s.total_entries_ - 1) % 2 ^ 32) with
          | none =>
            simp only [hL, Option.some.injEq] at h
            subst h
            exact hl
          | some aL =>
            simp only [hL] at h
            exact lastOK_of_extends (search_extends h).1 (Or.inr hL)
        · simp only [if_neg hN1] at h
          have hN0 : s.total_entries_ - 1 = 0 := by omega
          refine lastOK_of_extends (search_extends h).1 (Or.inr ?_)
          show GetPrel31Addr memory (s.entryOffset (s.total_entries_ - 1) % 2 ^ 32) = some a0
          rw [hN0, entryOffset_zero]
          exact h0
    · simp only [if_neg hf] at h
      exact lastOK_of_extends (search_extends h).1 hl

/-- In every object reachable from a fresh one by calls of `FindEntry`, a
non-zero `last_addr_` is the decoded address of the last entry. -/
theorem reachable_lastOK {memory : Memory} {load_bias start_offset total_entries : Nat}
    {s : ElfInterfaceArm}
    (hr : Reachable memory (ElfInterfaceArm.fresh load_bias start_offset total_entries) s) :
    s.last_addr_ = 0 ∨ s.decoded memory (s.total_entries_ - 1) = some s.last_addr_ := by
  induction hr with
  | start => exact Or.inl rfl
  | call pc entry_offset r _ _ hcall ih => exact FindEntry_lastOK ih hcall

/-- C21. Cache invariant of the exception-index evaluator: in every object
reached from a fresh one by any sequence of `FindEntry` calls over the same
memory, every non-zero cached value `addrs_[i]` is the PREL31-decoded address
of entry `i`, a non-zero `first_addr_` is the decoded address of entry 0 and a
non-zero `last_addr_` the decoded address of entry `N - 1`; and every read of a
further call is a read of entry 0 or entry `N - 1` by the set-up block (only
when `first_addr_` is 0) or a read of an entry for which no address is cached,
so that, the offsets of the entries of a table of at most `2^29` entries being
pairwise different, the offset of an interior entry whose cached address is
non-zero is never read again. -/
theorem FindEntry_cache_invariant (memory : Memory)
    (load_bias start_offset total_entries : Nat) (s : ElfInterfaceArm)
    (hreach : Reachable memory (ElfInterfaceArm.fresh load_bias start_offset total_entries) s) :
    (∀ i, s.addrs_ i ≠ 0 → s.decoded memory i = some (s.addrs_ i)) ∧
    (s.first_addr_ ≠ 0 → s.decoded memory 0 = some s.first_addr_) ∧
    (s.last_addr_ ≠ 0 → s.decoded memory (total_entries - 1) = some s.last_addr_) ∧
    ∀ pc entry_offset, ∃ r, FindEntry memory s pc entry_offset = some r ∧
      (∀ o ∈ r.reads, ∃ i, i < total_entries ∧ o = s.entryOffset i % 2 ^ 32 ∧
        ((s.first_addr_ = 0 ∧ (i = 0 ∨ i + 1 = total_entries)) ∨
          (1 ≤ i ∧ s.addrs_ i = 0))) ∧
      (total_entries ≤ 2 ^ 29 → ∀ i, 1 ≤ i → i + 1 < total_entries → s.addrs_ i ≠ 0 →
        s.entryOffset i % 2 ^ 32 ∉ r.reads) := by
  obtain ⟨hc, _, _, hn⟩ := reachable_cacheOK (cacheOK_fresh memory _ _ _) hreach
  have hn' : s.total_entries_ = total_entries := hn
  have hl := reachable_lastOK hreach
  rw [hn'] at hl
  refine ⟨?_, ?_, ?_, ?_⟩
  · intro i hi
    rcases hc.addrs i with h | h
    · exact absurd h hi
    · exact h
  · intro hf
    rcases hc.first with h | h
    · exact absurd h hf
    · exact h
  · intro hne
    rcases hl with h | h
    · exact absurd h hne
    · exact h
  · intro pc entry_offset
    obtain ⟨r, hr⟩ := FindEntry_returns memory s pc entry_offset
    have hreads := FindEntry_reads hr
    rw [hn'] at hreads
    refine ⟨r, hr, hreads, ?_⟩
    intro hsmall i hi1 hi2 hnz hmem
    obtain ⟨j, hj, hoff, hcase⟩ := hreads _ hmem
    have hij : i = j := entryOffset_injective s i j (by omega) (by omega) hoff
    subst hij
    rcases hcase with ⟨_, h | h⟩ | ⟨_, h⟩
    · omega
    · omega
    · exact hnz h

/-- C21 on the object that has decoded the entries 0, 3 and 2 of the unsorted
four-entry table: the call `FindEntry(0x1500)` reads entry 1 at `0x108` and
does not read entry 2 at `0x110` again. -/
theorem FindEntry_cache_invariant_witness :
    (warmArm.first_addr_, warmArm.last_addr_, warmArm.addrs_ 1, warmArm.addrs_ 2)
      = (0x1000, 0x4000, 0, 0x2000) ∧
    (FindEntry unsortedMemory warmArm 0x1500 0).map
      (fun r => (r.ret, r.entry_offset, r.reads)) = some (true, 0x100, [0x108]) ∧
    (∀ i, warmArm.addrs_ i ≠ 0 → warmArm.decoded unsortedMemory i = some (warmArm.addrs_ i)) ∧
    (warmArm.first_addr_ ≠ 0 → warmArm.decoded unsortedMemory 0 = some warmArm.first_addr_) ∧
    (warmArm.last_addr_ ≠ 0 →
      warmArm.decoded unsortedMemory (4 - 1) = some warmArm.last_addr_) ∧
    ∀ pc entry_offset, ∃ r, FindEntry unsortedMemory warmArm pc entry_offset = some r ∧
      (∀ o ∈ r.reads, ∃ i, i < 4 ∧ o = warmArm.entryOffset i % 2 ^ 32 ∧
        ((warmArm.first_addr_ = 0 ∧ (i = 0 ∨ i + 1 = 4)) ∨
          (1 ≤ i ∧ warmArm.addrs_ i = 0))) ∧
      (4 ≤ 2 ^ 29 → ∀ i, 1 ≤ i → i + 1 < 4 → warmArm.addrs_ i ≠ 0 →
        warmArm.entryOffset i % 2 ^ 32 ∉ r.reads) :=
  ⟨by decide, by decide,
    FindEntry_cache_invariant unsortedMemory 0 0x100 4 warmArm
      (Reachable.call 0x2500 0
        ((FindEntry unsortedMemory unsortedArm 0x2500 0).getD ⟨false, 0, unsortedArm, [], 0⟩)
        Reachable.start (by decide) rfl)⟩

/-! ## FindEntry: when it fails -/

/-- Lines 70-76 obtain an address for an entry that can be decoded. -/
theorem readAddr_some (memory : Memory) (s : ElfInterfaceArm) (current : Nat)
    (reads : List Nat) (h : (s.decoded memory current).isSome = true) :
    ∃ addr, (s.readAddr memory current reads).1 = some addr := by
  unfold ElfInterfaceArm.readAddr
  by_cases h0 : s.addrs_ current = 0
  · simp only [h0, if_true]
    cases hd : GetPrel31Addr memory (s.entryOffset current % 2 ^ 32) with
    | none =>
      have : s.decoded memory current = none := hd
      rw [this] at h
      cases h
    | some addr => exact ⟨addr, rfl⟩
  · simp only [h0, if_false]
    exact ⟨_, rfl⟩

/-- The loop over a non-empty range of entries that can all be decoded leaves
through one of its `return true` statements, with the offset of an entry from
`first - 1` to `last`. -/
theorem FindEntryLoop_succeeds (memory : Memory) (pc entry_offset : Nat) :
    ∀ (fuel : Nat) (s : ElfInterfaceArm) (reads : List Nat) (first last : Nat),
      first ≤ last → last + 1 - first ≤ fuel →
      (∀ i, first ≤ i → i ≤ last → (s.decoded memory i).isSome = true) →
      ∃ r i, FindEntryLoop memory pc entry_offset fuel s reads first last = some r ∧
        r.ret = true ∧ first - 1 ≤ i ∧ i ≤ last ∧ r.entry_offset = s.entryOffset i ∧
        (r.line = 79 ∨ r.line = 84 ∨ r.line = 90) := by
  intro fuel
  induction fuel with
  | zero => intro s reads first last hfl hfuel _; omega
  | succ fuel ih =>
    intro s reads first last hfl hfuel hall
    obtain ⟨addr, haddr⟩ := readAddr_some memory s (first + (last - first) / 2) reads
      (hall _ (by omega) (by omega))
    have hext := readAddr_extends memory s (first + (last - first) / 2) reads
    rcases hra : s.readAddr memory (first + (last - first) / 2) reads with ⟨x, s', reads'⟩
    rw [hra] at haddr hext
    simp only at haddr hext
    subst haddr
    have hoff : ∀ i, s'.entryOffset i = s.entryOffset i :=
      entryOffset_congr hext.start_offset_eq
    have hall' : ∀ i, first ≤ i → i ≤ last → (s'.decoded memory i).isSome = true := by
      intro i h1 h2
      rw [decoded_congr memory hext.start_offset_eq]
      exact hall i h1 h2
    simp only [FindEntryLoop, if_pos hfl, hra]
    by_cases h1 : pc = addr
    · simp only [if_pos h1]
      exact ⟨_, first + (last - first) / 2, rfl, rfl, by omega, by omega, hoff _, Or.inl rfl⟩
    · simp only [if_neg h1]
      by_cases h2 : pc < addr
      · simp only [if_pos h2]
        by_cases h3 : first + (last - first) / 2 = first
        · simp only [if_pos h3]
          exact ⟨_, first + (last - first) / 2 - 1, rfl, rfl, by omega, by omega, hoff _,
            Or.inr (Or.inl rfl)⟩
        · simp only [if_neg h3]
          obtain ⟨r, i, hr, h4, h5, h6, h7, h8⟩ :=
            ih s' reads' first (first + (last - first) / 2 - 1) (by omega) (by omega)
              (fun i hi1 hi2 => hall' i hi1 (by omega))
          exact ⟨r, i, hr, h4, h5, by omega, by rw [h7, hoff], h8⟩
      · simp only [if_neg h2]
        by_cases h3 : first + (last - first) / 2 = last
        · simp only [if_pos h3]
          exact ⟨_, first + (last - first) / 2, rfl, rfl, by omega, by omega, hoff _,
            Or.inr (Or.inr rfl)⟩
        · simp only [if_neg h3]
          obtain ⟨r, i, hr, h4, h5, h6, h7, h8⟩ :=
            ih s' reads' (first + (last - first) / 2 + 1) last (by omega) (by omega)
              (fun i hi1 hi2 => hall' i (by omega) hi2)
          exact ⟨r, i, hr, h4, by omega, h6, by rw [h7, hoff], h8⟩

/-- Lines 51-96 on an object that holds the decoded first and last address of
a table whose entries can all be decoded: false exactly when the pc is below
the load bias or below the first address, and never by falling out of the
loop. -/
theorem search_fails_iff {memory : Memory} {t : ElfInterfaceArm} {pc a0 aL : Nat}
    (entry_offset : Nat) (reads : List Nat)
    (hall : ∀ i, i < t.total_entries_ → (t.decoded memory i).isSome = true)
    (hN : t.total_entries_ ≠ 0) (hfirst : t.first_addr_ = a0) (hlast : t.last_addr_ = aL)
    (hone : t.total_entries_ = 1 → aL = a0) (hpc : pc < 2 ^ 32) :
    ∃ r, t.search memory pc entry_offset reads = some r ∧
      (r.ret = false ↔ (pc < t.load_bias_ ∨ pc - t.load_bias_ < a0)) ∧
      (r.ret = true → ∃ i, i < t.total_entries_ ∧ r.entry_offset = t.entryOffset i) ∧
      r.line ≠ 95 := by
  unfold ElfInterfaceArm.search
  by_cases h1 : pc < t.load_bias_
  · simp only [if_pos h1]
    exact ⟨_, rfl, by simp [h1], by simp, by simp⟩
  · simp only [if_neg h1]
    have hmod : (pc - t.load_bias_) % 2 ^ 32 = pc - t.load_bias_ :=
      Nat.mod_eq_of_lt (by omega)
    rw [hmod, hfirst, hlast]
    by_cases h2 : pc - t.load_bias_ < a0
    · simp only [if_pos h2]
      exact ⟨_, rfl, by simp [h2], by simp, by simp⟩
    · simp only [if_neg h2]
      by_cases h3 : pc - t.load_bias_ ≥ aL
      · simp only [if_pos h3]
        exact ⟨_, rfl, by simp [h1, h2], fun _ => ⟨t.total_entries_ - 1, by omega, rfl⟩,
          by simp⟩
      · simp only [if_neg h3]
        have hN2 : 2 ≤ t.total_entries_ := by
          by_contra hlt
          have := hone (by omega)
          omega
        obtain ⟨r, i, hr, h4, _, h6, h7, h8⟩ :=
          FindEntryLoop_succeeds memory (pc - t.load_bias_) entry_offset t.total_entries_ t
            reads 1 (t.total_entries_ - 1) (by omega) (by omega)
            (fun i _ hi => hall i (by omega))
        refine ⟨r, hr, ?_, fun _ => ⟨i, by omega, h7⟩, by omega⟩
        rw [h4]
        simp [h1, h2]

/-- C24. Exact failure condition of `FindEntry`: for every table, sorted or
not, whose entries can all be read, every object reached from the fresh one by
calls of `FindEntry`, and every 32-bit pc, `FindEntry(pc)` returns false iff
`start_offset_ = 0`, or `total_entries_ = 0`, or `pc < load_bias_`, or
`pc - load_bias_` is below the decoded address of entry 0. In every other case
it returns true with `entry_offset` the `uint64_t` value of
`start_offset_ + 8 * i` for some `i < total_entries_`. The call never ends at
the `return false` after the loop (line 95). -/
theorem FindEntry_fails_iff (memory : Memory) (load_bias start_offset total_entries : Nat)
    (s : ElfInterfaceArm)
    (hreach : Reachable memory (ElfInterfaceArm.fresh load_bias start_offset total_entries) s)
    (hall : ∀ i, i < total_entries → (s.decoded memory i).isSome = true)
    (pc entry_offset : Nat) (hpc : pc < 2 ^ 32) :
    ∃ r, FindEntry memory s pc entry_offset = some r ∧
      (r.ret = false ↔
        (start_offset = 0 ∨ total_entries = 0 ∨ pc < load_bias ∨
          ∃ a0, s.decoded memory 0 = some a0 ∧ pc - load_bias < a0)) ∧
      (r.ret = true → ∃ i, i < total_entries ∧
        r.entry_offset = (start_offset + 8 * i) % 2 ^ 64 ∧
        (start_offset + 8 * total_entries ≤ 2 ^ 64 → r.entry_offset = start_offset + 8 * i)) ∧
      r.line ≠ 95 := by
  obtain ⟨hc, hb, hs, hn⟩ := reachable_cacheOK (cacheOK_fresh memory _ _ _) hreach
  have hb' : s.load_bias_ = load_bias := hb
  have hs' : s.start_offset_ = start_offset := hs
  have hn' : s.total_entries_ = total_entries := hn
  by_cases hg : s.start_offset_ = 0 ∨ s.total_entries_ = 0
  · refine ⟨⟨false, entry_offset, s, [], 30⟩, by simp only [FindEntry, if_pos hg], ?_,
      by simp, by simp⟩
    simp only [true_iff]
    rcases hg with h | h
    · exact Or.inl (by omega)
    · exact Or.inr (Or.inl (by omega))
  · have hstart : s.start_offset_ ≠ 0 := fun h => hg (Or.inl h)
    have hN : s.total_entries_ ≠ 0 := fun h => hg (Or.inr h)
    obtain ⟨a0, h0⟩ := Option.isSome_iff_exists.1 (hall 0 (by omega))
    obtain ⟨aL, hL⟩ := Option.isSome_iff_exists.1 (hall (s.total_entries_ - 1) (by omega))
    obtain ⟨t, reads, hfe, _, htb, hts, htn, htf, htl, _⟩ :=
      FindEntry_setup pc entry_offset hc hstart hN h0 hL
    obtain ⟨r, hr, hiff, htrue, hline⟩ := @search_fails_iff memory t pc a0 aL entry_offset reads
      (fun i hi => by
        rw [decoded_congr memory hts]
        exact hall i (by omega))
      (by omega) htf htl
      (fun h1 => by
        have h10 : s.total_entries_ - 1 = 0 := by omega
        rw [h10, h0] at hL
        exact (Option.some.inj hL).symm)
      hpc
    refine ⟨r, hfe.trans hr, ?_, ?_, hline⟩
    · rw [hiff, htb, hb']
      constructor
      · rintro (h | h)
        · exact Or.inr (Or.inr (Or.inl h))
        · exact Or.inr (Or.inr (Or.inr ⟨a0, h0, h⟩))
      · rintro (h | h | h | ⟨a0', h0', h⟩)
        · omega
        · omega
        · exact Or.inl h
        · rw [h0] at h0'
          cases h0'
          exact Or.inr h
    · intro hret
      obtain ⟨i, hi, hoff⟩ := htrue hret
      refine ⟨i, by omega, ?_, ?_⟩
      · rw [hoff, entryOffset_eq, hts, hs']
      · intro hfit
        rw [hoff, entryOffset_eq, hts, hs']
        exact Nat.mod_eq_of_lt (by omega)

/-- C24 on the object that has decoded the entries 0, 3 and 2 of the unsorted
four-entry table, for the pc `0x2800`: the call returns true with the offset
of entry 2; for the pc `0x800`, below the first address, it returns false. -/
theorem FindEntry_fails_iff_witness :
    (FindEntry unsortedMemory warmArm 0x2800 0).map
      (fun r => (r.ret, r.entry_offset, r.line)) = some (true, 0x110, 84) ∧
    (FindEntry unsortedMemory warmArm 0x800 0).map
      (fun r => (r.ret, r.entry_offset, r.line)) = some (false, 0, 58) ∧
    ∃ r, FindEntry unsortedMemory warmArm 0x2800 0 = some r ∧
      (r.ret = false ↔
        (0x100 = 0 ∨ 4 = 0 ∨ 0x2800 < 0 ∨
          ∃ a0, warmArm.decoded unsortedMemory 0 = some a0 ∧ 0x2800 - 0 < a0)) ∧
      (r.ret = true → ∃ i, i < 4 ∧
        r.entry_offset = (0x100 + 8 * i) % 2 ^ 64 ∧
        (0x100 + 8 * 4 ≤ 2 ^ 64 → r.entry_offset = 0x100 + 8 * i)) ∧
      r.line ≠ 95 :=
  ⟨by decide, by decide,
    FindEntry_fails_iff unsortedMemory 0 0x100 4 warmArm
      (Reachable.call 0x2500 0
        ((FindEntry unsortedMemory unsortedArm 0x2500 0).getD ⟨false, 0, unsortedArm, [], 0⟩)
        Reachable.start (by decide) rfl)
      (by decide) 0x2800 0 (by decide)⟩

/-! ## FindEntry: the cache does not change the result -/

theorem consistent_of_extends {memory : Memory} {s s' : ElfInterfaceArm}
    (h : Extends memory s s')
    (hc : ∀ i, s.addrs_ i = 0 ∨ s.decoded memory i = some (s.addrs_ i)) :
    ∀ i, s'.addrs_ i = 0 ∨ s'.decoded memory i = some (s'.addrs_ i) := by
  intro i
  rw [decoded_congr memory h.start_offset_eq]
  rcases h.addrs i with h1 | ⟨_, h2⟩
  · rw [h1]
    exact hc i
  · exact Or.inr h2

/-- The loop on two objects over the same table whose cached addresses agree
with memory returns the same flag and the same entry offset, when the entries
of the range can all be decoded. -/
theorem FindEntryLoop_cache_irrelevant (memory : Memory) (pc entry_offset : Nat) :
    ∀ (fuel : Nat) (s1 s2 : ElfInterfaceArm) (reads1 reads2 : List Nat) (first last : Nat),
      (∀ i, s1.addrs_ i = 0 ∨ s1.decoded memory i = some (s1.addrs_ i)) →
      (∀ i, s2.addrs_ i = 0 ∨ s2.decoded memory i = some (s2.addrs_ i)) →
      s2.start_offset_ = s1.start_offset_ →
      (∀ i, first ≤ i → i ≤ last → (s1.decoded memory i).isSome = true) →
      (FindEntryLoop memory pc entry_offset fuel s1 reads1 first last).map
          (fun r => (r.ret, r.entry_offset))
        = (FindEntryLoop memory pc entry_offset fuel s2 reads2 first last).map
          (fun r => (r.ret, r.entry_offset)) := by
  intro fuel
  induction fuel with
  | zero =>
    intro s1 s2 reads1 reads2 first last _ _ _ _
    by_cases hfl : first ≤ last
    · simp only [FindEntryLoop, if_pos hfl, Option.map_none']
    · simp only [FindEntryLoop, if_neg hfl, Option.map_some']
  | succ fuel ih =>
    intro s1 s2 reads1 reads2 first last hc1 hc2 hstart hall
    by_cases hfl : first ≤ last
    · obtain ⟨v, hv⟩ := Option.isSome_iff_exists.1
        (hall (first + (last - first) / 2) (by omega) (by omega))
      have hv2 : s2.decoded memory (first + (last - first) / 2) = some v := by
        rw [decoded_congr memory hstart]; exact hv
      have ha1 := readAddr_of_decoded reads1 hc1 hv
      have ha2 := readAddr_of_decoded reads2 hc2 hv2
      have he1 := readAddr_extends memory s1 (first + (last - first) / 2) reads1
      have he2 := readAddr_extends memory s2 (first + (last - first) / 2) reads2
      rcases hra1 : s1.readAddr memory (first + (last - first) / 2) reads1 with ⟨x1, t1, rd1⟩
      rcases hra2 : s2.readAddr memory (first + (last - first) / 2) reads2 with ⟨x2, t2, rd2⟩
      rw [hra1] at ha1 he1
      rw [hra2] at ha2 he2
      simp only at ha1 ha2 he1 he2
      subst ha1
      subst ha2
      have hst : t2.start_offset_ = t1.start_offset_ := by
        rw [he2.start_offset_eq, he1.start_offset_eq, hstart]
      have hoff : ∀ i, t2.entryOffset i = t1.entryOffset i := entryOffset_congr hst
      have hall' : ∀ i, first ≤ i → i ≤ last → (t1.decoded memory i).isSome = true := by
        intro i h1 h2
        rw [decoded_congr memory he1.start_offset_eq]
        exact hall i h1 h2
      simp only [FindEntryLoop, if_pos hfl, hra1, hra2]
      by_cases h1 : pc = v
      · simp only [if_pos h1, Option.map_some', hoff]
      · simp only [if_neg h1]
        by_cases h2 : pc < v
        · simp only [if_pos h2]
          by_cases h3 : first + (last - first) / 2 = first
          · simp only [if_pos h3, Option.map_some', hoff]
          · simp only [if_neg h3]
            exact ih t1 t2 rd1 rd2 _ _ (consistent_of_extends he1 hc1)
              (consistent_of_extends he2 hc2) hst (fun i hi1 hi2 => hall' i hi1 (by omega))
        · simp only [if_neg h2]
          by_cases h3 : first + (last - first) / 2 = last
          · simp only [if_pos h3, Option.map_some', hoff]
          · simp only [if_neg h3]
            exact ih t1 t2 rd1 rd2 _ _ (consistent_of_extends he1 hc1)
              (consistent_of_extends he2 hc2) hst (fun i hi1 hi2 => hall' i (by omega) hi2)
    · simp only [FindEntryLoop, if_neg hfl, Option.map_some']

/-- Lines 51-96 on two objects over the same table with the same first and
last address return the same flag and the same entry offset. -/
theorem search_cache_irrelevant {memory : Memory} {t1 t2 : ElfInterfaceArm}
    (pc entry_offset : Nat) (reads1 reads2 : List Nat)
    (hc1 : ∀ i, t1.addrs_ i = 0 ∨ t1.decoded memory i = some (t1.addrs_ i))
    (hc2 : ∀ i, t2.addrs_ i = 0 ∨ t2.decoded memory i = some (t2.addrs_ i))
    (hb : t2.load_bias_ = t1.load_bias_) (hs : t2.start_offset_ = t1.start_offset_)
    (hn : t2.total_entries_ = t1.total_entries_) (hf : t2.first_addr_ = t1.first_addr_)
    (hl : t2.last_addr_ = t1.last_addr_)
    (hall : ∀ i, i < t1.total_entries_ → (t1.decoded memory i).isSome = true) :
    (t1.search memory pc entry_offset reads1).map (fun r => (r.ret, r.entry_offset))
      = (t2.search memory pc entry_offset reads2).map (fun r => (r.ret, r.entry_offset)) := by
  unfold ElfInterfaceArm.search
  rw [hb, hf, hl, hn]
  by_cases h1 : pc < t1.load_bias_
  · simp only [if_pos h1, Option.map_some']
  · simp only [if_neg h1]
    by_cases h2 : (pc - t1.load_bias_) % 2 ^ 32 < t1.first_addr_
    · simp only [if_pos h2, Option.map_some']
    · simp only [if_neg h2]
      by_cases h3 : (pc - t1.load_bias_) % 2 ^ 32 ≥ t1.last_addr_
      · simp only [if_pos h3, Option.map_some', entryOffset_congr hs]
      · simp only [if_neg h3]
        exact FindEntryLoop_cache_irrelevant memory _ _ _ t1 t2 reads1 reads2 _ _ hc1 hc2 hs
          (fun i _ hi => hall i (by omega))

/-- C25. Memoization is transparent: over a memory on which all entries of
the table can be read, for every object reached from the fresh one by any
sequence of `FindEntry` calls and for every pc, `FindEntry(pc)` on the object
with the populated cache returns the same flag and the same entry offset as
`FindEntry(pc)` on the fresh object with the empty cache. Nothing is assumed
about the decoded addresses: some of them may be 0, the value that stands for
an entry not yet decoded. -/
theorem FindEntry_memoization_transparent (memory : Memory)
    (load_bias start_offset total_entries : Nat) (s : ElfInterfaceArm)
    (hreach : Reachable memory (ElfInterfaceArm.fresh load_bias start_offset total_entries) s)
    (hall : ∀ i, i < total_entries →
      ((ElfInterfaceArm.fresh load_bias start_offset total_entries).decoded memory i).isSome
        = true)
    (pc entry_offset : Nat) :
    ∃ r r₀, FindEntry memory s pc entry_offset = some r ∧
      FindEntry memory (ElfInterfaceArm.fresh load_bias start_offset total_entries) pc
        entry_offset = some r₀ ∧
      r.ret = r₀.ret ∧ r.entry_offset = r₀.entry_offset := by
  obtain ⟨hc, hb, hs, hn⟩ := reachable_cacheOK (cacheOK_fresh memory _ _ _) hreach
  have hc₀ := cacheOK_fresh memory load_bias start_offset total_entries
  obtain ⟨r, hr⟩ := FindEntry_returns memory s pc entry_offset
  obtain ⟨r₀, hr₀⟩ := FindEntry_returns memory
    (ElfInterfaceArm.fresh load_bias start_offset total_entries) pc entry_offset
  have key : (FindEntry memory s pc entry_offset).map (fun r => (r.ret, r.entry_offset))
      = (FindEntry memory (ElfInterfaceArm.fresh load_bias start_offset total_entries) pc
          entry_offset).map (fun r => (r.ret, r.entry_offset)) := by
    generalize hfresh : ElfInterfaceArm.fresh load_bias start_offset total_entries = s₀
      at hc₀ hb hs hn hall
    have hn₀ : s₀.total_entries_ = total_entries := by rw [← hfresh]; rfl
    by_cases hg : s₀.start_offset_ = 0 ∨ s₀.total_entries_ = 0
    · have hg' : s.start_offset_ = 0 ∨ s.total_entries_ = 0 := by rw [hs, hn]; exact hg
      simp only [FindEntry, if_pos hg, if_pos hg', Option.map_some']
    · have hstart : s₀.start_offset_ ≠ 0 := fun h => hg (Or.inl h)
      have hN : s₀.total_entries_ ≠ 0 := fun h => hg (Or.inr h)
      obtain ⟨a0, h0⟩ := Option.isSome_iff_exists.1 (hall 0 (by omega))
      obtain ⟨aL, hL⟩ := Option.isSome_iff_exists.1 (hall (s₀.total_entries_ - 1) (by omega))
      obtain ⟨t₀, reads₀, hfe₀, htc₀, htb₀, hts₀, htn₀, htf₀, htl₀, _⟩ :=
        FindEntry_setup pc entry_offset hc₀ hstart hN h0 hL
      obtain ⟨t, reads, hfe, htc, htb, hts, htn, htf, htl, _⟩ :=
        FindEntry_setup pc entry_offset hc (by rw [hs]; exact hstart) (by rw [hn]; exact hN)
          (by rw [decoded_congr memory hs]; exact h0)
          (by rw [decoded_congr memory hs, hn]; exact hL)
      rw [hfe, hfe₀]
      exact search_cache_irrelevant pc entry_offset reads reads₀ htc.addrs htc₀.addrs
        (by rw [htb₀, htb, hb]) (by rw [hts₀, hts, hs]) (by rw [htn₀, htn, hn])
        (by rw [htf₀, htf]) (by rw [htl₀, htl])
        (fun i hi => by
          rw [decoded_congr memory (hts.trans hs)]
          exact hall i (by omega))
  rw [hr, hr₀] at key
  simp only [Option.map_some', Option.some.injEq, Prod.mk.injEq] at key
  exact ⟨r, r₀, hr, hr₀, key.1, key.2⟩

/-- C25 on the four-entry table whose entry 1 decodes to 0, for the object
that has decoded all four entries: `FindEntry(0x1500)` reads entry 1 again and
returns its offset, as it does on the fresh object. -/
theorem FindEntry_memoization_transparent_witness :
    (sentinelWarmArm.first_addr_, sentinelWarmArm.last_addr_, sentinelWarmArm.addrs_ 1,
      sentinelWarmArm.addrs_ 2) = (0x1000, 0x4000, 0, 0x2000) ∧
    (FindEntry sentinelMemory sentinelWarmArm 0x1500 0).map
      (fun r => (r.ret, r.entry_offset, r.reads)) = some (true, 0x108, [0x108]) ∧
    (FindEntry sentinelMemory sentinelArm 0x1500 0).map
      (fun r => (r.ret, r.entry_offset, r.reads))
      = some (true, 0x108, [0x100, 0x118, 0x110, 0x108]) ∧
    ∃ r r₀, FindEntry sentinelMemory sentinelWarmArm 0x1500 0 = some r ∧
      FindEntry sentinelMemory (ElfInterfaceArm.fresh 0 0x100 4) 0x1500 0 = some r₀ ∧
      r.ret = r₀.ret ∧ r.entry_offset = r₀.entry_offset :=
  ⟨by decide, by decide, by decide,
    FindEntry_memoization_transparent sentinelMemory 0 0x100 4 sentinelWarmArm
      (Reachable.call 0x1500 0
        ((FindEntry sentinelMemory sentinelArm 0x1500 0).getD ⟨false, 0, sentinelArm, [], 0⟩)
        Reachable.start (by decide) rfl)
      (by decide) 0x1500 0⟩

/-! ## MapsBuffer::Parse: how it splits the buffer -/

theorem splitFirstLine_append (body rest : List Char) (h : Char.ofNat 10 ∉ body) :
    splitFirstLine (body ++ Char.ofNat 10 :: rest) = (body ++ [Char.ofNat 10], some rest) := by
  induction body with
  | nil => exact splitFirstLine_newline _ rest rfl
  | cons c cs ih =>
    have hc : ¬ c = Char.ofNat 10 := fun hc => h (by rw [hc]; exact List.mem_cons_self _ _)
    have hcs : Char.ofNat 10 ∉ cs := fun hm => h (List.mem_cons_of_mem _ hm)
    rw [List.cons_append, splitFirstLine_other c _ hc, ih hcs]
    rfl

/-- A line that ends with its newline is what `MapsBuffer::Parse` cuts off the
front of the buffer. -/
theorem splitFirstLine_line (line rest : List Char) (h : LineEndsWithNewline line) :
    splitFirstLine (line ++ rest) = (line, some rest) := by
  have hl : line.dropLast ++ [Char.ofNat 10] = line :=
    List.dropLast_append_getLast? _ h.1
  have := splitFirstLine_append line.dropLast rest h.2
  rw [hl] at this
  rw [← this, ← hl]
  simp

/-- The last line of a buffer, with or without a newline at its end, is cut off
whole, and nothing or the empty string is left. -/
theorem splitFirstLine_last :
    ∀ (last : List Char), Char.ofNat 10 ∉ last.dropLast →
      (splitFirstLine last).1 = last ∧
      ((splitFirstLine last).2 = none ∨ (splitFirstLine last).2 = some []) := by
  intro last
  induction last with
  | nil => intro _; exact ⟨rfl, Or.inl rfl⟩
  | cons c cs ih =>
    intro h
    cases cs with
    | nil =>
      by_cases hc : c = Char.ofNat 10
      · rw [splitFirstLine_newline c [] hc]
        exact ⟨rfl, Or.inr rfl⟩
      · rw [splitFirstLine_other c [] hc]
        exact ⟨rfl, Or.inl rfl⟩
    | cons d ds =>
      rw [List.dropLast_cons₂] at h
      have hc : ¬ c = Char.ofNat 10 := fun hc => h (by rw [hc]; exact List.mem_cons_self _ _)
      have hcs : Char.ofNat 10 ∉ (d :: ds).dropLast := fun hm => h (List.mem_cons_of_mem _ hm)
      obtain ⟨h1, h2⟩ := ih hcs
      rw [splitFirstLine_other c _ hc]
      exact ⟨by rw [h1], h2⟩

/-- One loop body of `MapsBuffer::Parse` on a buffer that starts with an
accepted line and goes on after it. -/
theorem MapsBuffer_ParseLoop_step (fuel : Nat) (line rest : List Char) (m : MapInfo)
    (maps_ : List MapInfo) (hline : LineEndsWithNewline line)
    (hacc : ParseLine line = .returnTrue m) (hrest : rest ≠ []) :
    MapsBuffer.ParseLoop (fuel + 1) (line ++ rest) maps_
      = MapsBuffer.ParseLoop fuel rest (maps_ ++ [m]) := by
  simp only [MapsBuffer.ParseLoop, splitFirstLine_line line rest hline, hacc, if_neg hrest]

/-- The loop bodies of `MapsBuffer::Parse` over accepted lines, each ending
with its newline, when the buffer goes on after them. -/
theorem MapsBuffer_ParseLoop_prefix :
    ∀ (lines : List (List Char)) (entries : List MapInfo) (fuel : Nat) (rest : List Char)
      (maps_ : List MapInfo),
      (∀ line ∈ lines, LineEndsWithNewline line) →
      lines.map ParseLine = entries.map ParseLineResult.returnTrue → rest ≠ [] →
      MapsBuffer.ParseLoop (fuel + lines.length) (lines.flatten ++ rest) maps_
        = MapsBuffer.ParseLoop fuel rest (maps_ ++ entries) := by
  intro lines
  induction lines with
  | nil =>
    intro entries fuel rest maps_ _ hacc _
    cases entries with
    | nil => simp
    | cons e es => simp at hacc
  | cons line lines ih =>
    intro entries fuel rest maps_ hterm hacc hrest
    cases entries with
    | nil => simp at hacc
    | cons e es =>
      simp only [List.map_cons, List.cons.injEq] at hacc
      have hne : lines.flatten ++ rest ≠ [] := by
        intro h
        exact hrest (List.append_eq_nil.1 h).2
      rw [List.flatten_cons, List.append_assoc, List.length_cons, ← Nat.add_assoc,
        MapsBuffer_ParseLoop_step _ line _ e maps_ (hterm line (List.mem_cons_self _ _))
          hacc.1 hne,
        ih es fuel rest (maps_ ++ [e]) (fun l hl => hterm l (List.mem_cons_of_mem _ hl))
          hacc.2 hrest]
      simp

theorem lines_length_le (lines : List (List Char))
    (h : ∀ line ∈ lines, LineEndsWithNewline line) : lines.length ≤ lines.flatten.length := by
  induction lines with
  | nil => simp
  | cons line lines ih =>
    have h1 := h line (List.mem_cons_self _ _)
    have hne : line ≠ [] := by
      intro h0
      rw [h0] at h1
      simp [LineEndsWithNewline] at h1
    have hlen : 0 < line.length := List.length_pos.2 hne
    have := ih (fun l hl => h l (List.mem_cons_of_mem _ hl))
    simp only [List.flatten_cons, List.length_cons, List.length_append]
    omega

/-- C26. `MapsBuffer::Parse` splits the buffer at newlines: for every buffer
that consists of `k ≥ 1` lines that `ParseLine` accepts, the lines `lines`,
each ending with its newline, followed by the last line `last`, which may omit
the newline, `Parse` returns true and appends exactly `k` entries in the order
of the lines, entry `j` being the result of `ParseLine` on line `j`. -/
theorem MapsBuffer_Parse_lines (lines : List (List Char)) (last : List Char)
    (entries : List MapInfo) (m : MapInfo) (maps_ : List MapInfo)
    (hterm : ∀ line ∈ lines, LineEndsWithNewline line)
    (hlast : Char.ofNat 10 ∉ last.dropLast)
    (hacc : lines.map ParseLine = entries.map ParseLineResult.returnTrue)
    (hlastacc : ParseLine last = .returnTrue m) :
    MapsBuffer.Parse (lines ++ [last]).flatten maps_
      = some (.returnTrue (maps_ ++ (entries ++ [m]))) ∧
    (entries ++ [m]).length = (lines ++ [last]).length ∧
    (lines ++ [last]).map ParseLine = (entries ++ [m]).map ParseLineResult.returnTrue := by
  have hlen : entries.length = lines.length := by
    have := congrArg List.length hacc
    simpa using this.symm
  refine ⟨?_, by simp [hlen], by simp [hacc, hlastacc]⟩
  have hne : last ≠ [] := by
    intro h
    rw [h, ParseLine_nil] at hlastacc
    cases hlastacc
  have hflat : (lines ++ [last]).flatten = lines.flatten ++ last := by simp
  have hle := lines_length_le lines hterm
  obtain ⟨k, hk⟩ : ∃ k, (lines.flatten ++ last).length + 1 = (k + 1) + lines.length :=
    ⟨(lines.flatten ++ last).length - lines.length, by
      simp only [List.length_append]
      omega⟩
  rw [hflat]
  unfold MapsBuffer.Parse
  rw [hk, MapsBuffer_ParseLoop_prefix lines entries (k + 1) last maps_ hterm hacc hne]
  obtain ⟨h1, h2⟩ := splitFirstLine_last last hlast
  simp only [MapsBuffer.ParseLoop, h1, hlastacc]
  rcases h2 with h2 | h2
  · simp only [h2, List.append_assoc]
  · simp only [h2, if_true, List.append_assoc]

/-- C26 on the buffer of two lines, the second without a newline. -/
theorem MapsBuffer_Parse_lines_witness :
    ([firstLine] ++ [lastLine]).flatten
      = "1000-2000 r-xp 0 00:00 0 a\n2000-3000 r-xp 0 00:00 0 b".toList ∧
    ParseLine firstLine = .returnTrue regionA ∧ ParseLine lastLine = .returnTrue regionB ∧
    MapsBuffer.Parse ([firstLine] ++ [lastLine]).flatten []
      = some (.returnTrue ([] ++ ([regionA] ++ [regionB]))) ∧
    ([regionA] ++ [regionB]).length = ([firstLine] ++ [lastLine]).length ∧
    ([firstLine] ++ [lastLine]).map ParseLine
      = ([regionA] ++ [regionB]).map ParseLineResult.returnTrue :=
  ⟨by decide, by decide, by decide,
    MapsBuffer_Parse_lines [firstLine] lastLine [regionA] regionB [] (by decide) (by decide)
      (by decide) (by decide)⟩

/-! ## MapsBuffer::Parse on empty and blank lines -/

/-- `ParseLine` returns false on a line of white space only: `sscanf` meets
the end of the input before the first conversion. -/
theorem ParseLine_blank (line : List Char) (h : ∀ c ∈ line, isspace c = true) :
    ParseLine line = .returnFalse := by
  have hs : skipSpace line = [] := by
    have := skipSpace_append_of_blank [] h
    simpa [skipSpace] using this
  simp [ParseLine, sscanfMapsLine, scanHex, hs]

/-- On a buffer in which accepted lines are followed by a line of white space
only, `MapsBuffer::Parse` returns false, and the table holds the entries of
the lines before that line. -/
theorem MapsBuffer_Parse_blank_line (lines : List (List Char)) (entries : List MapInfo)
    (blank rest : List Char) (maps_ : List MapInfo)
    (hterm : ∀ line ∈ lines, LineEndsWithNewline line)
    (hacc : lines.map ParseLine = entries.map ParseLineResult.returnTrue)
    (hblank : ∀ c ∈ blank, isspace c = true) (hnl : Char.ofNat 10 ∉ blank) :
    MapsBuffer.Parse (lines.flatten ++ (blank ++ Char.ofNat 10 :: rest)) maps_
      = some (.returnFalse (maps_ ++ entries)) := by
  have hle := lines_length_le lines hterm
  obtain ⟨k, hk⟩ : ∃ k, (lines.flatten ++ (blank ++ Char.ofNat 10 :: rest)).length + 1
      = (k + 1) + lines.length :=
    ⟨(lines.flatten ++ (blank ++ Char.ofNat 10 :: rest)).length - lines.length, by
      simp only [List.length_append]
      omega⟩
  unfold MapsBuffer.Parse
  rw [hk, MapsBuffer_ParseLoop_prefix lines entries (k + 1) _ maps_ hterm hacc (by simp)]
  have hline : ParseLine (blank ++ [Char.ofNat 10]) = .returnFalse :=
    ParseLine_blank _ (fun c hc => by
      rcases List.mem_append.1 hc with h | h
      · exact hblank c h
      · rw [List.mem_singleton.1 h]
        decide)
  simp only [MapsBuffer.ParseLoop, splitFirstLine_append blank rest hnl, hline]

end unwindstack
